import Mathlib

/-!
Verification of the Tabularize layout engine (`tabularize.py`).

The Python source is shallowly embedded:
* Python `dict`s become insertion-ordered association lists (`alookup` /
  `ainsert` below); assignment to an existing key replaces the value in
  place, assignment to a fresh key appends — exactly CPython's semantics.
* Python `set`s (used only for membership tests and, in
  `find_disconnected_components`, for the iteration over node ids) are
  modelled as duplicate-free lists in first-insertion order.
* Numbers are `Int` (all arithmetic in the source on coordinates, widths
  and distances stays integral when the inputs are integral; the only
  floating-point uses — a `sqrt` used purely as a sort key and the
  `float('inf')` sort sentinel — are modelled monotonically by the squared
  distance and an `Option` sentinel respectively).
* `sorted` is modelled by a stable insertion sort.
* The unbounded recursion of the chain-enumeration DFS (which does not
  terminate on cyclic graphs) is modelled with fuel; exhausted fuel makes
  the whole computation return `none`, the analogue of the Python
  `RecursionError` escaping the function.
-/

namespace Tabularize

/-! ## Association lists: the model of Python dicts -/

/-- Python `d.get(k)` / `k in d`: first (only) binding of `k`. -/
def alookup {κ β : Type} [DecidableEq κ] : List (κ × β) → κ → Option β
  | [], _ => none
  | (k', v') :: rest, k => if k' = k then some v' else alookup rest k

/-- Python `d[k] = v`: replace in place if present, else append. -/
def ainsert {κ β : Type} [DecidableEq κ] : List (κ × β) → κ → β → List (κ × β)
  | [], k, v => [(k, v)]
  | (k', v') :: rest, k, v =>
    if k' = k then (k, v) :: rest else (k', v') :: ainsert rest k v

/-- Python `del d[k]`: drop the (unique) binding of `k`. -/
def aerase {κ β : Type} [DecidableEq κ] : List (κ × β) → κ → List (κ × β)
  | [], _ => []
  | (k', v') :: rest, k => if k' = k then rest else (k', v') :: aerase rest k

/-- Python `d.keys()` in insertion order. -/
def akeys {κ β : Type} : List (κ × β) → List κ :=
  List.map Prod.fst

/-- Python `set.add` on a set modelled as a dup-free list. -/
def addUnique {α : Type} [DecidableEq α] (l : List α) (x : α) : List α :=
  if x ∈ l then l else l ++ [x]

/-- Fold `addUnique` over a list (Python `set.update`). -/
def addAllUnique {α : Type} [DecidableEq α] (l : List α) (xs : List α) : List α :=
  xs.foldl addUnique l

/-! ## Sorting: the model of Python `sorted` (stable) -/

/-- Insert `x` in front of the first element not strictly below it;
this is the stability-preserving insertion. -/
def insertSorted {α : Type} (lt : α → α → Bool) (x : α) : List α → List α
  | [] => [x]
  | y :: ys => if lt y x then y :: insertSorted lt x ys else x :: y :: ys

/-- Stable insertion sort with a strict comparison, ascending: the model of
Python `sorted` (Timsort is stable; equal keys keep their input order). -/
def isortBy {α : Type} (lt : α → α → Bool) : List α → List α
  | [] => []
  | x :: xs => insertSorted lt x (isortBy lt xs)

/-- `sorted` on integers. -/
def sortInts : List Int → List Int := isortBy (fun a b => a < b)

/-- `sorted` on naturals (column indices, node ids). -/
def sortNats : List Nat → List Nat := isortBy (fun a b => a < b)

/-- `max(...)` over a list known nonempty at call sites (Python raises on
an empty argument; callers below only use it under a nonemptiness guard). -/
def maxNats : List Nat → Nat
  | [] => 0
  | x :: xs => xs.foldl max x

/-- `min(...)` over a list known nonempty at call sites. -/
def minNats : List Nat → Nat
  | [] => 0
  | x :: xs => xs.foldl min x

/-- `max(...)` over integers, nonempty at call sites. -/
def maxInts : List Int → Int
  | [] => 0
  | x :: xs => xs.foldl max x

/-- `min(...)` over integers, nonempty at call sites. -/
def minInts : List Int → Int
  | [] => 0
  | x :: xs => xs.foldl min x

/-! ## Data model -/

/-- A graph-editor node: `{id, type, pos: [x, y], size: [w, h]}`. -/
structure PyNode where
  id : Nat
  type : String
  pos : Int × Int
  size : Int × Int
deriving DecidableEq, Repr

/-- A link `{id, origin_id, origin_slot, target_id, target_slot}`. -/
structure PyLink where
  id : Nat
  origin_id : Nat
  origin_slot : Int
  target_id : Nat
  target_slot : Int
deriving DecidableEq, Repr

/-- The request payload `{nodes, links}`. -/
structure GraphData where
  nodes : List PyNode
  links : List PyLink
deriving DecidableEq, Repr

/-- Default node for association-list lookups that cannot fail at their
call sites (the Python source indexes the dict directly there). -/
def dnode : PyNode := ⟨0, "", (0, 0), (0, 0)⟩

/-- Result of `organize_nodes` / `organize_single_component`.  `sizes` is
an `Option` because two degenerate early returns in the source build the
result dict without a `'sizes'` key. -/
structure OrganizeResult where
  status : String
  message : String
  positions : List (Nat × Int × Int)
  sizes : Option (List (Nat × Int × Int))
deriving DecidableEq, Repr

/-! ## Geometry: `line_segment_intersects_rect` -/

/-- `point_in_rect` (closed rectangle). -/
def point_in_rect (rect_x rect_y rect_w rect_h px py : Int) : Bool :=
  rect_x ≤ px && px ≤ rect_x + rect_w && rect_y ≤ py && py ≤ rect_y + rect_h

/-- `ccw`: strict orientation test `(cy-ay)*(bx-ax) > (by-ay)*(cx-ax)`. -/
def ccw (ax ay bx by' cx cy : Int) : Bool :=
  (cy - ay) * (bx - ax) > (by' - ay) * (cx - ax)

/-- `line_segments_intersect`: proper-crossing test by orientation signs. -/
def line_segments_intersect (ax1 ay1 ax2 ay2 bx1 by1 bx2 by2 : Int) : Bool :=
  let a := ccw ax1 ay1 bx1 by1 bx2 by2
  let b := ccw ax2 ay2 bx1 by1 bx2 by2
  let c := ccw ax1 ay1 ax2 ay2 bx1 by1
  let d := ccw ax1 ay1 ax2 ay2 bx2 by2
  a ≠ b && c ≠ d

/-- `line_segment_intersects_rect`: endpoint inside, or the segment crosses
one of the four rectangle edges. -/
def line_segment_intersects_rect
    (x1 y1 x2 y2 rect_x rect_y rect_w rect_h : Int) : Bool :=
  if point_in_rect rect_x rect_y rect_w rect_h x1 y1 ||
     point_in_rect rect_x rect_y rect_w rect_h x2 y2 then
    true
  else
    let edges : List (Int × Int × Int × Int) :=
      [ (rect_x, rect_y, rect_x + rect_w, rect_y),
        (rect_x + rect_w, rect_y, rect_x + rect_w, rect_y + rect_h),
        (rect_x, rect_y + rect_h, rect_x + rect_w, rect_y + rect_h),
        (rect_x, rect_y, rect_x, rect_y + rect_h) ]
    edges.any fun e =>
      line_segments_intersect x1 y1 x2 y2 e.1 e.2.1 e.2.2.1 e.2.2.2

/-! ## Graph construction -/

/-- One link's contribution to the (children, parents) adjacency pair:
append the target to the origin's children and the origin to the target's
parents, or drop the link when either endpoint is unknown. -/
def add_link_edge (cp : List (Nat × List Nat) × List (Nat × List Nat))
    (link : PyLink) : List (Nat × List Nat) × List (Nat × List Nat) :=
  if (alookup cp.1 link.origin_id).isSome &&
     (alookup cp.2 link.target_id).isSome then
    (ainsert cp.1 link.origin_id
       ((alookup cp.1 link.origin_id).getD [] ++ [link.target_id]),
     ainsert cp.2 link.target_id
       ((alookup cp.2 link.target_id).getD [] ++ [link.origin_id]))
  else cp

/-- `build_node_graph`: node lookup table plus child/parent adjacency,
pre-seeded empty, then filled from the links (links whose endpoints are
not both known node ids are dropped). -/
def build_node_graph (nodes : List PyNode) (links : List PyLink) :
    List (Nat × PyNode) × List (Nat × List Nat) × List (Nat × List Nat) :=
  let node_map := nodes.foldl (fun m n => ainsert m n.id n) []
  let seed : List (Nat × List Nat) := nodes.foldl (fun m n => ainsert m n.id []) []
  let cp := links.foldl add_link_edge (seed, seed)
  (node_map, cp.1, cp.2)

/-! ## `find_disconnected_components`

The source discovers components with a recursive depth-first search over an
undirected adjacency map; the recursion terminates because every call
visits a fresh node.  The embedding computes the same reachable sets by
iterating one-step neighbour expansion `|node_ids|` times (the expansion is
monotone and bounded by the vertex count, so this reaches the closure).
Only the membership of each component and the order in which roots are
taken matter downstream — component lists are used as id sets and the
components are emitted in root order. -/

/-- One round of undirected-neighbour expansion. -/
def expandOnce (adjacency : List (Nat × List Nat)) (cur : List Nat) : List Nat :=
  cur.foldl (fun acc n => addAllUnique acc ((alookup adjacency n).getD [])) cur

/-- All nodes connected to `start` (iterated closure). -/
def reachSet (adjacency : List (Nat × List Nat)) (bound : Nat) (start : Nat) :
    List Nat :=
  Nat.rec [start] (fun _ acc => expandOnce adjacency acc) bound

/-- `find_disconnected_components`. -/
def find_disconnected_components (nodes : List PyNode) (links : List PyLink) :
    List (List Nat) :=
  -- `node_ids = {node['id'] for node in nodes}`: set modelled in
  -- first-insertion order.
  let node_ids := nodes.foldl (fun s n => addUnique s n.id) []
  let adjacency : List (Nat × List Nat) :=
    node_ids.foldl (fun m i => ainsert m i []) []
  let adjacency := links.foldl
    (fun adj link =>
      if (alookup adj link.origin_id).isSome &&
         (alookup adj link.target_id).isSome then
        let adj := ainsert adj link.origin_id
          (addUnique ((alookup adj link.origin_id).getD []) link.target_id)
        ainsert adj link.target_id
          (addUnique ((alookup adj link.target_id).getD []) link.origin_id)
      else adj)
    adjacency
  let step := fun (st : List Nat × List (List Nat)) (node_id : Nat) =>
    let (visited, components) := st
    if node_id ∈ visited then st
    else
      let component := reachSet adjacency node_ids.length node_id
      (addAllUnique visited component, components ++ [component])
  (node_ids.foldl step ([], [])).2

/-! ## `find_all_chains` -/

/-- The recursive chain-building DFS (`dfs_build_chains`), with fuel in
place of Python's call stack: `none` models the `RecursionError` the
source would raise on a cycle reachable from a root.  On an acyclic graph
the recursion depth is bounded by the node count, so the fuel chosen by
the caller (`#nodes + 1`) never runs out there. -/
def dfs_build_chains (children : List (Nat × List Nat)) :
    Nat → Nat → List Nat → Option (List (List Nat))
  | 0, _, _ => none
  | fuel + 1, current_id, current_chain =>
    let current_chain := current_chain ++ [current_id]
    let node_children := (alookup children current_id).getD []
    if node_children.isEmpty then some [current_chain]
    else
      node_children.foldl
        (fun acc child_id => do
          let chains ← acc
          let more ← dfs_build_chains children fuel child_id current_chain
          pure (chains ++ more))
        (some [])

/-- `find_all_chains`: every root-to-leaf directed path. -/
def find_all_chains (parents : List (Nat × List Nat))
    (children : List (Nat × List Nat)) (fuel : Nat) :
    Option (List (List Nat)) :=
  let start_nodes := (parents.filter (fun p => p.2.isEmpty)).map Prod.fst
  start_nodes.foldl
    (fun acc start_id => do
      let chains ← acc
      let more ← dfs_build_chains children fuel start_id []
      pure (chains ++ more))
    (some [])

/-! ## `organize_single_component` — column layout pipeline

The pipeline is split into one definition per step of the source so the
theorems below can talk about intermediate states.  Direct dict indexing
in the source (`d[k]` at points where the key is always present) is
modelled with `getD` defaults. -/

/-- Phase A, one `(col_idx, node_id)` cell of a chain: create the column
on first sight, then record the node and widen the column if the node is
new to it. -/
def chain_cell_step (node_map : List (Nat × PyNode))
    (st : List (Nat × List Nat) × List (Nat × Int)) (ce : Nat × Nat) :
    List (Nat × List Nat) × List (Nat × Int) :=
  let col_idx := ce.1
  let node_id := ce.2
  let st :=
    if (alookup st.1 col_idx).isNone then
      (ainsert st.1 col_idx [], ainsert st.2 col_idx 0)
    else st
  if node_id ∈ (alookup st.1 col_idx).getD [] then st
  else
    let node_width := ((alookup node_map node_id).getD dnode).size.1
    (ainsert st.1 col_idx ((alookup st.1 col_idx).getD [] ++ [node_id]),
     ainsert st.2 col_idx (max ((alookup st.2 col_idx).getD 0) node_width))

/-- Phase A (source step "First pass"): assign longest-chain nodes to
columns by chain position, first assignment wins, tracking the max node
width per column. -/
def chain_column_assignment (longest_chains : List (List Nat))
    (node_map : List (Nat × PyNode)) :
    List (Nat × List Nat) × List (Nat × Int) :=
  longest_chains.foldl
    (fun st chain => chain.enum.foldl (chain_cell_step node_map) st)
    ([], [])

/-- Phase B: cumulative X per column, walking columns in ascending index
order from `START_X = 100` with `COLUMN_SPACING = 100`. -/
def initial_column_x (column_widths : List (Nat × Int)) : List (Nat × Int) :=
  ((sortNats (akeys column_widths)).foldl
    (fun (st : List (Nat × Int) × Int) col_idx =>
      let (cxp, current_x) := st
      (ainsert cxp col_idx current_x,
       current_x + (alookup column_widths col_idx).getD 0 + 100))
    ([], 100)).1

/-- Positions for the longest-chain nodes: one row per chain
(`ROW_HEIGHT = 150`), first placement of a shared node wins. -/
def assign_chain_positions (longest_chains : List (List Nat))
    (column_x_positions : List (Nat × Int)) (start_y : Int) :
    List (Nat × Int × Int) :=
  longest_chains.enum.foldl
    (fun np che =>
      let y_pos := start_y + che.1 * 150
      che.2.enum.foldl
        (fun np (ce : Nat × Nat) =>
          if (alookup np ce.2).isSome then np
          else ainsert np ce.2 ((alookup column_x_positions ce.1).getD 0, y_pos))
        np)
    []

/-- `pos_to_column`: reverse map X-coordinate → column index. -/
def pos_to_column_map (column_x_positions : List (Nat × Int)) : List (Int × Nat) :=
  column_x_positions.foldl (fun m e => ainsert m e.2 e.1) []

/-- Seed `node_columns` from the already positioned nodes via
`pos_to_column`. -/
def seed_node_columns (new_positions : List (Nat × Int × Int))
    (p2c : List (Int × Nat)) : List (Nat × Nat) :=
  new_positions.foldl
    (fun m e =>
      match alookup p2c e.2.1 with
      | some col => ainsert m e.1 col
      | none => m)
    []

/-- Step 4, column choice for one unpositioned node: after its rightmost
positioned parent; else before its leftmost positioned child if it has no
inputs at all (deferred to a fresh end column when it does); else
appended at the end. -/
def place_target_column (children parents : List (Nat × List Nat))
    (node_columns : List (Nat × Nat)) (column_x_positions : List (Nat × Int))
    (node_id : Nat) : Nat :=
  let positioned_children :=
    ((alookup children node_id).getD []).filter
      (fun c => (alookup node_columns c).isSome)
  let positioned_parents :=
    ((alookup parents node_id).getD []).filter
      (fun p => (alookup node_columns p).isSome)
  if !positioned_parents.isEmpty then
    maxNats (positioned_parents.map (fun p => (alookup node_columns p).getD 0)) + 1
  else if !positioned_children.isEmpty then
    let child_columns :=
      positioned_children.map (fun c => (alookup node_columns c).getD 0)
    let min_child_col := minNats child_columns
    let has_inputs := !((alookup parents node_id).getD []).isEmpty
    if has_inputs then
      if column_x_positions.isEmpty then 0
      else maxNats (akeys column_x_positions) + 1
    else if min_child_col = 0 then 0  -- `min_child_col <= 0`; columns are naturals
    else min_child_col - 1
  else
    if column_x_positions.isEmpty then 0
    else maxNats (akeys column_x_positions) + 1

/-- Step 4, one node: choose a column, create/widen it, record the
assignment. -/
def place_one (node_map : List (Nat × PyNode))
    (children parents : List (Nat × List Nat))
    (st : List (Nat × Nat) × List (Nat × Int) × List (Nat × Int))
    (node_id : Nat) :
    List (Nat × Nat) × List (Nat × Int) × List (Nat × Int) :=
  let node_columns := st.1
  let column_x_positions := st.2.1
  let column_widths := st.2.2
  let node := (alookup node_map node_id).getD dnode
  let target_column :=
    place_target_column children parents node_columns column_x_positions node_id
  let ccw :=
    if (alookup column_x_positions target_column).isNone then
      let new_x : Int :=
        if column_x_positions.isEmpty then 100
        else
          let last_col := maxNats (akeys column_x_positions)
          (alookup column_x_positions last_col).getD 0 +
            (alookup column_widths last_col).getD 0 + 100
      (ainsert column_x_positions target_column new_x,
       ainsert column_widths target_column node.size.1)
    else
      (column_x_positions,
       ainsert column_widths target_column
         (max ((alookup column_widths target_column).getD 0) node.size.1))
  (ainsert node_columns node_id target_column, ccw.1, ccw.2)

/-- Step 4: seed `node_columns` from the chain positions, then place every
node of `node_map` that has no position yet, in `node_map` key order.
(The source guards this with `unpositioned_count > 0`; when the count is
zero the unpositioned list is empty and the fold is the identity, so the
two source branches coincide with this single definition.) -/
def assign_remaining_columns (node_map : List (Nat × PyNode))
    (children parents : List (Nat × List Nat))
    (new_positions : List (Nat × Int × Int))
    (column_x_positions : List (Nat × Int)) (column_widths : List (Nat × Int)) :
    List (Nat × Nat) × List (Nat × Int) × List (Nat × Int) :=
  let p2c := pos_to_column_map column_x_positions
  let node_columns := seed_node_columns new_positions p2c
  let unpositioned_nodes :=
    (akeys node_map).filter (fun k => (alookup new_positions k).isNone)
  unpositioned_nodes.foldl (place_one node_map children parents)
    (node_columns, column_x_positions, column_widths)

/-! ### Step 6: the leftward-link correction loop -/

/-- A detected leftward link record (the source also stores the raw link
and a debug distance; only these four fields are read afterwards). -/
structure LeftwardLink where
  origin_id : Nat
  target_id : Nat
  origin_col : Nat
  target_col : Nat
deriving DecidableEq, Repr

/-- Loop-invariant context: the links, the node table and the node sizes
as they stand during the loop (original input sizes; resizing happens
only after the loop, in step 6c). -/
structure LoopCtx where
  links : List PyLink
  node_map : List (Nat × PyNode)
  node_sizes0 : List (Nat × Int × Int)
deriving Repr

/-- The mutable state of the correction loop. -/
structure ColState where
  node_columns : List (Nat × Nat)
  column_x_positions : List (Nat × Int)
deriving DecidableEq, Repr

/-- Recompute every column's width from the sizes of its current member
nodes (start of every pass). -/
def recompute_column_widths (ctx : LoopCtx)
    (node_columns : List (Nat × Nat)) : List (Nat × Int) :=
  node_columns.foldl
    (fun cw e =>
      match alookup ctx.node_sizes0 e.1 with
      | none => cw  -- `node_id in node_sizes` guard
      | some sz =>
        match alookup cw e.2 with
        | none => ainsert cw e.2 sz.1
        | some w => ainsert cw e.2 (max w sz.1))
    []

/-- `column_widths.get(origin_col, node_sizes.get(origin_id, node_map[origin_id]['size']))[0]`. -/
def origin_width_of (ctx : LoopCtx) (column_widths : List (Nat × Int))
    (origin_col : Nat) (origin_id : Nat) : Int :=
  match alookup column_widths origin_col with
  | some w => w
  | none =>
    ((alookup ctx.node_sizes0 origin_id).getD
      ((alookup ctx.node_map origin_id).getD dnode).size).1

/-- Detect all leftward links: target column X strictly left of the origin
column's right edge. -/
def detect_leftward (ctx : LoopCtx) (column_widths : List (Nat × Int))
    (st : ColState) : List LeftwardLink :=
  ctx.links.foldl
    (fun acc link =>
      match alookup st.node_columns link.origin_id,
            alookup st.node_columns link.target_id with
      | some origin_col, some target_col =>
        let origin_x := (alookup st.column_x_positions origin_col).getD 0
        let target_x := (alookup st.column_x_positions target_col).getD 0
        let origin_width := origin_width_of ctx column_widths origin_col link.origin_id
        if target_x < origin_x + origin_width then
          acc ++ [⟨link.origin_id, link.target_id, origin_col, target_col⟩]
        else acc
      | _, _ => acc)
    []

/-- Group leftward links by target node, in order of first appearance. -/
def group_by_target (lws : List LeftwardLink) : List (Nat × List LeftwardLink) :=
  lws.foldl
    (fun m lw => ainsert m lw.target_id ((alookup m lw.target_id).getD [] ++ [lw]))
    []

/-- Would moving `target_id` to `col_idx` create a new leftward link to one
of its own children? -/
def would_create_leftward (links : List PyLink)
    (node_columns : List (Nat × Nat)) (target_id : Nat) (col_idx : Nat) : Bool :=
  links.any fun link =>
    link.origin_id = target_id &&
    (match alookup node_columns link.target_id with
     | some child_col => decide (child_col ≤ col_idx)
     | none => false)

/-- The column chosen for a target with offending links: the first existing
column strictly right of the rightmost offending origin column that is
safe, else `max_origin_col + 1`. -/
def choose_new_target_col (sorted_cols : List Nat) (links : List PyLink)
    (node_columns : List (Nat × Nat)) (target_id : Nat)
    (max_origin_col : Nat) : Nat :=
  match sorted_cols.find?
      (fun c => max_origin_col < c &&
        !(would_create_leftward links node_columns target_id c)) with
  | some c => c
  | none => max_origin_col + 1

/-- Apply the fix for one target group: possibly move the target to a new
column and give that column a provisional X just right of the rightmost
offending origin's right edge. -/
def fix_one_target (ctx : LoopCtx) (column_widths : List (Nat × Int))
    (st : ColState) (target_id : Nat) (lw_links : List LeftwardLink) : ColState :=
  let max_origin_col := maxNats (lw_links.map LeftwardLink.origin_col)
  let current_target_col := (alookup st.node_columns target_id).getD 0
  let sorted_cols := sortNats (akeys st.column_x_positions)
  let new_target_col :=
    choose_new_target_col sorted_cols ctx.links st.node_columns target_id max_origin_col
  if new_target_col ≠ current_target_col then
    let node_columns := ainsert st.node_columns target_id new_target_col
    let cxp :=
      if (alookup st.column_x_positions new_target_col).isNone then
        ainsert st.column_x_positions new_target_col 0  -- placeholder
      else st.column_x_positions
    let max_origin_right := lw_links.foldl
      (fun m lw =>
        let origin_col := (alookup node_columns lw.origin_id).getD 0
        let origin_x := (alookup cxp origin_col).getD 0
        let origin_width := origin_width_of ctx column_widths origin_col lw.origin_id
        max m (origin_x + origin_width))
      0
    ⟨node_columns, ainsert cxp new_target_col (max_origin_right + 100)⟩
  else st

/-- One pass's fixes, target group by target group. -/
def apply_fixes (ctx : LoopCtx) (column_widths : List (Nat × Int))
    (st : ColState) (groups : List (Nat × List LeftwardLink)) : ColState :=
  groups.foldl (fun st g => fix_one_target ctx column_widths st g.1 g.2) st

/-- The iteration cap of the correction loop. -/
def max_iterations : Nat := 20

/-- The correction loop: up to `fuel` passes; each pass recomputes column
widths, detects leftward links, stops if none, else applies the grouped
fixes.  Returns the final state, the number of executed passes, and the
column-width map computed at the start of the last executed pass (the
value the source's `column_widths` variable holds at loop exit). -/
def fix_loop_go (ctx : LoopCtx) :
    Nat → Nat → ColState → List (Nat × Int) → ColState × Nat × List (Nat × Int)
  | 0, iteration, st, last_cw => (st, iteration, last_cw)
  | fuel + 1, iteration, st, _ =>
    let iteration := iteration + 1
    let cw := recompute_column_widths ctx st.node_columns
    let lws := detect_leftward ctx cw st
    if lws.isEmpty then (st, iteration, cw)
    else fix_loop_go ctx fuel iteration (apply_fixes ctx cw st (group_by_target lws)) cw

/-- The correction loop with the source's cap of 20 passes. -/
def fix_loop (ctx : LoopCtx) (st : ColState) : ColState × Nat × List (Nat × Int) :=
  fix_loop_go ctx max_iterations 0 st []

/-! ### Steps 6b–7b: compaction, resizing, uniform spacing, vertical sort -/

/-- Step 6b: rebuild column → member-node lists from the final column
assignments, in assignment-map order. -/
def columns_to_nodes_of (node_columns : List (Nat × Nat)) : List (Nat × List Nat) :=
  node_columns.foldl
    (fun m e => ainsert m e.2 ((alookup m e.2).getD [] ++ [e.1]))
    []

/-- Step 6b: delete columns with no assigned nodes from the X map and the
width map. -/
def remove_empty_columns (column_x_positions column_widths : List (Nat × Int))
    (columns_to_nodes : List (Nat × List Nat)) :
    List (Nat × Int) × List (Nat × Int) :=
  let empty_columns :=
    (akeys column_x_positions).filter (fun c => (alookup columns_to_nodes c).isNone)
  (empty_columns.foldl aerase column_x_positions,
   empty_columns.foldl
     (fun cw c => if (alookup cw c).isSome then aerase cw c else cw)
     column_widths)

/-- Step 6b: recompute each surviving column's width from its actual
member nodes' original widths. -/
def rebuild_column_widths (node_map : List (Nat × PyNode))
    (sorted_columns : List Nat) (columns_to_nodes : List (Nat × List Nat))
    (column_widths : List (Nat × Int)) : List (Nat × Int) :=
  sorted_columns.foldl
    (fun cw c =>
      match alookup columns_to_nodes c with
      | none => cw
      | some nids =>
        match nids.map (fun nid => ((alookup node_map nid).getD dnode).size.1) with
        | [] => cw  -- unreachable: member lists are built nonempty
        | w :: ws => ainsert cw c (ws.foldl max w))
    column_widths

/-- Step 6c: resize every node to its column's width, preserving the
node's input height. -/
def resize_nodes (node_map : List (Nat × PyNode)) (sorted_columns : List Nat)
    (columns_to_nodes : List (Nat × List Nat)) (column_widths : List (Nat × Int))
    (node_sizes : List (Nat × Int × Int)) : List (Nat × Int × Int) :=
  sorted_columns.foldl
    (fun ns c =>
      match alookup columns_to_nodes c with
      | none => ns
      | some nids =>
        let column_width := (alookup column_widths c).getD 0
        nids.foldl
          (fun ns nid =>
            ainsert ns nid (column_width, ((alookup node_map nid).getD dnode).size.2))
          ns)
    node_sizes

/-- Step 6d: re-space columns uniformly from `START_X = 100` with
`COLUMN_SPACING = 100` gaps, updating the X of every already positioned
member node. -/
def space_columns (sorted_columns : List Nat) (column_widths : List (Nat × Int))
    (node_columns : List (Nat × Nat)) (column_x_positions : List (Nat × Int))
    (new_positions : List (Nat × Int × Int)) :
    List (Nat × Int) × List (Nat × Int × Int) :=
  let fin := sorted_columns.foldl
    (fun (st : List (Nat × Int) × List (Nat × Int × Int) × Int) c =>
      let current_x := st.2.2
      let cxp := ainsert st.1 c current_x
      let np := node_columns.foldl
        (fun np e =>
          if e.2 = c then
            match alookup np e.1 with
            | some pos => ainsert np e.1 (current_x, pos.2)
            | none => np
          else np)
        st.2.1
      (cxp, np, current_x + (alookup column_widths c).getD 0 + 100))
    (column_x_positions, new_positions, (100 : Int))
  (fin.1, fin.2.1)

/-- `calculate_port_y`: estimated port Y (`node_Y + 30 + slot * 20`). -/
def calculate_port_y (new_positions : List (Nat × Int × Int))
    (node_id : Nat) (slot_index : Int) : Int :=
  match alookup new_positions node_id with
  | none => 0
  | some pos => pos.2 + 30 + slot_index * 20

/-- `get_connected_port_positions`: Y of every port the node connects to
(origin ports of incoming links and target ports of outgoing links),
sorted ascending. -/
def get_connected_port_positions (links : List PyLink)
    (new_positions : List (Nat × Int × Int)) (node_id : Nat) : List Int :=
  let port_positions := links.foldl
    (fun acc link =>
      let acc :=
        if link.target_id = node_id && (alookup new_positions link.origin_id).isSome
        then acc ++ [calculate_port_y new_positions link.origin_id link.origin_slot]
        else acc
      if link.origin_id = node_id && (alookup new_positions link.target_id).isSome
      then acc ++ [calculate_port_y new_positions link.target_id link.target_slot]
      else acc)
    []
  sortInts port_positions

/-- `float('inf')`-padded sort key: port Y values (or nothing) followed by
ten infinities; `none` models the infinite sentinel. -/
def vertical_sort_key (ports : List Int) : List (Option Int) :=
  if ports.isEmpty then List.replicate 10 none
  else ports.map some ++ List.replicate 10 none

/-- Comparison of key elements: `none` is `float('inf')`. -/
def optIntLt : Option Int → Option Int → Bool
  | some a, some b => a < b
  | some _, none => true
  | none, _ => false

/-- Python list `<`: lexicographic, shorter prefix first. -/
def listLexLt : List (Option Int) → List (Option Int) → Bool
  | [], [] => false
  | [], _ :: _ => true
  | _ :: _, [] => false
  | a :: xs, b :: ys =>
    if optIntLt a b then true else if optIntLt b a then false else listLexLt xs ys

/-- Stable sort of a column's nodes by their port-position keys (the keys
are computed once per node before sorting, as Python's `sorted(key=...)`
does). -/
def sort_column_nodes (links : List PyLink)
    (new_positions : List (Nat × Int × Int)) (nids : List Nat) : List Nat :=
  let keyed := nids.map
    (fun nid => (nid, vertical_sort_key (get_connected_port_positions links new_positions nid)))
  (isortBy (fun a b => listLexLt a.2 b.2) keyed).map Prod.fst

/-- Stack the sorted nodes of one column vertically from `start_y`, with
`NODE_VERTICAL_SPACING = 60` gaps below each node's height. -/
def assign_column_ys (node_sizes : List (Nat × Int × Int)) (x_pos : Int)
    (start_y : Int) (sorted_nodes : List Nat)
    (new_positions : List (Nat × Int × Int)) : List (Nat × Int × Int) :=
  (sorted_nodes.foldl
    (fun (st : List (Nat × Int × Int) × Int) nid =>
      let (np, current_y) := st
      let node_height := ((alookup node_sizes nid).getD (0, 0)).2
      (ainsert np nid (x_pos, current_y), current_y + node_height + 60))
    (new_positions, start_y)).1

/-- Step 7: vertically sort and stack every column. -/
def step7_vertical_sort (links : List PyLink) (node_sizes : List (Nat × Int × Int))
    (sorted_columns : List Nat) (columns_to_nodes : List (Nat × List Nat))
    (column_x_positions : List (Nat × Int)) (start_y : Int)
    (new_positions : List (Nat × Int × Int)) : List (Nat × Int × Int) :=
  sorted_columns.foldl
    (fun np c =>
      match alookup columns_to_nodes c with
      | none => np
      | some nids =>
        let x_pos := (alookup column_x_positions c).getD 0
        assign_column_ys node_sizes x_pos start_y (sort_column_nodes links np nids) np)
    new_positions

/-- Step 7b key source: Y of the input ports of the node's children only. -/
def get_child_input_port_positions (links : List PyLink)
    (new_positions : List (Nat × Int × Int)) (node_id : Nat) : List Int :=
  sortInts (links.foldl
    (fun acc link =>
      if link.origin_id = node_id && (alookup new_positions link.target_id).isSome
      then acc ++ [calculate_port_y new_positions link.target_id link.target_slot]
      else acc)
    [])

/-- Step 7b: if columns 0 and 1 both exist, re-sort and re-stack column 0
by child input-port positions. -/
def step7b_first_column (links : List PyLink) (node_sizes : List (Nat × Int × Int))
    (columns_to_nodes : List (Nat × List Nat)) (column_x_positions : List (Nat × Int))
    (start_y : Int) (new_positions : List (Nat × Int × Int)) :
    List (Nat × Int × Int) :=
  match alookup columns_to_nodes 0, alookup columns_to_nodes 1 with
  | some first_column_nodes, some _ =>
    let keyed := first_column_nodes.map
      (fun nid =>
        (nid, vertical_sort_key (get_child_input_port_positions links new_positions nid)))
    let sorted_first := (isortBy (fun a b => listLexLt a.2 b.2) keyed).map Prod.fst
    assign_column_ys node_sizes ((alookup column_x_positions 0).getD 0) start_y
      sorted_first new_positions
  | _, _ => new_positions

/-! ### Assembling `organize_single_component` -/

/-- Everything before the correction loop: phases A–C (steps up to 4) plus
the `node_sizes` table initialised with the original sizes.  Returns the
loop context, the loop's starting state, and the chain positions. -/
def loop_start (links : List PyLink)
    (node_map : List (Nat × PyNode)) (children parents : List (Nat × List Nat))
    (chains : List (List Nat)) (start_y : Int) :
    LoopCtx × ColState × List (Nat × Int × Int) :=
  let max_length := maxNats (chains.map List.length)
  let longest_chains := chains.filter (fun c => c.length = max_length)
  let aw := chain_column_assignment longest_chains node_map
  let column_x_positions := initial_column_x aw.2
  let new_positions := assign_chain_positions longest_chains column_x_positions start_y
  let rem := assign_remaining_columns node_map children parents new_positions
    column_x_positions aw.2
  let node_sizes0 := node_map.foldl (fun m e => ainsert m e.1 e.2.size) []
  (⟨links, node_map, node_sizes0⟩, ⟨rem.1, rem.2.1⟩, new_positions)

/-- Steps 6b–7b and the final result record. -/
def finish_layout (links : List PyLink) (start_y : Int)
    (node_map : List (Nat × PyNode)) (node_sizes0 : List (Nat × Int × Int))
    (st : ColState) (column_widths : List (Nat × Int))
    (new_positions : List (Nat × Int × Int)) : OrganizeResult :=
  let columns_to_nodes := columns_to_nodes_of st.node_columns
  let pr := remove_empty_columns st.column_x_positions column_widths columns_to_nodes
  let sorted_columns := sortNats (akeys pr.1)
  let column_widths := rebuild_column_widths node_map sorted_columns columns_to_nodes pr.2
  let node_sizes := resize_nodes node_map sorted_columns columns_to_nodes
    column_widths node_sizes0
  let sp := space_columns sorted_columns column_widths st.node_columns pr.1 new_positions
  let np := step7_vertical_sort links node_sizes sorted_columns columns_to_nodes
    sp.1 start_y sp.2
  let np := step7b_first_column links node_sizes columns_to_nodes sp.1 start_y np
  let n := np.length
  ⟨"success", s!"Complete - positioned {n} nodes", np, some node_sizes⟩

/-- The whole post-chain pipeline for one component. -/
def organize_with_chains (_nodes : List PyNode) (links : List PyLink) (start_y : Int)
    (node_map : List (Nat × PyNode)) (children parents : List (Nat × List Nat))
    (chains : List (List Nat)) : OrganizeResult :=
  let ls := loop_start links node_map children parents chains start_y
  let fl := fix_loop ls.1 ls.2.1
  finish_layout links start_y node_map ls.1.node_sizes0 fl.1 fl.2.2 ls.2.2

/-- Fuel for the chain DFS: on an acyclic graph the recursion depth never
exceeds the node count. -/
def chains_fuel (nodes : List PyNode) : Nat := nodes.length + 1

/-- `organize_single_component`.  `none` models the unbounded chain
recursion on a cyclic graph reachable from a root (a Python
`RecursionError` escaping the function). -/
def organize_single_component (nodes : List PyNode) (links : List PyLink)
    (start_y : Int) : Option OrganizeResult :=
  if nodes.isEmpty then
    some ⟨"success", "No nodes to organize", [], some []⟩
  else
    let g := build_node_graph nodes links
    match find_all_chains g.2.2 g.2.1 (chains_fuel nodes) with
    | none => none
    | some chains =>
      if chains.isEmpty then
        -- source returns a dict with no `'sizes'` key here
        some ⟨"success", "No chains to organize", [], none⟩
      else some (organize_with_chains nodes links start_y g.1 g.2.1 g.2.2 chains)

/-- Did the correction loop of this component end in a state with zero
leftward links (i.e. converge rather than hit the cap still dirty)? -/
def single_component_converged (nodes : List PyNode) (links : List PyLink)
    (start_y : Int) : Bool :=
  if nodes.isEmpty then true
  else
    let g := build_node_graph nodes links
    match find_all_chains g.2.2 g.2.1 (chains_fuel nodes) with
    | none => false
    | some chains =>
      if chains.isEmpty then true
      else
        let ls := loop_start links g.1 g.2.1 g.2.2 chains start_y
        let fl := fix_loop ls.1 ls.2.1
        (detect_leftward ls.1
          (recompute_column_widths ls.1 fl.1.node_columns) fl.1).isEmpty

/-! ## `organize_nodes` -/

/-- The set of node ids that are an endpoint of at least one link
(first-insertion order). -/
def connected_ids_of (links : List PyLink) : List Nat :=
  links.foldl (fun s l => addUnique (addUnique s l.origin_id) l.target_id) []

/-- One laid-out component before stacking. -/
structure ComponentResult where
  positions : List (Nat × Int × Int)
  sizes : List (Nat × Int × Int)
  height : Int
deriving DecidableEq, Repr

/-- Bounding-box top: `max(pos[1] + height-of-node-with-that-id)`; `none`
models the Python crash when a positioned id is missing from the
component's node list (unreachable in practice) and is only taken on the
nonempty lists the caller guards. -/
def comp_max_y (component_nodes : List PyNode) :
    List (Nat × Int × Int) → Option Int
  | [] => none
  | e :: rest => do
    let n0 ← component_nodes.find? (fun n => n.id = e.1)
    rest.foldl
      (fun acc e => do
        let m ← acc
        let n1 ← component_nodes.find? (fun n => n.id = e.1)
        pure (max m (e.2.2 + n1.size.2)))
      (some (e.2.2 + n0.size.2))

/-- Bounding-box bottom: `min(pos[1] ...)`; call sites guard nonemptiness. -/
def comp_min_y (positions : List (Nat × Int × Int)) : Int :=
  minInts (positions.map (fun e => e.2.2))

/-- Lay out every component and keep the successful, nonempty ones in
component order. -/
def component_results_step (nodes : List PyNode) (links : List PyLink)
    (acc : Option (List ComponentResult)) (component_node_ids : List Nat) :
    Option (List ComponentResult) := do
  let results ← acc
  let component_nodes := nodes.filter (fun n => n.id ∈ component_node_ids)
  let component_links := links.filter
    (fun l => l.origin_id ∈ component_node_ids && l.target_id ∈ component_node_ids)
  let result ← organize_single_component component_nodes component_links 0
  if result.status = "success" && !result.positions.isEmpty then
    match result.sizes with
    | none => none  -- would be a KeyError; nonempty positions come with sizes
    | some sizes => do
      let max_y ← comp_max_y component_nodes result.positions
      pure (results ++ [⟨result.positions, sizes, max_y - comp_min_y result.positions⟩])
  else pure results

def component_results_of (nodes : List PyNode) (links : List PyLink)
    (components : List (List Nat)) : Option (List ComponentResult) :=
  components.foldl (component_results_step nodes links) (some [])

/-- Stack the (already sorted) component results vertically: normalise each
component's minimum Y to 0, offset by the running total, spacing 200. -/
def stack_components (sorted_results : List ComponentResult) :
    List (Nat × Int × Int) × List (Nat × Int × Int) :=
  let fin := sorted_results.foldl
    (fun (st : List (Nat × Int × Int) × List (Nat × Int × Int) × Int) comp =>
      let (all_positions, all_sizes, current_y_offset) := st
      let min_y := comp_min_y comp.positions
      let all_positions := comp.positions.foldl
        (fun ap e => ainsert ap e.1 (e.2.1, e.2.2 - min_y + current_y_offset))
        all_positions
      let all_sizes := comp.sizes.foldl (fun m e => ainsert m e.1 e.2) all_sizes
      (all_positions, all_sizes, current_y_offset + comp.height + 200))
    ([], [], 0)
  (fin.1, fin.2.1)

/-- `organize_nodes`: filter to linked nodes, split into components,
organize each, stack multiple components by ascending height. -/
def organize_nodes (graph_data : GraphData) : Option OrganizeResult :=
  let links := graph_data.links
  let connected_node_ids := connected_ids_of links
  let nodes := graph_data.nodes.filter (fun n => n.id ∈ connected_node_ids)
  if nodes.isEmpty then
    -- source returns a dict with no `'sizes'` key here
    some ⟨"success", "No workflow nodes to organize", [], none⟩
  else
    let components := find_disconnected_components nodes links
    if components.length = 1 then organize_single_component nodes links 0
    else do
      let component_results ← component_results_of nodes links components
      let sorted_results := isortBy (fun a b => a.height < b.height) component_results
      let merged := stack_components sorted_results
      let n := merged.1.length
      let k := sorted_results.length
      some ⟨"success", s!"Complete - positioned {n} nodes in {k} components",
        merged.1, some merged.2⟩

/-- Convergence of the correction loop across the whole request, following
the same branching as `organize_nodes`. -/
def organize_converged (graph_data : GraphData) : Bool :=
  let links := graph_data.links
  let connected_node_ids := connected_ids_of links
  let nodes := graph_data.nodes.filter (fun n => n.id ∈ connected_node_ids)
  if nodes.isEmpty then true
  else
    let components := find_disconnected_components nodes links
    if components.length = 1 then single_component_converged nodes links 0
    else
      components.all fun component_node_ids =>
        single_component_converged
          (nodes.filter (fun n => n.id ∈ component_node_ids))
          (links.filter
            (fun l => l.origin_id ∈ component_node_ids && l.target_id ∈ component_node_ids))
          0

/-! ## `detect_link_overlaps` -/

/-- An entry of `overlapping_nodes`. -/
structure OverlappingNode where
  node_id : Nat
  node_type : String
  node_pos : Int × Int
deriving DecidableEq, Repr

/-- A step-1 overlap record (before the reroute decision is added). -/
structure OverlapRecord where
  link_id : Nat
  origin_id : Nat
  origin_type : String
  target_id : Nat
  target_type : String
  overlapping_nodes : List OverlappingNode
deriving DecidableEq, Repr

/-- A fully enriched overlap record as returned to the caller. -/
structure RerouteRecord where
  link_id : Nat
  origin_id : Nat
  origin_type : String
  target_id : Nat
  target_type : String
  overlapping_nodes : List OverlappingNode
  reroute_direction : String
  up_distance : Int
  down_distance : Int
  highest_node_top : Int
  highest_node_id : Nat
  highest_node_type : String
  lowest_node_bottom : Int
  lowest_node_id : Nat
  lowest_node_type : String
  reroute1_pos : Int × Int
  reroute2_pos : Int × Int
  reroute_y : Int
deriving DecidableEq, Repr

/-- The result of `detect_link_overlaps`. -/
structure RerouteResult where
  status : String
  message : String
  overlaps : List RerouteRecord
deriving DecidableEq, Repr

/-- `calculate_link_length`, modelled by the squared Euclidean distance
(the source sorts on the square root, a monotone image; `none` models the
`float('inf')` key of a link with a missing endpoint, pushed to the end). -/
def link_length_sq (node_map : List (Nat × PyNode)) (link : PyLink) : Option Int :=
  match alookup node_map link.origin_id, alookup node_map link.target_id with
  | some origin_node, some target_node =>
    let origin_x := origin_node.pos.1 + origin_node.size.1
    let origin_y := origin_node.pos.2 + 30 + link.origin_slot * 20
    let target_x := target_node.pos.1
    let target_y := target_node.pos.2 + 30 + link.target_slot * 20
    let dx := target_x - origin_x
    let dy := target_y - origin_y
    some (dx * dx + dy * dy)
  | _, _ => none

/-- `sorted(links, key=calculate_link_length)` (stable, shortest first). -/
def sorted_links_of (node_map : List (Nat × PyNode)) (links : List PyLink) :
    List PyLink :=
  ((isortBy (fun a b => optIntLt a.2 b.2)
    (links.map (fun l => (l, link_length_sq node_map l))))).map Prod.fst

/-- The nodes (other than the endpoints, and pre-filtered to the link's
horizontal span) whose boxes the straight link crosses, in node order. -/
def overlapping_nodes_of (nodes : List PyNode) (origin_id target_id : Nat)
    (origin_x origin_y target_x target_y : Int) : List OverlappingNode :=
  let min_x := min origin_x target_x
  let max_x := max origin_x target_x
  nodes.foldl
    (fun acc node =>
      if node.id = origin_id || node.id = target_id then acc
      else
        let node_x := node.pos.1
        let node_w := node.size.1
        let node_right := node_x + node_w
        if node_right < min_x || node_x > max_x then acc
        else if line_segment_intersects_rect origin_x origin_y target_x target_y
            node_x node.pos.2 node_w node.size.2 then
          acc ++ [⟨node.id, node.type, (node_x, node.pos.2)⟩]
        else acc)
    []

/-- Step 1: collect an overlap record for every (sorted) link that crosses
at least one other node. -/
def detect_overlaps_pass (nodes : List PyNode) (node_map : List (Nat × PyNode))
    (sorted_links : List PyLink) : List OverlapRecord :=
  sorted_links.foldl
    (fun overlaps link =>
      match alookup node_map link.origin_id, alookup node_map link.target_id with
      | some origin_node, some target_node =>
        let origin_x := origin_node.pos.1 + origin_node.size.1
        let origin_y := origin_node.pos.2 + 30 + link.origin_slot * 20
        let target_x := target_node.pos.1
        let target_y := target_node.pos.2 + 30 + link.target_slot * 20
        let ons := overlapping_nodes_of nodes link.origin_id link.target_id
          origin_x origin_y target_x target_y
        if ons.isEmpty then overlaps
        else overlaps ++
          [⟨link.id, link.origin_id, origin_node.type, link.target_id,
            target_node.type, ons⟩]
      | _, _ => overlaps)
    []

/-- The distinct column X positions (of non-endpoint nodes) spanned by the
link. -/
def link_columns_of (nodes : List PyNode) (origin_id target_id : Nat)
    (min_x max_x : Int) : List Int :=
  nodes.foldl
    (fun acc node =>
      if node.id = origin_id || node.id = target_id then acc
      else
        let node_x := node.pos.1
        let node_right := node_x + node.size.1
        if node_right < min_x || node_x > max_x then acc
        else addUnique acc node_x)
    []

/-- Topmost top and bottommost bottom among all spanned non-endpoint
nodes: `((top, id, type), (bottom, id, type))`, or `none` when no node is
spanned. -/
def extreme_nodes_of (nodes : List PyNode) (origin_id target_id : Nat)
    (min_x max_x : Int) :
    Option ((Int × Nat × String) × (Int × Nat × String)) :=
  nodes.foldl
    (fun acc node =>
      if node.id = origin_id || node.id = target_id then acc
      else
        let node_x := node.pos.1
        let node_right := node_x + node.size.1
        if node_right < min_x || node_x > max_x then acc
        else
          let node_top := node.pos.2
          let node_bottom := node.pos.2 + node.size.2
          match acc with
          | none =>
            some ((node_top, node.id, node.type), (node_bottom, node.id, node.type))
          | some (hi, lo) =>
            some (if node_top < hi.1 then (node_top, node.id, node.type) else hi,
                  if node_bottom > lo.1 then (node_bottom, node.id, node.type) else lo))
    none

/-- First lane offset whose claimed column set is disjoint from the
link's columns. -/
def find_free_offset (offsets : List (Int × List Int)) (link_columns : List Int) :
    Option Int :=
  (offsets.find? (fun ow => !(link_columns.any (fun c => c ∈ ow.2)))).map Prod.fst

/-- Record the chosen offset level: union the columns into the first entry
with that offset value, else append a new level. -/
def add_to_offset_level :
    List (Int × List Int) → Int → List Int → List (Int × List Int)
  | [], chosen, cols => [(chosen, cols)]
  | ow :: rest, chosen, cols =>
    if ow.1 = chosen then (ow.1, addAllUnique ow.2 cols) :: rest
    else ow :: add_to_offset_level rest chosen cols

/-- Step 2 for one overlap record: decide the reroute direction (up iff
the up candidate's total vertical travel is strictly smaller), claim the
lane, and emit the waypoints.  `none` models the source crashes on
unreachable states (missing link id, no spanned node). -/
def enrich_overlap (nodes : List PyNode) (node_map : List (Nat × PyNode))
    (links : List PyLink)
    (st : List (Int × List Int) × List (Int × List Int))
    (overlap : OverlapRecord) :
    Option (RerouteRecord × (List (Int × List Int) × List (Int × List Int))) := do
  let (up_offsets, down_offsets) := st
  let origin_node ← alookup node_map overlap.origin_id
  let target_node ← alookup node_map overlap.target_id
  -- `next(... for link in links if link['id'] == overlap['link_id'])`
  let slot_link ← links.find? (fun l => l.id = overlap.link_id)
  let origin_x := origin_node.pos.1 + origin_node.size.1
  let origin_y := origin_node.pos.2 + 30 + slot_link.origin_slot * 20
  let target_x := target_node.pos.1
  let target_y := target_node.pos.2 + 30 + slot_link.target_slot * 20
  let min_x := min origin_x target_x
  let max_x := max origin_x target_x
  let link_columns := link_columns_of nodes overlap.origin_id overlap.target_id min_x max_x
  let ex ← extreme_nodes_of nodes overlap.origin_id overlap.target_id min_x max_x
  let potential_up_offset :=
    match find_free_offset up_offsets link_columns with
    | some o => o
    | none => 50 + (up_offsets.length : Int) * 20
  let potential_up_y := ex.1.1 - potential_up_offset
  let up_distance := |origin_y - potential_up_y| + |target_y - potential_up_y|
  let potential_down_offset :=
    match find_free_offset down_offsets link_columns with
    | some o => o
    | none => 50 + (down_offsets.length : Int) * 20
  let potential_down_y := ex.2.1 + potential_down_offset
  let down_distance := |origin_y - potential_down_y| + |target_y - potential_down_y|
  let dec :=
    if up_distance < down_distance then
      ("up", ex.1.1 - potential_up_offset,
        add_to_offset_level up_offsets potential_up_offset link_columns, down_offsets)
    else
      ("down", ex.2.1 + potential_down_offset,
        up_offsets, add_to_offset_level down_offsets potential_down_offset link_columns)
  pure
    (⟨overlap.link_id, overlap.origin_id, overlap.origin_type, overlap.target_id,
      overlap.target_type, overlap.overlapping_nodes, dec.1, up_distance,
      down_distance, ex.1.1, ex.1.2.1, ex.1.2.2, ex.2.1, ex.2.2.1, ex.2.2.2,
      (origin_x + 50, dec.2.1), (target_x - 50, dec.2.1), dec.2.1⟩,
     (dec.2.2.1, dec.2.2.2))

/-- Step 2 over the whole overlap list, threading the lane state. -/
def step2_enrich (nodes : List PyNode) (node_map : List (Nat × PyNode))
    (links : List PyLink) :
    List OverlapRecord → List (Int × List Int) × List (Int × List Int) →
    Option (List RerouteRecord)
  | [], _ => some []
  | o :: os, st => do
    let r0 ← enrich_overlap nodes node_map links st o
    let rest ← step2_enrich nodes node_map links os r0.2
    pure (r0.1 :: rest)

/-- `detect_link_overlaps`. -/
def detect_link_overlaps (graph_data : GraphData) : Option RerouteResult :=
  let links := graph_data.links
  let connected_node_ids := connected_ids_of links
  let nodes := graph_data.nodes.filter (fun n => n.id ∈ connected_node_ids)
  if links.isEmpty || nodes.isEmpty then
    some ⟨"success", "No links to analyze", []⟩
  else
    let node_map := nodes.foldl (fun m n => ainsert m n.id n) []
    let sorted_links := sorted_links_of node_map links
    let overlaps := detect_overlaps_pass nodes node_map sorted_links
    match step2_enrich nodes node_map links overlaps ([], []) with
    | none => none
    | some enriched =>
      let n := enriched.length
      some ⟨"success", s!"Found {n} overlapping links", enriched⟩

/-! ## Definitions used only to state claims -/

/-- Kahn-style acyclicity test for the claim hypotheses: repeatedly remove
nodes without incoming links from remaining nodes; the graph is acyclic
iff everything is removed. -/
def acyclic_go (links : List PyLink) : Nat → List Nat → Bool
  | 0, remaining => remaining.isEmpty
  | fuel + 1, remaining =>
    if remaining.isEmpty then true
    else
      let removable := remaining.filter fun n =>
        !(links.any fun l =>
          l.origin_id ∈ remaining && l.target_id ∈ remaining && l.target_id = n)
      if removable.isEmpty then false
      else acyclic_go links fuel (remaining.filter (fun n => n ∉ removable))

/-- Whether the directed graph of the request is acyclic. -/
def graph_acyclic (graph_data : GraphData) : Bool :=
  let ids := graph_data.nodes.foldl (fun s n => addUnique s n.id) []
  acyclic_go graph_data.links ids.length ids

/-- The column-selection rule exactly as the claim C3 words it: minimum
viable column is `max_origin_col + 1`; search only existing columns
strictly greater than that minimum; if none is safe, allocate at
`minimum + 1`. -/
def claim_choose_new_target_col (sorted_cols : List Nat) (links : List PyLink)
    (node_columns : List (Nat × Nat)) (target_id : Nat)
    (max_origin_col : Nat) : Nat :=
  let min_viable := max_origin_col + 1
  match sorted_cols.find?
      (fun c => min_viable < c &&
        !(would_create_leftward links node_columns target_id c)) with
  | some c => c
  | none => min_viable + 1

/-- The chain list `organize_single_component` computes for a node/link
list (`some []` both for the empty input and the no-roots case). -/
def chains_of (nodes : List PyNode) (links : List PyLink) :
    Option (List (List Nat)) :=
  if nodes.isEmpty then some []
  else
    let g := build_node_graph nodes links
    find_all_chains g.2.2 g.2.1 (chains_fuel nodes)

/-- Does the component's chain enumeration succeed and produce at least
one chain? -/
def has_chains (nodes : List PyNode) (links : List PyLink) : Bool :=
  match chains_of nodes links with
  | some (_ :: _) => true
  | _ => false

/-- Chain enumeration succeeds with at least one chain for the whole
request, following the branching of `organize_nodes`. -/
def all_components_have_chains (graph_data : GraphData) : Bool :=
  let links := graph_data.links
  let connected_node_ids := connected_ids_of links
  let nodes := graph_data.nodes.filter (fun n => n.id ∈ connected_node_ids)
  if nodes.isEmpty then true
  else
    let components := find_disconnected_components nodes links
    if components.length = 1 then has_chains nodes links
    else
      components.all fun component_node_ids =>
        has_chains (nodes.filter (fun n => n.id ∈ component_node_ids))
          (links.filter fun l =>
            l.origin_id ∈ component_node_ids && l.target_id ∈ component_node_ids)

/-- The distinct input node ids that are an endpoint of at least one link:
the claimed key set of the returned positions. -/
def connected_input_ids (graph_data : GraphData) : List Nat :=
  (graph_data.nodes.foldl (fun s n => addUnique s n.id) []).filter
    (fun k => k ∈ connected_ids_of graph_data.links)

/-- The running Y offset each stacked component starts at. -/
def stack_offsets (sorted_results : List ComponentResult) : List Int :=
  (sorted_results.foldl
    (fun (acc : List Int × Int) c => (acc.1 ++ [acc.2], acc.2 + c.height + 200))
    ([], 0)).1

/-! ## Concrete claim inputs -/

/-- C5 / scenario 1: two nodes of size `[100, 50]` and one link A→B. -/
def c5_graph : GraphData :=
  ⟨[⟨1, "A", (0, 0), (100, 50)⟩, ⟨2, "B", (500, 500), (100, 50)⟩],
   [⟨1, 1, 0, 2, 0⟩]⟩

/-- C2 counterexample: a two-node directed cycle (both nodes linked, no
root, so chain enumeration yields nothing). -/
def c2_graph : GraphData :=
  ⟨[⟨1, "A", (0, 0), (100, 50)⟩, ⟨2, "B", (0, 0), (100, 50)⟩],
   [⟨1, 1, 0, 2, 0⟩, ⟨2, 2, 0, 1, 0⟩]⟩

/-- C4 counterexample: the empty graph. -/
def c4_graph : GraphData := ⟨[], []⟩

/-- C6 / scenario 3 exactly as claimed: A(0,0), C(300,0), B(150,0), all
50×50, and only the link A→C. -/
def c6_graph : GraphData :=
  ⟨[⟨1, "A", (0, 0), (50, 50)⟩, ⟨3, "C", (300, 0), (50, 50)⟩,
    ⟨2, "B", (150, 0), (50, 50)⟩],
   [⟨1, 1, 0, 3, 0⟩]⟩

/-- C6 amended: the same scene with B made a connected node by a self-link
(which itself overlaps nothing). -/
def c6_graph_connected : GraphData :=
  ⟨[⟨1, "A", (0, 0), (50, 50)⟩, ⟨3, "C", (300, 0), (50, 50)⟩,
    ⟨2, "B", (150, 0), (50, 50)⟩],
   [⟨1, 1, 0, 3, 0⟩, ⟨2, 2, 0, 2, 0⟩]⟩

/-- C1 counterexample: an acyclic graph (all widths positive) on which the
correction loop converges, yet the final uniform re-spacing leaves link
`15 → 16` pointing leftward.  Nodes 10–13 chain into leaf 14; 15 → 16 is a
separate edge; the wide node 17 feeds 13 and 16. -/
def c1_graph : GraphData :=
  ⟨[⟨10, "a0", (0, 0), (50, 50)⟩, ⟨11, "a1", (0, 0), (50, 50)⟩,
    ⟨12, "a2", (0, 0), (50, 50)⟩, ⟨13, "a3", (0, 0), (50, 50)⟩,
    ⟨14, "u", (0, 0), (50, 50)⟩, ⟨15, "a4", (0, 0), (50, 50)⟩,
    ⟨16, "a5", (0, 0), (50, 50)⟩, ⟨17, "o", (0, 0), (10000, 50)⟩],
   [⟨1, 10, 0, 11, 0⟩, ⟨2, 11, 0, 12, 0⟩, ⟨3, 12, 0, 13, 0⟩, ⟨4, 13, 0, 14, 0⟩,
    ⟨5, 11, 0, 14, 0⟩, ⟨6, 12, 0, 14, 0⟩, ⟨7, 15, 0, 16, 0⟩, ⟨8, 17, 0, 13, 0⟩,
    ⟨9, 17, 0, 16, 0⟩]⟩

/-- Witness graph for the multi-component claims: components `{3, 4, 5}`
(tall) and `{1, 2}` (short). -/
def two_comp_graph : GraphData :=
  ⟨[⟨3, "C", (0, 0), (100, 50)⟩, ⟨4, "D", (0, 0), (100, 50)⟩,
    ⟨5, "E", (0, 0), (100, 50)⟩, ⟨1, "A", (0, 0), (100, 50)⟩,
    ⟨2, "B", (0, 0), (100, 50)⟩],
   [⟨1, 3, 0, 4, 0⟩, ⟨2, 3, 1, 5, 0⟩, ⟨3, 1, 0, 2, 0⟩]⟩

/-! # Theorems

First the generic lemmas about the dict/set/sort models, then the
pipeline lemmas, then one theorem (plus witness or counterexample) per
claim. -/

section AListLemmas

variable {κ β : Type} [DecidableEq κ]

theorem alookup_ainsert_self (l : List (κ × β)) (k : κ) (v : β) :
    alookup (ainsert l k v) k = some v := by
  induction l with
  | nil => simp [ainsert, alookup]
  | cons e rest ih =>
    by_cases h : e.1 = k
    · cases e; simp_all [ainsert, alookup]
    · cases e; simp_all [ainsert, alookup]

theorem alookup_ainsert_of_ne (l : List (κ × β)) (k k' : κ) (v : β)
    (h : k' ≠ k) : alookup (ainsert l k v) k' = alookup l k' := by
  induction l with
  | nil => simp [ainsert, alookup, Ne.symm h]
  | cons e rest ih =>
    cases e with
    | mk ek ev =>
      by_cases hek : ek = k
      · subst hek
        simp [ainsert, alookup, Ne.symm h]
      · simp [ainsert, alookup, hek, ih]

theorem mem_akeys_ainsert (l : List (κ × β)) (k a : κ) (v : β) :
    a ∈ akeys (ainsert l k v) ↔ a = k ∨ a ∈ akeys l := by
  induction l with
  | nil => simp [ainsert, akeys]
  | cons e rest ih =>
    cases e with
    | mk ek ev =>
      by_cases hek : ek = k
      · subst hek; simp [ainsert, akeys]
      · simp only [ainsert, if_neg hek, akeys, List.map_cons, List.mem_cons]
        constructor
        · rintro (h | h)
          · exact Or.inr (Or.inl h)
          · rcases (ih).mp h with h | h
            · exact Or.inl h
            · exact Or.inr (Or.inr h)
        · rintro (h | h | h)
          · exact Or.inr ((ih).mpr (Or.inl h))
          · exact Or.inl h
          · exact Or.inr ((ih).mpr (Or.inr h))

theorem akeys_ainsert_of_mem (l : List (κ × β)) (k : κ) (v : β)
    (h : k ∈ akeys l) : akeys (ainsert l k v) = akeys l := by
  induction l with
  | nil => simp [akeys] at h
  | cons e rest ih =>
    cases e with
    | mk ek ev =>
      by_cases hek : ek = k
      · subst hek; simp [ainsert, akeys]
      · have hr : k ∈ akeys rest := by
          simp only [akeys, List.map_cons, List.mem_cons] at h
          rcases h with h | h
          · exact absurd h.symm hek
          · exact h
        have := ih hr
        simp only [ainsert, if_neg hek, akeys, List.map_cons, akeys] at *
        rw [this]

theorem ainsert_cons_self (rest : List (κ × β)) (k : κ) (ev v : β) :
    ainsert ((k, ev) :: rest) k v = (k, v) :: rest := by
  simp [ainsert]

theorem ainsert_cons_ne (rest : List (κ × β)) (ek k : κ) (ev v : β)
    (h : ek ≠ k) : ainsert ((ek, ev) :: rest) k v = (ek, ev) :: ainsert rest k v := by
  simp [ainsert, h]

theorem alookup_cons_self (rest : List (κ × β)) (k : κ) (v : β) :
    alookup ((k, v) :: rest) k = some v := by
  simp [alookup]

theorem alookup_cons_ne (rest : List (κ × β)) (ek k : κ) (ev : β)
    (h : ek ≠ k) : alookup ((ek, ev) :: rest) k = alookup rest k := by
  simp [alookup, h]

theorem nodup_akeys_ainsert (l : List (κ × β)) (k : κ) (v : β)
    (h : (akeys l).Nodup) : (akeys (ainsert l k v)).Nodup := by
  induction l with
  | nil => simp [ainsert, akeys]
  | cons e rest ih =>
    cases e with
    | mk ek ev =>
      have hh : ek ∉ akeys rest ∧ (akeys rest).Nodup := by
        simpa [akeys] using h
      by_cases hek : ek = k
      · subst hek
        rw [ainsert_cons_self]
        simpa [akeys] using hh
      · rw [ainsert_cons_ne _ _ _ _ _ hek]
        have : (akeys (ainsert rest k v)).Nodup := ih hh.2
        have hmem : ek ∉ akeys (ainsert rest k v) := by
          intro hm
          rcases (mem_akeys_ainsert rest k ek v).mp hm with h' | h'
          · exact hek h'
          · exact hh.1 h'
        simpa [akeys] using And.intro hmem this

theorem alookup_isSome_iff (l : List (κ × β)) (k : κ) :
    (alookup l k).isSome ↔ k ∈ akeys l := by
  induction l with
  | nil => simp [alookup, akeys]
  | cons e rest ih =>
    cases e with
    | mk ek ev =>
      by_cases hek : ek = k
      · subst hek; simp [alookup, akeys]
      · rw [alookup_cons_ne _ _ _ _ hek, ih]
        have hke : akeys ((ek, ev) :: rest) = ek :: akeys rest := rfl
        rw [hke]
        constructor
        · exact fun hm => List.mem_cons_of_mem _ hm
        · intro hm
          rcases List.mem_cons.mp hm with hm | hm
          · exact absurd hm.symm hek
          · exact hm

theorem alookup_eq_none_iff (l : List (κ × β)) (k : κ) :
    alookup l k = none ↔ k ∉ akeys l := by
  rw [← alookup_isSome_iff]
  cases alookup l k <;> simp

theorem mem_of_alookup_eq_some (l : List (κ × β)) (k : κ) (v : β)
    (h : alookup l k = some v) : (k, v) ∈ l := by
  induction l with
  | nil => simp [alookup] at h
  | cons e rest ih =>
    cases e with
    | mk ek ev =>
      by_cases hek : ek = k
      · subst hek
        rw [alookup_cons_self] at h
        cases h
        exact List.mem_cons_self _ _
      · rw [alookup_cons_ne _ _ _ _ hek] at h
        exact List.mem_cons_of_mem _ (ih h)

theorem mem_akeys_of_alookup (l : List (κ × β)) (k : κ) (v : β)
    (h : alookup l k = some v) : k ∈ akeys l := by
  rw [← alookup_isSome_iff, h]; rfl

theorem mem_ainsert (l : List (κ × β)) (k : κ) (v : β) (e : κ × β)
    (h : e ∈ ainsert l k v) : e = (k, v) ∨ e ∈ l := by
  induction l with
  | nil => simpa [ainsert] using h
  | cons f rest ih =>
    cases f with
    | mk fk fv =>
      by_cases hfk : fk = k
      · subst hfk
        rw [ainsert_cons_self] at h
        rcases List.mem_cons.mp h with h | h
        · exact Or.inl h
        · exact Or.inr (List.mem_cons_of_mem _ h)
      · rw [ainsert_cons_ne _ _ _ _ _ hfk] at h
        rcases List.mem_cons.mp h with h | h
        · exact Or.inr (h ▸ List.mem_cons_self _ _)
        · rcases ih h with h' | h'
          · exact Or.inl h'
          · exact Or.inr (List.mem_cons_of_mem _ h')

theorem aerase_sublist (l : List (κ × β)) (k : κ) : (aerase l k).Sublist l := by
  induction l with
  | nil => simp [aerase]
  | cons e rest ih =>
    cases e with
    | mk ek ev =>
      by_cases hek : ek = k
      · simp [aerase, hek]
      · simpa [aerase, hek] using ih

theorem alookup_aerase_of_ne (l : List (κ × β)) (k c : κ) (h : c ≠ k) :
    alookup (aerase l k) c = alookup l c := by
  induction l with
  | nil => simp [aerase]
  | cons e rest ih =>
    cases e with
    | mk ek ev =>
      by_cases hek : ek = k
      · subst hek
        simp [aerase, alookup, Ne.symm h]
      · simp [aerase, hek, alookup, ih]

theorem mem_addUnique {α : Type} [DecidableEq α] (l : List α) (x a : α) :
    a ∈ addUnique l x ↔ a = x ∨ a ∈ l := by
  by_cases hx : x ∈ l
  · simp only [addUnique, if_pos hx]
    constructor
    · exact Or.inr
    · rintro (rfl | h); exacts [hx, h]
  · simp [addUnique, hx, or_comm]

theorem mem_addAllUnique {α : Type} [DecidableEq α] (xs l : List α) (a : α) :
    a ∈ addAllUnique l xs ↔ a ∈ l ∨ a ∈ xs := by
  induction xs generalizing l with
  | nil => simp [addAllUnique]
  | cons x xs ih =>
    simp only [addAllUnique, List.foldl_cons] at *
    rw [ih (addUnique l x), mem_addUnique]
    constructor
    · rintro ((rfl | h) | h)
      · exact Or.inr (List.mem_cons_self _ _)
      · exact Or.inl h
      · exact Or.inr (List.mem_cons_of_mem _ h)
    · rintro (h | h)
      · exact Or.inl (Or.inr h)
      · rcases List.mem_cons.mp h with rfl | h
        · exact Or.inl (Or.inl rfl)
        · exact Or.inr h

theorem foldl_preserve {α β : Type} {P : β → Prop} (f : β → α → β) :
    ∀ (xs : List α) (b : β), (∀ b a, a ∈ xs → P b → P (f b a)) → P b →
      P (xs.foldl f b)
  | [], _, _, h0 => h0
  | x :: xs, b, hstep, h0 =>
    foldl_preserve f xs (f b x)
      (fun b a ha => hstep b a (List.mem_cons_of_mem _ ha))
      (hstep b x (List.mem_cons_self _ _) h0)

end AListLemmas

section SortLemmas

variable {α : Type}

theorem insertSorted_perm (lt : α → α → Bool) (x : α) :
    ∀ l : List α, (insertSorted lt x l).Perm (x :: l) := by
  intro l
  induction l with
  | nil => simp [insertSorted]
  | cons y ys ih =>
    by_cases h : lt y x
    · simp only [insertSorted, if_pos h]
      exact (ih.cons y).trans (List.Perm.swap x y ys)
    · simp [insertSorted, if_neg h]

theorem isortBy_perm (lt : α → α → Bool) :
    ∀ l : List α, (isortBy lt l).Perm l := by
  intro l
  induction l with
  | nil => simp [isortBy]
  | cons x xs ih =>
    exact (insertSorted_perm lt x (isortBy lt xs)).trans (ih.cons x)

theorem mem_isortBy (lt : α → α → Bool) (l : List α) (a : α) :
    a ∈ isortBy lt l ↔ a ∈ l :=
  (isortBy_perm lt l).mem_iff

theorem nodup_isortBy (lt : α → α → Bool) (l : List α) (h : l.Nodup) :
    (isortBy lt l).Nodup :=
  (isortBy_perm lt l).nodup_iff.mpr h

theorem pairwise_insertSorted {R : α → α → Prop} (lt : α → α → Bool)
    (hcompat : ∀ a b, lt a b = true → R a b)
    (htot : ∀ a b, lt a b = false → R b a)
    (htrans : ∀ a b c, R a b → R b c → R a c) :
    ∀ (l : List α) (x : α), l.Pairwise R → (insertSorted lt x l).Pairwise R := by
  intro l
  induction l with
  | nil => intro x _; simp [insertSorted]
  | cons y ys ih =>
    intro x hp
    rcases List.pairwise_cons.mp hp with ⟨hy, hys⟩
    by_cases h : lt y x
    · simp only [insertSorted, if_pos h]
      refine List.pairwise_cons.mpr ⟨?_, ih x hys⟩
      intro z hz
      rcases List.mem_cons.mp ((insertSorted_perm lt x ys).mem_iff.mp hz) with heq | hz
      · subst heq; exact hcompat y z h
      · exact hy z hz
    · simp only [insertSorted, if_neg h]
      refine List.pairwise_cons.mpr ⟨?_, hp⟩
      intro z hz
      rcases List.mem_cons.mp hz with heq | hz
      · subst heq; exact htot z x (by simpa using h)
      · exact htrans x y z (htot y x (by simpa using h)) (hy z hz)

theorem pairwise_isortBy {R : α → α → Prop} (lt : α → α → Bool)
    (hcompat : ∀ a b, lt a b = true → R a b)
    (htot : ∀ a b, lt a b = false → R b a)
    (htrans : ∀ a b c, R a b → R b c → R a c) :
    ∀ l : List α, (isortBy lt l).Pairwise R := by
  intro l
  induction l with
  | nil => simp [isortBy]
  | cons x xs ih =>
    exact pairwise_insertSorted lt hcompat htot htrans _ x ih

theorem filter_insertSorted_neg (lt : α → α → Bool) (p : α → Bool) (x : α)
    (hx : p x = false) :
    ∀ l : List α, (insertSorted lt x l).filter p = l.filter p := by
  intro l
  induction l with
  | nil => simp [insertSorted, hx]
  | cons y ys ih =>
    by_cases h : lt y x
    · simp only [insertSorted, if_pos h]
      by_cases hy : p y
      · simp [List.filter_cons, hy, ih]
      · simp [List.filter_cons, hy, ih]
    · simp [insertSorted, if_neg h, List.filter_cons, hx]

theorem filter_insertSorted_pos (lt : α → α → Bool) (p : α → Bool) (x : α)
    (hx : p x = true) (hno : ∀ y, p y = true → lt y x = false) :
    ∀ l : List α, (insertSorted lt x l).filter p = x :: l.filter p := by
  intro l
  induction l with
  | nil => simp [insertSorted, hx]
  | cons y ys ih =>
    by_cases h : lt y x
    · have hy : p y = false := by
        by_cases hpy : p y
        · exact absurd (hno y hpy) (by simp [h])
        · simpa using hpy
      simp only [insertSorted, if_pos h]
      simp [List.filter_cons, hy, ih]
    · simp [insertSorted, if_neg h, List.filter_cons, hx]

theorem filter_isortBy (lt : α → α → Bool) (p : α → Bool)
    (hsame : ∀ a b, p a = true → p b = true → lt a b = false) :
    ∀ l : List α, (isortBy lt l).filter p = l.filter p := by
  intro l
  induction l with
  | nil => simp [isortBy]
  | cons x xs ih =>
    by_cases hx : p x
    · rw [isortBy, filter_insertSorted_pos lt p x hx (fun y hy => hsame y x hy hx), ih]
      simp [List.filter_cons, hx]
    · rw [isortBy, filter_insertSorted_neg lt p x (by simpa using hx), ih]
      simp [List.filter_cons, hx]

theorem find?_eq_head?_of_filter (p : α → Bool) :
    ∀ l : List α, l.find? p = (l.filter p).head? := by
  intro l
  induction l with
  | nil => simp
  | cons x xs ih =>
    by_cases hx : p x
    · rw [List.find?_cons_of_pos _ hx, List.filter_cons_of_pos]
      · rfl
      · exact hx
    · have hx' : p x = false := by simpa using hx
      rw [List.find?_cons_of_neg _ (by simp [hx']), List.filter_cons_of_neg, ih]
      simp [hx']

end SortLemmas

/-! ## Status and loop lemmas -/

theorem organize_single_component_success (nodes : List PyNode)
    (links : List PyLink) (y : Int) (r : OrganizeResult)
    (h : organize_single_component nodes links y = some r) :
    r.status = "success" ∧ (r.sizes.isSome ∨ r.positions = []) := by
  simp only [organize_single_component] at h
  split at h
  · cases h; exact ⟨rfl, Or.inl rfl⟩
  · split at h
    · exact absurd h (by simp)
    · split at h
      · cases h; exact ⟨rfl, Or.inr rfl⟩
      · cases h; exact ⟨rfl, Or.inl rfl⟩

theorem fix_loop_go_le (ctx : LoopCtx) :
    ∀ (fuel i : Nat) (st : ColState) (cw : List (Nat × Int)),
      (fix_loop_go ctx fuel i st cw).2.1 ≤ i + fuel := by
  intro fuel
  induction fuel with
  | zero => intro i st cw; simp [fix_loop_go]
  | succ n ih =>
    intro i st cw
    rw [fix_loop_go]
    split
    · simp only []; omega
    · exact le_trans (ih (i + 1) _ _) (by omega)

theorem fix_loop_stops_on_clean (ctx : LoopCtx) (st : ColState)
    (h : detect_leftward ctx (recompute_column_widths ctx st.node_columns) st = []) :
    fix_loop ctx st = (st, 1, recompute_column_widths ctx st.node_columns) := by
  unfold fix_loop max_iterations
  rw [fix_loop_go]
  simp [h]

/-! ## Claim C8 -/

/-- C8: the leftward-correction loop executes at most 20 passes; it stops
at the first pass that detects zero leftward links (returning that state
unchanged); and whenever `organize_single_component` returns, its status
is `"success"` — on cap exhaustion the current assignment is returned, not
an error. -/
theorem c8_loop_iteration_cap (ctx : LoopCtx) (st : ColState)
    (nodes : List PyNode) (links : List PyLink) (y : Int) (r : OrganizeResult)
    (hr : organize_single_component nodes links y = some r) :
    (fix_loop ctx st).2.1 ≤ max_iterations ∧
    (detect_leftward ctx (recompute_column_widths ctx st.node_columns) st = [] →
      fix_loop ctx st = (st, 1, recompute_column_widths ctx st.node_columns)) ∧
    r.status = "success" :=
  ⟨fix_loop_go_le ctx max_iterations 0 st [],
   fix_loop_stops_on_clean ctx st,
   (organize_single_component_success nodes links y r hr).1⟩

/-- Witness for C8 at a concrete loop state and input. -/
theorem c8_loop_iteration_cap_witness :
    (fix_loop ⟨[], [], []⟩ ⟨[], []⟩).2.1 ≤ max_iterations ∧
    fix_loop ⟨[], [], []⟩ ⟨[], []⟩ = (⟨[], []⟩, 1, []) ∧
    OrganizeResult.status ⟨"success", "No nodes to organize", [], some []⟩ = "success" := by
  have h := c8_loop_iteration_cap ⟨[], [], []⟩ ⟨[], []⟩ [] [] 0
    ⟨"success", "No nodes to organize", [], some []⟩ (by decide)
  exact ⟨h.1, h.2.1 (by decide), h.2.2⟩

/-! ## Claim C4 -/

/-- C4 counterexample: on the empty graph the result is a success but has
no `sizes` key at all, so it does not contain all four claimed keys. -/
theorem c4_counterexample_missing_sizes :
    (organize_nodes c4_graph).map (fun r => (r.status, r.sizes.isSome)) =
      some ("success", false) := by
  decide

/-- C4 amended: whenever `organize_nodes` returns, the status is
`"success"` and the keys status/message/positions are present; the
`sizes` key is present except in the degenerate early returns (no
connected nodes, or no chains), which also return empty positions. -/
theorem c4_always_success (g : GraphData) (r : OrganizeResult)
    (h : organize_nodes g = some r) :
    r.status = "success" ∧ (r.sizes.isSome ∨ r.positions = []) := by
  simp only [organize_nodes] at h
  split at h
  · cases h; exact ⟨rfl, Or.inr rfl⟩
  · split at h
    · exact organize_single_component_success _ _ _ _ h
    · simp only [Option.bind_eq_bind, Option.bind_eq_some] at h
      obtain ⟨results, _, h⟩ := h
      cases h; exact ⟨rfl, Or.inl rfl⟩

/-- Witness for C4 at a concrete input. -/
theorem c4_always_success_witness :
    OrganizeResult.status ⟨"success", "No workflow nodes to organize", [], none⟩
        = "success" ∧
    (Option.isSome (OrganizeResult.sizes
        ⟨"success", "No workflow nodes to organize", [], none⟩) ∨
      OrganizeResult.positions
        ⟨"success", "No workflow nodes to organize", [], none⟩ = []) :=
  c4_always_success c4_graph _ (by decide)

/-! ## Claim C5 -/

/-- C5 / concrete scenario 1: two nodes of size `[100, 50]` joined by one
link are placed at x = 100 and x = 300, both at y = 0. -/
theorem c5_two_node_scenario :
    ((organize_nodes c5_graph).map fun r =>
      (r.status, alookup r.positions 1, alookup r.positions 2)) =
      some ("success", some ((100 : Int), (0 : Int)),
        some ((300 : Int), (0 : Int))) := by
  decide

/-! ## Claim C6 -/

/-- C6 counterexample: on the exact claimed input the unconnected node B is
filtered out before the overlap scan, so `detect_link_overlaps` reports
zero overlap records, not one naming B. -/
theorem c6_counterexample_no_record :
    (detect_link_overlaps c6_graph).map (fun r => r.overlaps.length) = some 0 := by
  decide

/-- C6 amended: with node B itself connected (here by a self-link, which
overlaps nothing), detection reports exactly one overlap record, for link
A→C, whose overlapping node list names exactly B. -/
theorem c6_overlap_names_b :
    ((detect_link_overlaps c6_graph_connected).map fun r =>
      r.overlaps.map fun o =>
        (o.link_id, o.overlapping_nodes.map OverlappingNode.node_id)) =
      some [(1, [2])] := by
  decide

/-! ## Claim C3 -/

/-- C3 counterexample: with existing columns 0, 1, 2, a childless target
and rightmost offending origin column 0, the pass chooses column 1 (the
minimum viable column itself), while the claimed rule (search strictly
beyond the minimum) would choose column 2. -/
theorem c3_counterexample_selection :
    choose_new_target_col [0, 1, 2] [] [] 5 0 = 1 ∧
    claim_choose_new_target_col [0, 1, 2] [] [] 5 0 = 2 ∧
    choose_new_target_col [0, 1, 2] [] [] 5 0 ≠
      claim_choose_new_target_col [0, 1, 2] [] [] 5 0 := by
  decide

/-- C3 amended: the minimum viable column is `max_origin_col + 1`; the
search considers existing columns strictly greater than the max origin
column (so the minimum itself is a candidate) and picks the least safe
one; when no existing column is safe the new column is allocated at the
minimum viable column (`max_origin_col + 1`), not at minimum + 1. -/
theorem c3_column_selection (cols : List Nat) (links : List PyLink)
    (ncols : List (Nat × Nat)) (t m : Nat)
    (hs : cols.Pairwise (· ≤ ·)) :
    ((cols.filter fun c => m < c && !(would_create_leftward links ncols t c)) = [] →
      choose_new_target_col cols links ncols t m = m + 1) ∧
    ∀ c0, c0 ∈ (cols.filter fun c => m < c && !(would_create_leftward links ncols t c)) →
      choose_new_target_col cols links ncols t m ∈
        (cols.filter fun c => m < c && !(would_create_leftward links ncols t c)) ∧
      ∀ c ∈ (cols.filter fun c => m < c && !(would_create_leftward links ncols t c)),
        choose_new_target_col cols links ncols t m ≤ c := by
  constructor
  · intro hempty
    unfold choose_new_target_col
    rw [find?_eq_head?_of_filter, hempty]
    rfl
  · intro c0 hc0
    have hsf : (cols.filter fun c =>
        m < c && !(would_create_leftward links ncols t c)).Pairwise (· ≤ ·) :=
      hs.sublist (List.filter_sublist _)
    cases hflt : cols.filter fun c =>
        m < c && !(would_create_leftward links ncols t c) with
    | nil => rw [hflt] at hc0; cases hc0
    | cons hd tl =>
      have hchoose : choose_new_target_col cols links ncols t m = hd := by
        unfold choose_new_target_col
        rw [find?_eq_head?_of_filter, hflt]
        rfl
      simp only [hchoose, hflt]
      simp only [hflt] at hsf
      rcases List.pairwise_cons.mp hsf with ⟨hle, _⟩
      refine ⟨List.mem_cons_self _ _, ?_⟩
      intro c hc
      rcases List.mem_cons.mp hc with heq | hc
      · exact heq ▸ le_refl _
      · exact hle c hc

/-- Witness for C3 at a concrete pass state. -/
theorem c3_column_selection_witness :
    (([0, 1, 2].filter fun c =>
        0 < c && !(would_create_leftward [] [] 5 c)) = [] →
      choose_new_target_col [0, 1, 2] [] [] 5 0 = 1) ∧
    ∀ c0, c0 ∈ ([0, 1, 2].filter fun c =>
        0 < c && !(would_create_leftward [] [] 5 c)) →
      choose_new_target_col [0, 1, 2] [] [] 5 0 ∈
        ([0, 1, 2].filter fun c => 0 < c && !(would_create_leftward [] [] 5 c)) ∧
      ∀ c ∈ ([0, 1, 2].filter fun c => 0 < c && !(would_create_leftward [] [] 5 c)),
        choose_new_target_col [0, 1, 2] [] [] 5 0 ≤ c :=
  c3_column_selection [0, 1, 2] [] [] 5 0 (by decide)

/-! ## Claim C10 -/

theorem enrich_overlap_direction (nodes : List PyNode)
    (nm : List (Nat × PyNode)) (links : List PyLink)
    (st : List (Int × List Int) × List (Int × List Int))
    (o : OverlapRecord) (r0 : RerouteRecord)
    (st' : List (Int × List Int) × List (Int × List Int))
    (h : enrich_overlap nodes nm links st o = some (r0, st')) :
    (r0.reroute_direction = "up" ↔ r0.up_distance < r0.down_distance) := by
  obtain ⟨ups, downs⟩ := st
  simp only [enrich_overlap, Option.bind_eq_bind, Option.bind_eq_some,
    Option.pure_def, Option.some.injEq] at h
  obtain ⟨origin_node, h1, h⟩ := h
  obtain ⟨target_node, h2, h⟩ := h
  obtain ⟨slot_link, h3, h⟩ := h
  obtain ⟨ex, h4, h⟩ := h
  obtain ⟨h5, _⟩ := Prod.mk.injEq .. ▸ h
  subst h5
  dsimp only
  split
  · rename_i hlt
    simpa using hlt
  · rename_i hlt
    simp only [RerouteRecord.reroute_direction, RerouteRecord.up_distance,
      RerouteRecord.down_distance]
    exact ⟨fun hcontra => absurd hcontra (by decide), fun hc => absurd hc hlt⟩

theorem step2_enrich_direction (nodes : List PyNode)
    (nm : List (Nat × PyNode)) (links : List PyLink) :
    ∀ (os : List OverlapRecord)
      (st : List (Int × List Int) × List (Int × List Int))
      (out : List RerouteRecord),
      step2_enrich nodes nm links os st = some out →
      ∀ o ∈ out, (o.reroute_direction = "up" ↔ o.up_distance < o.down_distance) := by
  intro os
  induction os with
  | nil =>
    intro st out h o ho
    simp only [step2_enrich, Option.some.injEq] at h
    subst h
    cases ho
  | cons hd tl ih =>
    intro st out h o ho
    simp only [step2_enrich, Option.bind_eq_bind, Option.bind_eq_some,
      Option.pure_def, Option.some.injEq] at h
    obtain ⟨r0, hr0, rest, hrest, hout⟩ := h
    subst hout
    rcases List.mem_cons.mp ho with heq | ho
    · subst heq
      exact enrich_overlap_direction nodes nm links st hd r0.1 r0.2
        (by rw [hr0])
    · exact ih r0.2 rest hrest o ho

/-- C10: for every link that has at least one overlap, the chosen
`reroute_direction` is `"up"` iff the computed `up_distance` is strictly
smaller than the computed `down_distance`; equal distances go `"down"`. -/
theorem c10_reroute_direction (g : GraphData) (r : RerouteResult)
    (h : detect_link_overlaps g = some r) :
    ∀ o ∈ r.overlaps,
      (o.reroute_direction = "up" ↔ o.up_distance < o.down_distance) := by
  simp only [detect_link_overlaps] at h
  split at h
  · cases h
    intro o ho
    cases ho
  · split at h
    · exact absurd h (by simp)
    · rename_i enriched hstep
      cases h
      intro o ho
      exact step2_enrich_direction _ _ _ _ _ _ hstep o ho

/-- Witness for C10: the single overlap record of the connected
scenario-3 graph (direction "down", distances 160 vs 140). -/
theorem c10_reroute_direction_witness :
    RerouteRecord.reroute_direction
        ⟨1, 1, "A", 3, "C", [⟨2, "B", (150, 0)⟩], "down", 160, 140, 0, 2, "B",
          50, 2, "B", (100, 100), (250, 100), 100⟩ = "up" ↔
      RerouteRecord.up_distance
          ⟨1, 1, "A", 3, "C", [⟨2, "B", (150, 0)⟩], "down", 160, 140, 0, 2, "B",
            50, 2, "B", (100, 100), (250, 100), 100⟩ <
        RerouteRecord.down_distance
          ⟨1, 1, "A", 3, "C", [⟨2, "B", (150, 0)⟩], "down", 160, 140, 0, 2, "B",
            50, 2, "B", (100, 100), (250, 100), 100⟩ := by
  have h := c10_reroute_direction c6_graph_connected
    ⟨"success", "Found 1 overlapping links",
      [⟨1, 1, "A", 3, "C", [⟨2, "B", (150, 0)⟩], "down", 160, 140, 0, 2, "B",
        50, 2, "B", (100, 100), (250, 100), 100⟩]⟩ (by decide)
  exact h _ (List.mem_cons_self _ _)

/-! ## Pipeline coverage lemmas

These lemmas track the key sets of the maps the layout pipeline builds,
culminating in: whenever chain enumeration produces at least one chain,
the positions and sizes maps of one component cover exactly the
component's node ids. -/

section PipelineCoverage

variable {κ α β : Type} [DecidableEq κ]

theorem foldl_establish (f : β → α → β) (P : β → α → Prop)
    (hmono : ∀ b a' a, P b a → P (f b a') a)
    (hest : ∀ b a, P (f b a) a) :
    ∀ (xs : List α) (b : β) (a : α), a ∈ xs → P (xs.foldl f b) a := by
  intro xs
  induction xs with
  | nil => intro b a ha; cases ha
  | cons x xs ih =>
    intro b a ha
    rcases List.mem_cons.mp ha with heq | ha
    · subst heq
      exact foldl_preserve (P := fun b => P b a) f xs (f b a)
        (fun b' a' _ hP => hmono b' a' a hP) (hest b a)
    · exact ih (f b x) a ha

theorem mem_akeys_foldl_ainsert (key : α → κ) (val : α → β) :
    ∀ (xs : List α) (start : List (κ × β)) (k : κ),
      k ∈ akeys (xs.foldl (fun m x => ainsert m (key x) (val x)) start) ↔
        k ∈ akeys start ∨ ∃ x ∈ xs, key x = k := by
  intro xs
  induction xs with
  | nil => simp
  | cons x xs ih =>
    intro start k
    simp only [List.foldl_cons, ih, mem_akeys_ainsert]
    constructor
    · rintro ((rfl | h) | h)
      · exact Or.inr ⟨x, List.mem_cons_self _ _, rfl⟩
      · exact Or.inl h
      · rcases h with ⟨x', hx', rfl⟩
        exact Or.inr ⟨x', List.mem_cons_of_mem _ hx', rfl⟩
    · rintro (h | ⟨x', hx', rfl⟩)
      · exact Or.inl (Or.inr h)
      · rcases List.mem_cons.mp hx' with heq | hx'
        · subst heq; exact Or.inl (Or.inl rfl)
        · exact Or.inr ⟨x', hx', rfl⟩

theorem nodup_akeys_foldl_ainsert (key : α → κ) (val : α → β)
    (xs : List α) (start : List (κ × β)) (h : (akeys start).Nodup) :
    (akeys (xs.foldl (fun m x => ainsert m (key x) (val x)) start)).Nodup :=
  foldl_preserve (P := fun m => (akeys m).Nodup) _ xs start
    (fun m x _ hm => nodup_akeys_ainsert m (key x) (val x) hm) h

theorem mem_foldl_ainsert (key : α → κ) (val : α → β) :
    ∀ (xs : List α) (start : List (κ × β)) (e : κ × β),
      e ∈ xs.foldl (fun m x => ainsert m (key x) (val x)) start →
      e ∈ start ∨ ∃ x ∈ xs, e = (key x, val x) := by
  intro xs
  induction xs with
  | nil => intro start e he; exact Or.inl he
  | cons x xs ih =>
    intro start e he
    rcases ih (ainsert start (key x) (val x)) e he with h | ⟨x', hx', rfl⟩
    · rcases mem_ainsert _ _ _ _ h with h' | h'
      · exact Or.inr ⟨x, List.mem_cons_self _ _, h'⟩
      · exact Or.inl h'
    · exact Or.inr ⟨x', List.mem_cons_of_mem _ hx', rfl⟩

/-- Keys of the node map built by `build_node_graph`. -/
theorem build_node_map_keys (nodes : List PyNode) (links : List PyLink) (k : Nat) :
    k ∈ akeys (build_node_graph nodes links).1 ↔ ∃ n ∈ nodes, n.id = k := by
  show k ∈ akeys (nodes.foldl (fun m n => ainsert m n.id n) []) ↔ _
  rw [mem_akeys_foldl_ainsert]
  simp [akeys]

theorem build_node_map_nodup (nodes : List PyNode) (links : List PyLink) :
    (akeys (build_node_graph nodes links).1).Nodup := by
  show (akeys (nodes.foldl (fun m n => ainsert m n.id n) [])).Nodup
  exact nodup_akeys_foldl_ainsert _ _ nodes [] (by simp [akeys])

theorem build_node_map_entry (nodes : List PyNode) (links : List PyLink)
    (k : Nat) (n : PyNode)
    (h : alookup (build_node_graph nodes links).1 k = some n) :
    n ∈ nodes ∧ n.id = k := by
  have he := mem_of_alookup_eq_some _ _ _ h
  rcases mem_foldl_ainsert (fun n : PyNode => n.id) id nodes [] (k, n) he with h' | h'
  · cases h'
  · rcases h' with ⟨x, hx, hkn⟩
    cases hkn
    exact ⟨hx, rfl⟩

/-- `add_link_edge` preserves both key sets and the invariant that every
id in a children list is a key of the parents map. -/
theorem add_link_edge_spec (seed : List (Nat × List Nat))
    (cp : List (Nat × List Nat) × List (Nat × List Nat)) (link : PyLink)
    (h1 : ∀ k, k ∈ akeys cp.1 ↔ k ∈ akeys seed)
    (h2 : ∀ k, k ∈ akeys cp.2 ↔ k ∈ akeys seed)
    (h3 : ∀ k cs, alookup cp.1 k = some cs → ∀ c ∈ cs, c ∈ akeys cp.2) :
    (∀ k, k ∈ akeys (add_link_edge cp link).1 ↔ k ∈ akeys seed) ∧
    (∀ k, k ∈ akeys (add_link_edge cp link).2 ↔ k ∈ akeys seed) ∧
    (∀ k cs, alookup (add_link_edge cp link).1 k = some cs →
      ∀ c ∈ cs, c ∈ akeys (add_link_edge cp link).2) := by
  unfold add_link_edge
  by_cases hg : (alookup cp.1 link.origin_id).isSome &&
      (alookup cp.2 link.target_id).isSome
  · simp only [if_pos hg]
    have hg' := hg
    rw [Bool.and_eq_true] at hg'
    have horig : link.origin_id ∈ akeys cp.1 :=
      (alookup_isSome_iff _ _).mp hg'.1
    have htgt : link.target_id ∈ akeys cp.2 :=
      (alookup_isSome_iff _ _).mp hg'.2
    refine ⟨?_, ?_, ?_⟩
    · intro k
      rw [mem_akeys_ainsert]
      constructor
      · rintro (rfl | h)
        · exact (h1 link.origin_id).mp horig
        · exact (h1 _).mp h
      · intro h
        exact Or.inr ((h1 k).mpr h)
    · intro k
      rw [mem_akeys_ainsert]
      constructor
      · rintro (rfl | h)
        · exact (h2 link.target_id).mp htgt
        · exact (h2 _).mp h
      · intro h
        exact Or.inr ((h2 k).mpr h)
    · intro k cs hcs c hc
      have hmem : c ∈ akeys cp.2 → c ∈ akeys (ainsert cp.2 link.target_id
          ((alookup cp.2 link.target_id).getD [] ++ [link.origin_id])) := by
        intro hm
        rw [mem_akeys_ainsert]; exact Or.inr hm
      by_cases hk : link.origin_id = k
      · subst hk
        rw [alookup_ainsert_self] at hcs
        cases hcs
        rcases List.mem_append.mp hc with hc | hc
        · cases hlok : alookup cp.1 link.origin_id with
          | none => rw [hlok] at hc; cases hc
          | some old =>
            rw [hlok] at hc
            exact hmem (h3 _ _ hlok c hc)
        · rcases List.mem_singleton.mp hc with rfl
          exact hmem htgt
      · rw [alookup_ainsert_of_ne _ _ _ _ (fun he => hk he.symm)] at hcs
        exact hmem (h3 _ _ hcs c hc)
  · simp only [if_neg hg]
    exact ⟨h1, h2, h3⟩

/-- The children/parents maps of `build_node_graph`: their key sets are
exactly the node ids, and every id in a children list is itself a key. -/
theorem build_children_parents_spec (nodes : List PyNode) (links : List PyLink) :
    (∀ k, k ∈ akeys (build_node_graph nodes links).2.1 ↔ ∃ n ∈ nodes, n.id = k) ∧
    (∀ k, k ∈ akeys (build_node_graph nodes links).2.2 ↔ ∃ n ∈ nodes, n.id = k) ∧
    (∀ k cs, alookup (build_node_graph nodes links).2.1 k = some cs →
      ∀ c ∈ cs, c ∈ akeys (build_node_graph nodes links).2.2) := by
  have hseed : ∀ k, k ∈ akeys (nodes.foldl
      (fun (m : List (Nat × List Nat)) n => ainsert m n.id []) []) ↔
      ∃ n ∈ nodes, n.id = k := by
    intro k
    rw [mem_akeys_foldl_ainsert]
    simp [akeys]
  have hfold := foldl_preserve
    (P := fun (cp : List (Nat × List Nat) × List (Nat × List Nat)) =>
      (∀ k, k ∈ akeys cp.1 ↔ k ∈ akeys (nodes.foldl
        (fun (m : List (Nat × List Nat)) n => ainsert m n.id []) [])) ∧
      (∀ k, k ∈ akeys cp.2 ↔ k ∈ akeys (nodes.foldl
        (fun (m : List (Nat × List Nat)) n => ainsert m n.id []) [])) ∧
      (∀ k cs, alookup cp.1 k = some cs → ∀ c ∈ cs, c ∈ akeys cp.2))
    add_link_edge links
    (nodes.foldl (fun (m : List (Nat × List Nat)) n => ainsert m n.id []) [],
     nodes.foldl (fun (m : List (Nat × List Nat)) n => ainsert m n.id []) [])
    (fun cp link _ hP => add_link_edge_spec _ cp link hP.1 hP.2.1 hP.2.2)
    ⟨fun _ => Iff.rfl, fun _ => Iff.rfl,
     fun k cs hcs c hc => by
      have hm := mem_of_alookup_eq_some _ _ _ hcs
      rcases mem_foldl_ainsert (fun n : PyNode => n.id)
          (fun _ => ([] : List Nat)) nodes [] (k, cs) hm with h | h
      · cases h
      · rcases h with ⟨x, _, hx⟩
        cases hx
        cases hc⟩
  have hc1 : (build_node_graph nodes links).2.1 = (links.foldl add_link_edge
      (nodes.foldl (fun (m : List (Nat × List Nat)) n => ainsert m n.id []) [],
       nodes.foldl (fun (m : List (Nat × List Nat)) n => ainsert m n.id []) [])).1 :=
    rfl
  have hc2 : (build_node_graph nodes links).2.2 = (links.foldl add_link_edge
      (nodes.foldl (fun (m : List (Nat × List Nat)) n => ainsert m n.id []) [],
       nodes.foldl (fun (m : List (Nat × List Nat)) n => ainsert m n.id []) [])).2 :=
    rfl
  rw [hc1, hc2]
  exact ⟨fun k => (hfold.1 k).trans (hseed k),
         fun k => (hfold.2.1 k).trans (hseed k),
         hfold.2.2⟩

theorem foldl_option_append_none {α γ : Type} (g : α → Option (List γ)) :
    ∀ cs : List α,
      cs.foldl (fun acc c => do
        let a ← acc
        let r ← g c
        pure (a ++ r)) (none : Option (List γ)) = none := by
  intro cs
  induction cs with
  | nil => rfl
  | cons c cs ih => simpa using ih

theorem foldl_option_append {α γ : Type} (g : α → Option (List γ)) (Q : γ → Prop) :
    ∀ (cs : List α) (acc : Option (List γ)) (out : List γ),
      cs.foldl (fun acc c => do
        let a ← acc
        let r ← g c
        pure (a ++ r)) acc = some out →
      (∀ l, acc = some l → ∀ x ∈ l, Q x) →
      (∀ c ∈ cs, ∀ r, g c = some r → ∀ x ∈ r, Q x) →
      ∀ x ∈ out, Q x := by
  intro cs
  induction cs with
  | nil =>
    intro acc out h hacc _ x hx
    exact hacc out h x hx
  | cons c cs ih =>
    intro acc out h hacc hg x hx
    cases hacc0 : acc with
    | none =>
      rw [hacc0] at h
      simp only [List.foldl_cons] at h
      rw [show ((do
        let a ← (none : Option (List γ))
        let r ← g c
        pure (a ++ r)) : Option (List γ)) = none from rfl] at h
      rw [foldl_option_append_none] at h
      cases h
    | some a0 =>
      rw [hacc0] at h
      simp only [List.foldl_cons] at h
      cases hgc : g c with
      | none =>
        rw [hgc] at h
        rw [show ((do
          let a ← some a0
          let r ← (none : Option (List γ))
          pure (a ++ r)) : Option (List γ)) = none from rfl] at h
        rw [foldl_option_append_none] at h
        cases h
      | some r0 =>
        rw [hgc] at h
        rw [show ((do
          let a ← some a0
          let r ← some r0
          pure (a ++ r)) : Option (List γ)) = some (a0 ++ r0) from rfl] at h
        refine ih (some (a0 ++ r0)) out h ?_ ?_ x hx
        · rintro l hl y hy
          cases hl
          rcases List.mem_append.mp hy with hy | hy
          · exact hacc a0 hacc0 y hy
          · exact hg c (List.mem_cons_self _ _) r0 hgc y hy
        · intro c' hc' r hr y hy
          exact hg c' (List.mem_cons_of_mem _ hc') r hr y hy

theorem dfs_build_chains_mem (children : List (Nat × List Nat))
    (hvals : ∀ k cs, alookup children k = some cs → ∀ c ∈ cs, c ∈ akeys children) :
    ∀ (fuel cur : Nat) (chain : List Nat) (out : List (List Nat)),
      cur ∈ akeys children → (∀ x ∈ chain, x ∈ akeys children) →
      dfs_build_chains children fuel cur chain = some out →
      ∀ ch ∈ out, ∀ x ∈ ch, x ∈ akeys children := by
  intro fuel
  induction fuel with
  | zero =>
    intro cur chain out _ _ h
    simp [dfs_build_chains] at h
  | succ n ih =>
    intro cur chain out hcur hch h
    simp only [dfs_build_chains] at h
    have hchain' : ∀ x ∈ chain ++ [cur], x ∈ akeys children := by
      intro x hx
      rcases List.mem_append.mp hx with hx | hx
      · exact hch x hx
      · rcases List.mem_singleton.mp hx with rfl
        exact hcur
    split at h
    · cases h
      intro ch hch' x hx
      rcases List.mem_singleton.mp hch' with rfl
      exact hchain' x hx
    · rename_i hne
      intro ch hchm x hx
      refine foldl_option_append
        (fun c => dfs_build_chains children n c (chain ++ [cur]))
        (fun ch => ∀ x ∈ ch, x ∈ akeys children)
        ((alookup children cur).getD []) (some []) out h ?_ ?_ ch hchm x hx
      · rintro l hl y hy
        cases hl
        cases hy
      · intro c hc r hr y hy
        cases hlc : alookup children cur with
        | none =>
          rw [hlc] at hc
          cases hc
        | some cs =>
          rw [hlc] at hc
          exact ih c (chain ++ [cur]) r (hvals cur cs hlc c hc) hchain' hr y hy

theorem find_all_chains_mem (parents children : List (Nat × List Nat))
    (fuel : Nat)
    (hpar : ∀ k, k ∈ akeys parents → k ∈ akeys children)
    (hvals : ∀ k cs, alookup children k = some cs → ∀ c ∈ cs, c ∈ akeys children)
    (out : List (List Nat))
    (h : find_all_chains parents children fuel = some out) :
    ∀ ch ∈ out, ∀ x ∈ ch, x ∈ akeys children := by
  simp only [find_all_chains] at h
  intro ch hch x hx
  refine foldl_option_append (fun s => dfs_build_chains children fuel s [])
    (fun ch => ∀ x ∈ ch, x ∈ akeys children)
    ((parents.filter (fun p => p.2.isEmpty)).map Prod.fst) (some []) out h
    ?_ ?_ ch hch x hx
  · rintro l hl y hy
    cases hl
    cases hy
  · intro s hs r hr y hy
    have hsk : s ∈ akeys children := by
      rcases List.mem_map.mp hs with ⟨e, he, rfl⟩
      exact hpar e.1 (List.mem_map.mpr ⟨e, List.mem_of_mem_filter he, rfl⟩)
    exact dfs_build_chains_mem children hvals fuel s [] r hsk
      (by intro z hz; cases hz) hr y hy

/-- Membership in the keys of a projected map threaded through a fold, for
step functions that insert exactly the key of each element. -/
theorem mem_akeys_foldl_dep {σ α κ2 β2 : Type} (proj : σ → List (κ2 × β2))
    (f : σ → α → σ) (key : α → κ2)
    (hproj : ∀ s a k, k ∈ akeys (proj (f s a)) ↔ k = key a ∨ k ∈ akeys (proj s)) :
    ∀ (xs : List α) (s : σ) (k : κ2),
      k ∈ akeys (proj (xs.foldl f s)) ↔ k ∈ akeys (proj s) ∨ ∃ x ∈ xs, key x = k := by
  intro xs
  induction xs with
  | nil => simp
  | cons x xs ih =>
    intro s k
    simp only [List.foldl_cons, ih, hproj]
    constructor
    · rintro ((rfl | h) | h)
      · exact Or.inr ⟨x, List.mem_cons_self _ _, rfl⟩
      · exact Or.inl h
      · rcases h with ⟨x', hx', rfl⟩
        exact Or.inr ⟨x', List.mem_cons_of_mem _ hx', rfl⟩
    · rintro (h | ⟨x', hx', rfl⟩)
      · exact Or.inl (Or.inr h)
      · rcases List.mem_cons.mp hx' with heq | hx'
        · subst heq; exact Or.inl (Or.inl rfl)
        · exact Or.inr ⟨x', hx', rfl⟩

/-- Phase A cell step: the column-nodes and column-widths maps always have
the same keys, and keys only grow. -/
theorem chain_cell_step_keys (node_map : List (Nat × PyNode))
    (st : List (Nat × List Nat) × List (Nat × Int)) (ce : Nat × Nat)
    (hI : ∀ k, k ∈ akeys st.1 ↔ k ∈ akeys st.2) :
    (∀ k, k ∈ akeys (chain_cell_step node_map st ce).1 ↔
      k ∈ akeys (chain_cell_step node_map st ce).2) ∧
    (∀ k ∈ akeys st.2, k ∈ akeys (chain_cell_step node_map st ce).2) ∧
    ce.1 ∈ akeys (chain_cell_step node_map st ce).2 := by
  unfold chain_cell_step
  by_cases h0 : (alookup st.1 ce.1).isNone
  · simp only [if_pos h0]
    by_cases h1 : ce.2 ∈ (alookup (ainsert st.1 ce.1 []) ce.1).getD []
    · simp only [if_pos h1]
      refine ⟨fun k => ?_, fun k hk => ?_, ?_⟩
      · rw [mem_akeys_ainsert, mem_akeys_ainsert, hI k]
      · rw [mem_akeys_ainsert]; exact Or.inr hk
      · rw [mem_akeys_ainsert]; exact Or.inl rfl
    · simp only [if_neg h1]
      refine ⟨fun k => ?_, fun k hk => ?_, ?_⟩
      · rw [mem_akeys_ainsert, mem_akeys_ainsert, mem_akeys_ainsert,
          mem_akeys_ainsert, hI k]
      · rw [mem_akeys_ainsert, mem_akeys_ainsert]; exact Or.inr (Or.inr hk)
      · rw [mem_akeys_ainsert]; exact Or.inl rfl
  · simp only [if_neg h0]
    have hc1 : ce.1 ∈ akeys st.1 := by
      rw [← alookup_isSome_iff]
      cases hl : alookup st.1 ce.1
      · rw [hl] at h0; exact absurd rfl h0
      · rfl
    by_cases h1 : ce.2 ∈ (alookup st.1 ce.1).getD []
    · simp only [if_pos h1]
      exact ⟨hI, fun k hk => hk, (hI ce.1).mp hc1⟩
    · simp only [if_neg h1]
      refine ⟨fun k => ?_, fun k hk => ?_, ?_⟩
      · rw [mem_akeys_ainsert, mem_akeys_ainsert, hI k]
      · rw [mem_akeys_ainsert]; exact Or.inr hk
      · rw [mem_akeys_ainsert]; exact Or.inl rfl

/-- Phase A: every `(col, node)` cell of every longest chain leaves its
column index in the width map. -/
theorem chain_cols_in_widths (longest_chains : List (List Nat))
    (node_map : List (Nat × PyNode)) :
    ∀ ch ∈ longest_chains, ∀ p ∈ ch.enum,
      p.1 ∈ akeys (chain_column_assignment longest_chains node_map).2 := by
  have hstep2 : ∀ (st : List (Nat × List Nat) × List (Nat × Int)),
      (∀ k, k ∈ akeys st.1 ↔ k ∈ akeys st.2) →
      ∀ ch : List Nat,
      (∀ k, k ∈ akeys (ch.enum.foldl (chain_cell_step node_map) st).1 ↔
        k ∈ akeys (ch.enum.foldl (chain_cell_step node_map) st).2) ∧
      (∀ k ∈ akeys st.2, k ∈ akeys (ch.enum.foldl (chain_cell_step node_map) st).2) ∧
      (∀ p ∈ ch.enum, p.1 ∈ akeys (ch.enum.foldl (chain_cell_step node_map) st).2) := by
    intro st hI ch
    -- fold over an arbitrary pair list
    suffices h : ∀ (ps : List (Nat × Nat)) (st : List (Nat × List Nat) × List (Nat × Int)),
        (∀ k, k ∈ akeys st.1 ↔ k ∈ akeys st.2) →
        (∀ k, k ∈ akeys (ps.foldl (chain_cell_step node_map) st).1 ↔
          k ∈ akeys (ps.foldl (chain_cell_step node_map) st).2) ∧
        (∀ k ∈ akeys st.2, k ∈ akeys (ps.foldl (chain_cell_step node_map) st).2) ∧
        (∀ p ∈ ps, p.1 ∈ akeys (ps.foldl (chain_cell_step node_map) st).2) by
      exact h ch.enum st hI
    intro ps
    induction ps with
    | nil =>
      intro st hI
      exact ⟨hI, fun k hk => hk, fun p hp => absurd hp (List.not_mem_nil p)⟩
    | cons p ps ih =>
      intro st hI
      have hstep := chain_cell_step_keys node_map st p hI
      have hrest := ih (chain_cell_step node_map st p) hstep.1
      refine ⟨hrest.1, ?_, ?_⟩
      · intro k hk
        exact hrest.2.1 k (hstep.2.1 k hk)
      · intro q hq
        rcases List.mem_cons.mp hq with heq | hq
        · subst heq
          exact hrest.2.1 q.1 hstep.2.2
        · exact hrest.2.2 q hq
  -- outer fold over the chains
  suffices h : ∀ (chs : List (List Nat)) (st : List (Nat × List Nat) × List (Nat × Int)),
      (∀ k, k ∈ akeys st.1 ↔ k ∈ akeys st.2) →
      (∀ k, k ∈ akeys (chs.foldl (fun st chain =>
          chain.enum.foldl (chain_cell_step node_map) st) st).1 ↔
        k ∈ akeys (chs.foldl (fun st chain =>
          chain.enum.foldl (chain_cell_step node_map) st) st).2) ∧
      (∀ k ∈ akeys st.2, k ∈ akeys (chs.foldl (fun st chain =>
          chain.enum.foldl (chain_cell_step node_map) st) st).2) ∧
      (∀ ch ∈ chs, ∀ p ∈ ch.enum, p.1 ∈ akeys (chs.foldl (fun st chain =>
          chain.enum.foldl (chain_cell_step node_map) st) st).2) by
    intro ch hch p hp
    exact (h longest_chains ([], []) (by simp [akeys])).2.2 ch hch p hp
  intro chs
  induction chs with
  | nil =>
    intro st hI
    exact ⟨hI, fun k hk => hk, fun ch hch => absurd hch (List.not_mem_nil ch)⟩
  | cons ch chs ih =>
    intro st hI
    have hone := hstep2 st hI ch
    have hrest := ih (ch.enum.foldl (chain_cell_step node_map) st) hone.1
    refine ⟨hrest.1, ?_, ?_⟩
    · intro k hk
      exact hrest.2.1 k (hone.2.1 k hk)
    · intro ch' hch' p hp
      rcases List.mem_cons.mp hch' with heq | hch'
      · subst heq
        exact hrest.2.1 p.1 (hone.2.2 p hp)
      · exact hrest.2.2 ch' hch' p hp

/-- Keys of the phase-B X map are the keys of the width map. -/
theorem initial_column_x_keys (cw : List (Nat × Int)) (k : Nat) :
    k ∈ akeys (initial_column_x cw) ↔ k ∈ akeys cw := by
  unfold initial_column_x
  rw [mem_akeys_foldl_dep
    (fun (st : List (Nat × Int) × Int) => st.1)
    (fun st col => (ainsert st.1 col st.2,
      st.2 + (alookup cw col).getD 0 + 100))
    (fun c => c)
    (fun s a k => by rw [mem_akeys_ainsert])]
  constructor
  · rintro (h | ⟨x, hx, rfl⟩)
    · simp [akeys] at h
    · exact (mem_isortBy _ _ _).mp hx
  · intro h
    exact Or.inr ⟨k, (mem_isortBy _ _ _).mpr h, rfl⟩

theorem snd_mem_of_mem_enumFrom {α : Type} :
    ∀ (l : List α) (n : Nat) (p : Nat × α), p ∈ l.enumFrom n → p.2 ∈ l := by
  intro l
  induction l with
  | nil => intro n p hp; cases hp
  | cons x xs ih =>
    intro n p hp
    rcases List.mem_cons.mp hp with heq | hp
    · subst heq; exact List.mem_cons_self _ _
    · exact List.mem_cons_of_mem _ (ih (n + 1) p hp)

theorem snd_mem_of_mem_enum {α : Type} (l : List α) (p : Nat × α)
    (hp : p ∈ l.enum) : p.2 ∈ l :=
  snd_mem_of_mem_enumFrom l 0 p hp

/-- The chain-position map: its keys are chain members and are
duplicate-free, and every stored X coordinate is a value of the column-X
map (provided every chain cell's column exists there). -/
theorem assign_chain_positions_spec (longest_chains : List (List Nat))
    (cxp : List (Nat × Int)) (start_y : Int)
    (hcols : ∀ ch ∈ longest_chains, ∀ p ∈ ch.enum, p.1 ∈ akeys cxp) :
    (∀ e ∈ assign_chain_positions longest_chains cxp start_y,
      ∃ ce ∈ cxp, ce.2 = e.2.1) ∧
    (∀ k ∈ akeys (assign_chain_positions longest_chains cxp start_y),
      ∃ ch ∈ longest_chains, k ∈ ch) ∧
    (akeys (assign_chain_positions longest_chains cxp start_y)).Nodup := by
  unfold assign_chain_positions
  refine foldl_preserve
    (P := fun (np : List (Nat × Int × Int)) =>
      (∀ e ∈ np, ∃ ce ∈ cxp, ce.2 = e.2.1) ∧
      (∀ k ∈ akeys np, ∃ ch ∈ longest_chains, k ∈ ch) ∧
      (akeys np).Nodup) _ _ _ ?_
    ⟨(by intro e he; cases he), (by intro k hk; cases hk), (by simp [akeys])⟩
  intro np che hche hP
  have hch : che.2 ∈ longest_chains := snd_mem_of_mem_enum _ _ hche
  refine foldl_preserve
    (P := fun (np : List (Nat × Int × Int)) =>
      (∀ e ∈ np, ∃ ce ∈ cxp, ce.2 = e.2.1) ∧
      (∀ k ∈ akeys np, ∃ ch ∈ longest_chains, k ∈ ch) ∧
      (akeys np).Nodup) _ _ _ ?_ hP
  intro np' ce hce hP'
  by_cases hs : (alookup np' ce.2).isSome
  · simp only [if_pos hs]
    exact hP'
  · simp only [if_neg hs]
    have hcol : ce.1 ∈ akeys cxp := hcols che.2 hch ce hce
    have hsome := (alookup_isSome_iff cxp ce.1).mpr hcol
    rcases Option.isSome_iff_exists.mp hsome with ⟨v, hv⟩
    refine ⟨?_, ?_, nodup_akeys_ainsert _ _ _ hP'.2.2⟩
    · intro e he
      rcases mem_ainsert _ _ _ _ he with heq | he
      · subst heq
        refine ⟨(ce.1, v), mem_of_alookup_eq_some _ _ _ hv, ?_⟩
        simp [hv]
      · exact hP'.1 e he
    · intro k hk
      rcases (mem_akeys_ainsert _ _ _ _).mp hk with heq | hk
      · subst heq
        exact ⟨che.2, hch, snd_mem_of_mem_enum _ _ hce⟩
      · exact hP'.2.1 k hk

theorem pos_to_column_keys (cxp : List (Nat × Int)) (x : Int) :
    x ∈ akeys (pos_to_column_map cxp) ↔ ∃ e ∈ cxp, e.2 = x := by
  unfold pos_to_column_map
  rw [mem_akeys_foldl_ainsert (fun e : Nat × Int => e.2) (fun e : Nat × Int => e.1)
    cxp [] x]
  simp [akeys]

theorem pos_to_column_entries (cxp : List (Nat × Int)) :
    ∀ e' ∈ pos_to_column_map cxp, ∃ e ∈ cxp, e' = (e.2, e.1) := by
  intro e' he'
  rcases mem_foldl_ainsert (fun e : Nat × Int => e.2) (fun e : Nat × Int => e.1)
    cxp [] e' he' with h | h
  · cases h
  · rcases h with ⟨e, he, rfl⟩
    exact ⟨e, he, rfl⟩

/-- The seed of `node_columns`: when every positioned X occurs in the
reverse map, the seed's keys are exactly the positioned nodes, and every
seeded column is a value of the reverse map. -/
theorem seed_node_columns_spec :
    ∀ (np : List (Nat × Int × Int)) (p2c : List (Int × Nat))
      (start : List (Nat × Nat)),
      (∀ e ∈ np, (alookup p2c e.2.1).isSome) →
      (∀ k, k ∈ akeys (np.foldl (fun m e =>
          match alookup p2c e.2.1 with
          | some col => ainsert m e.1 col
          | none => m) start) ↔ k ∈ akeys start ∨ k ∈ akeys np) ∧
      (∀ e' ∈ np.foldl (fun m e =>
          match alookup p2c e.2.1 with
          | some col => ainsert m e.1 col
          | none => m) start,
        e' ∈ start ∨ ∃ x, (x, e'.2) ∈ p2c) := by
  intro np
  induction np with
  | nil =>
    intro p2c start _
    exact ⟨fun k => by simp [akeys], fun e' he' => Or.inl he'⟩
  | cons e np ih =>
    intro p2c start hvals
    have he := hvals e (List.mem_cons_self _ _)
    rcases Option.isSome_iff_exists.mp he with ⟨col, hcol⟩
    have hrest := ih p2c (ainsert start e.1 col)
      (fun e' he' => hvals e' (List.mem_cons_of_mem _ he'))
    rw [List.foldl_cons]
    rw [show (match alookup p2c e.2.1 with
        | some col => ainsert start e.1 col
        | none => start) = ainsert start e.1 col by rw [hcol]]
    refine ⟨fun k => ?_, ?_⟩
    · rw [hrest.1 k, mem_akeys_ainsert]
      constructor
      · rintro ((rfl | h) | h)
        · exact Or.inr (by simp [akeys])
        · exact Or.inl h
        · exact Or.inr (by
            simp only [akeys, List.map_cons, List.mem_cons]
            exact Or.inr h)
      · rintro (h | h)
        · exact Or.inl (Or.inr h)
        · rcases List.mem_cons.mp h with heq | h
          · exact Or.inl (Or.inl heq)
          · exact Or.inr h
    · intro e' he'
      rcases hrest.2 e' he' with h | h
      · rcases mem_ainsert _ _ _ _ h with heq | h
        · subst heq
          exact Or.inr ⟨e.2.1, mem_of_alookup_eq_some _ _ _ hcol⟩
        · exact Or.inl h
      · exact Or.inr h

/-- `place_one`: the assignment map gains exactly the placed node's key. -/
theorem place_one_keys (node_map : List (Nat × PyNode))
    (children parents : List (Nat × List Nat))
    (st : List (Nat × Nat) × List (Nat × Int) × List (Nat × Int))
    (nid k : Nat) :
    k ∈ akeys (place_one node_map children parents st nid).1 ↔
      k = nid ∨ k ∈ akeys st.1 := by
  simp only [place_one]
  rw [mem_akeys_ainsert]

/-- `place_one` preserves (and establishes for the new node) the invariant
that every assigned column is a key of the column-X map, whose key set
only grows. -/
theorem place_one_values (node_map : List (Nat × PyNode))
    (children parents : List (Nat × List Nat))
    (st : List (Nat × Nat) × List (Nat × Int) × List (Nat × Int)) (nid : Nat)
    (hJ : ∀ e ∈ st.1, e.2 ∈ akeys st.2.1) :
    (∀ e ∈ (place_one node_map children parents st nid).1,
      e.2 ∈ akeys (place_one node_map children parents st nid).2.1) ∧
    (∀ c ∈ akeys st.2.1, c ∈ akeys (place_one node_map children parents st nid).2.1) := by
  simp only [place_one]
  split
  · -- new column created
    refine ⟨?_, ?_⟩
    · intro e he
      rcases mem_ainsert _ _ _ _ he with heq | he
      · subst heq
        rw [mem_akeys_ainsert]
        exact Or.inl rfl
      · rw [mem_akeys_ainsert]
        exact Or.inr (hJ e he)
    · intro c hc
      rw [mem_akeys_ainsert]
      exact Or.inr hc
  · -- column exists
    rename_i hex
    refine ⟨?_, fun c hc => hc⟩
    intro e he
    rcases mem_ainsert _ _ _ _ he with heq | he
    · subst heq
      rw [← alookup_isSome_iff]
      cases hl : alookup st.2.1 _
      · rw [hl] at hex; exact absurd rfl hex
      · rfl
    · exact hJ e he

/-- Step 4 as a whole: the assignment covers exactly the positioned nodes
plus every node of the node map, and every assigned column is a key of
the column-X map. -/
theorem assign_remaining_spec (node_map : List (Nat × PyNode))
    (children parents : List (Nat × List Nat))
    (np : List (Nat × Int × Int)) (cxp cw : List (Nat × Int))
    (hseed : ∀ e ∈ np, (alookup (pos_to_column_map cxp) e.2.1).isSome) :
    (∀ k, k ∈ akeys (assign_remaining_columns node_map children parents np cxp cw).1 ↔
      k ∈ akeys np ∨ k ∈ akeys node_map) ∧
    (∀ e ∈ (assign_remaining_columns node_map children parents np cxp cw).1,
      e.2 ∈ akeys (assign_remaining_columns node_map children parents np cxp cw).2.1) := by
  have hs := seed_node_columns_spec np (pos_to_column_map cxp) [] hseed
  constructor
  · intro k
    unfold assign_remaining_columns
    rw [mem_akeys_foldl_dep
      (fun (st : List (Nat × Nat) × List (Nat × Int) × List (Nat × Int)) => st.1)
      (place_one node_map children parents) (fun x => x)
      (fun s a k => place_one_keys node_map children parents s a k)]
    have hseedk := hs.1 k
    rw [show (seed_node_columns np (pos_to_column_map cxp)) = np.foldl (fun m e =>
        match alookup (pos_to_column_map cxp) e.2.1 with
        | some col => ainsert m e.1 col
        | none => m) [] from rfl] at *
    constructor
    · rintro (h | ⟨x, hx, rfl⟩)
      · rcases hseedk.mp h with h | h
        · simp [akeys] at h
        · exact Or.inl h
      · exact Or.inr (List.mem_of_mem_filter hx)
    · rintro (h | h)
      · exact Or.inl (hseedk.mpr (Or.inr h))
      · by_cases hnp : (alookup np k).isSome
        · exact Or.inl (hseedk.mpr (Or.inr ((alookup_isSome_iff _ _).mp hnp)))
        · refine Or.inr ⟨k, List.mem_filter.mpr ⟨h, ?_⟩, rfl⟩
          simp only [Option.isNone_iff_eq_none, decide_eq_true_eq]
          cases hl : alookup np k
          · rfl
          · rw [hl] at hnp; exact absurd rfl hnp
  · unfold assign_remaining_columns
    refine foldl_preserve
      (P := fun (st : List (Nat × Nat) × List (Nat × Int) × List (Nat × Int)) =>
        ∀ e ∈ st.1, e.2 ∈ akeys st.2.1) _ _ _ ?_ ?_
    · intro st nid _ hP
      exact (place_one_values node_map children parents st nid hP).1
    · intro e he
      rcases hs.2 e he with h | ⟨x, hx⟩
      · cases h
      · rcases pos_to_column_entries cxp (x, e.2) hx with ⟨e0, he0, heq⟩
        have : e.2 = e0.1 := congrArg Prod.snd heq
        rw [this]
        exact List.mem_map.mpr ⟨e0, he0, rfl⟩

/-- Every detected leftward link's target is an assigned node. -/
theorem detect_leftward_targets (ctx : LoopCtx) (cw : List (Nat × Int))
    (st : ColState) :
    ∀ lw ∈ detect_leftward ctx cw st, lw.target_id ∈ akeys st.node_columns := by
  unfold detect_leftward
  refine foldl_preserve
    (P := fun (acc : List LeftwardLink) =>
      ∀ lw ∈ acc, lw.target_id ∈ akeys st.node_columns) _ _ _ ?_ ?_
  · intro acc link _ hP lw hlw
    cases h1 : alookup st.node_columns link.origin_id with
    | none =>
      rw [h1] at hlw
      exact hP lw hlw
    | some oc =>
      rw [h1] at hlw
      cases h2 : alookup st.node_columns link.target_id with
      | none =>
        rw [h2] at hlw
        exact hP lw hlw
      | some tc =>
        rw [h2] at hlw
        dsimp only at hlw
        split at hlw
        · rcases List.mem_append.mp hlw with h | h
          · exact hP lw h
          · rcases List.mem_singleton.mp h with rfl
            exact mem_akeys_of_alookup _ _ _ h2
        · exact hP lw hlw
  · intro lw hlw; cases hlw

/-- Keys of the leftward-link grouping are the targets. -/
theorem group_by_target_keys (lws : List LeftwardLink) (k : Nat) :
    k ∈ akeys (group_by_target lws) ↔ ∃ lw ∈ lws, lw.target_id = k := by
  unfold group_by_target
  have h := mem_akeys_foldl_dep (fun m : List (Nat × List LeftwardLink) => m)
    (fun m lw => ainsert m lw.target_id ((alookup m lw.target_id).getD [] ++ [lw]))
    (fun lw => lw.target_id)
    (fun s a k => by rw [mem_akeys_ainsert]) lws [] k
  rw [h]
  simp [akeys]

/-- One target fix: the assignment's key set is unchanged, the
column-values invariant is preserved, and the column-X key set grows. -/
theorem fix_one_target_spec (ctx : LoopCtx) (cw : List (Nat × Int))
    (st : ColState) (t : Nat) (lws : List LeftwardLink)
    (ht : t ∈ akeys st.node_columns)
    (hJ : ∀ e ∈ st.node_columns, e.2 ∈ akeys st.column_x_positions) :
    (∀ k, k ∈ akeys (fix_one_target ctx cw st t lws).node_columns ↔
      k ∈ akeys st.node_columns) ∧
    (∀ e ∈ (fix_one_target ctx cw st t lws).node_columns,
      e.2 ∈ akeys (fix_one_target ctx cw st t lws).column_x_positions) ∧
    (∀ c ∈ akeys st.column_x_positions,
      c ∈ akeys (fix_one_target ctx cw st t lws).column_x_positions) := by
  simp only [fix_one_target]
  split
  · -- the target moves
    refine ⟨fun k => ?_, ?_, ?_⟩
    · simp only [ColState.node_columns]
      rw [akeys_ainsert_of_mem _ _ _ ht]
    · intro e he
      simp only [ColState.node_columns] at he
      simp only [ColState.column_x_positions]
      rcases mem_ainsert _ _ _ _ he with heq | he
      · subst heq
        rw [mem_akeys_ainsert]
        exact Or.inl rfl
      · rw [mem_akeys_ainsert]
        refine Or.inr ?_
        split
        · rw [mem_akeys_ainsert]
          exact Or.inr (hJ e he)
        · exact hJ e he
    · intro c hc
      simp only [ColState.column_x_positions]
      rw [mem_akeys_ainsert]
      refine Or.inr ?_
      split
      · rw [mem_akeys_ainsert]
        exact Or.inr hc
      · exact hc
  · exact ⟨fun k => Iff.rfl, hJ, fun c hc => hc⟩

/-- `apply_fixes` keeps the assignment keys, preserves the column-values
invariant, and grows the column-X keys. -/
theorem apply_fixes_spec (ctx : LoopCtx) (cw : List (Nat × Int))
    (groups : List (Nat × List LeftwardLink)) (st : ColState)
    (hts : ∀ g ∈ groups, g.1 ∈ akeys st.node_columns)
    (hJ : ∀ e ∈ st.node_columns, e.2 ∈ akeys st.column_x_positions) :
    (∀ k, k ∈ akeys (apply_fixes ctx cw st groups).node_columns ↔
      k ∈ akeys st.node_columns) ∧
    (∀ e ∈ (apply_fixes ctx cw st groups).node_columns,
      e.2 ∈ akeys (apply_fixes ctx cw st groups).column_x_positions) := by
  unfold apply_fixes
  have h := foldl_preserve
    (P := fun (s : ColState) =>
      (∀ k, k ∈ akeys s.node_columns ↔ k ∈ akeys st.node_columns) ∧
      (∀ e ∈ s.node_columns, e.2 ∈ akeys s.column_x_positions))
    (fun s g => fix_one_target ctx cw s g.1 g.2) groups st
    (fun s g hg hP => by
      have hspec := fix_one_target_spec ctx cw s g.1 g.2
        ((hP.1 g.1).mpr (hts g hg)) hP.2
      exact ⟨fun k => (hspec.1 k).trans (hP.1 k), hspec.2.1⟩)
    ⟨fun k => Iff.rfl, hJ⟩
  exact h

/-- The correction loop keeps the assignment keys and the column-values
invariant. -/
theorem fix_loop_go_keys (ctx : LoopCtx) :
    ∀ (fuel i : Nat) (st : ColState) (cw0 : List (Nat × Int)),
      (∀ e ∈ st.node_columns, e.2 ∈ akeys st.column_x_positions) →
      (∀ k, k ∈ akeys (fix_loop_go ctx fuel i st cw0).1.node_columns ↔
        k ∈ akeys st.node_columns) ∧
      (∀ e ∈ (fix_loop_go ctx fuel i st cw0).1.node_columns,
        e.2 ∈ akeys (fix_loop_go ctx fuel i st cw0).1.column_x_positions) := by
  intro fuel
  induction fuel with
  | zero =>
    intro i st cw0 hJ
    exact ⟨fun k => Iff.rfl, hJ⟩
  | succ n ih =>
    intro i st cw0 hJ
    rw [fix_loop_go]
    split
    · exact ⟨fun k => Iff.rfl, hJ⟩
    · have hts : ∀ g ∈ group_by_target (detect_leftward ctx
          (recompute_column_widths ctx st.node_columns) st),
          g.1 ∈ akeys st.node_columns := by
        intro g hg
        have hk : g.1 ∈ akeys (group_by_target (detect_leftward ctx
            (recompute_column_widths ctx st.node_columns) st)) :=
          List.mem_map.mpr ⟨g, hg, rfl⟩
        rcases (group_by_target_keys _ _).mp hk with ⟨lw, hlw, heq⟩
        rw [← heq]
        exact detect_leftward_targets ctx _ st lw hlw
      have happ := apply_fixes_spec ctx
        (recompute_column_widths ctx st.node_columns)
        (group_by_target (detect_leftward ctx
          (recompute_column_widths ctx st.node_columns) st)) st hts hJ
      have hrec := ih (i + 1) (apply_fixes ctx
        (recompute_column_widths ctx st.node_columns) st
        (group_by_target (detect_leftward ctx
          (recompute_column_widths ctx st.node_columns) st)))
        (recompute_column_widths ctx st.node_columns) happ.2
      exact ⟨fun k => (hrec.1 k).trans (happ.1 k), hrec.2⟩

theorem alookup_of_mem_nodup (l : List (κ × β)) (k : κ) (v : β)
    (hnd : (akeys l).Nodup) (he : (k, v) ∈ l) : alookup l k = some v := by
  induction l with
  | nil => cases he
  | cons e rest ih =>
    cases e with
    | mk ek ev =>
      have hh : ek ∉ akeys rest ∧ (akeys rest).Nodup := by simpa [akeys] using hnd
      rcases List.mem_cons.mp he with heq | he2
      · cases heq
        exact alookup_cons_self _ _ _
      · have hk : k ≠ ek := by
          intro h
          exact hh.1 (List.mem_map.mpr ⟨(k, v), he2, h⟩)
        rw [alookup_cons_ne _ _ _ _ (Ne.symm hk)]
        exact ih hh.2 he2

/-- Every assignment entry is recorded in its column's member list. -/
theorem columns_to_nodes_covers (ncols : List (Nat × Nat)) :
    ∀ e ∈ ncols, ∃ ms, alookup (columns_to_nodes_of ncols) e.2 = some ms ∧
      e.1 ∈ ms := by
  unfold columns_to_nodes_of
  refine foldl_establish _
    (fun m (e : Nat × Nat) => ∃ ms, alookup m e.2 = some ms ∧ e.1 ∈ ms) ?_ ?_ ncols []
  · intro m e' e ⟨ms, hms, hmem⟩
    by_cases hc : e'.2 = e.2
    · rw [hc, alookup_ainsert_self]
      refine ⟨_, rfl, ?_⟩
      rw [hms]
      simp only [Option.getD_some]
      exact List.mem_append.mpr (Or.inl hmem)
    · rw [alookup_ainsert_of_ne _ _ _ _ (fun h => hc h.symm)]
      exact ⟨ms, hms, hmem⟩
  · intro m e
    rw [alookup_ainsert_self]
    exact ⟨_, rfl, List.mem_append.mpr (Or.inr (List.mem_singleton.mpr rfl))⟩

/-- Members of a column list really are assigned to that column. -/
theorem columns_to_nodes_sound (ncols : List (Nat × Nat)) :
    ∀ c ms, alookup (columns_to_nodes_of ncols) c = some ms →
      ∀ k ∈ ms, (k, c) ∈ ncols := by
  unfold columns_to_nodes_of
  refine foldl_preserve
    (P := fun m => ∀ c ms, alookup m c = some ms → ∀ k ∈ ms, (k, c) ∈ ncols)
    _ _ _ ?_ ?_
  · intro m e he hP c ms hms k hk
    by_cases hc : e.2 = c
    · subst hc
      rw [alookup_ainsert_self] at hms
      cases hms
      rcases List.mem_append.mp hk with h | h
      · cases hl : alookup m e.2 with
        | none => rw [hl] at h; cases h
        | some ms0 =>
          rw [hl] at h
          exact hP e.2 ms0 hl k h
      · rcases List.mem_singleton.mp h with rfl
        exact he
    · rw [alookup_ainsert_of_ne _ _ _ _ (fun h => hc h.symm)] at hms
      exact hP c ms hms k hk
  · intro c ms hms
    cases hms

/-- Removing empty columns does not touch columns that have members. -/
theorem remove_empty_lookup (cxp cw : List (Nat × Int))
    (ctn : List (Nat × List Nat)) (c : Nat)
    (hc : (alookup ctn c).isSome) :
    alookup (remove_empty_columns cxp cw ctn).1 c = alookup cxp c := by
  unfold remove_empty_columns
  refine foldl_preserve (P := fun m => alookup m c = alookup cxp c) _ _ _ ?_ rfl
  intro m d hd hP
  have hdc : c ≠ d := by
    intro h
    subst h
    have := List.of_mem_filter hd
    simp only [Option.isNone_iff_eq_none, decide_eq_true_eq] at this
    rw [this] at hc
    cases hc
  rw [alookup_aerase_of_ne _ _ _ hdc]
  exact hP

theorem remove_empty_nodup (cxp cw : List (Nat × Int))
    (ctn : List (Nat × List Nat)) (h : (akeys cxp).Nodup) :
    (akeys (remove_empty_columns cxp cw ctn).1).Nodup := by
  unfold remove_empty_columns
  refine foldl_preserve (P := fun (m : List (Nat × Int)) => (akeys m).Nodup)
    _ _ _ ?_ h
  intro m d _ hP
  exact hP.sublist ((aerase_sublist m d).map Prod.fst)

theorem remove_empty_keys_sub (cxp cw : List (Nat × Int))
    (ctn : List (Nat × List Nat)) (c : Nat)
    (hc : c ∈ akeys (remove_empty_columns cxp cw ctn).1) : c ∈ akeys cxp := by
  revert hc
  unfold remove_empty_columns
  refine foldl_preserve
    (P := fun (m : List (Nat × Int)) => c ∈ akeys m → c ∈ akeys cxp) _ _ _ ?_ (fun h => h)
  intro m d _ hP hc
  exact hP (((aerase_sublist m d).map Prod.fst).mem hc)

/-- `space_columns` never changes the key set of the positions map. -/
theorem space_columns_np_keys (cols : List Nat) (cw : List (Nat × Int))
    (ncols : List (Nat × Nat)) (cxp : List (Nat × Int))
    (np : List (Nat × Int × Int)) (k : Nat) :
    (k ∈ akeys (space_columns cols cw ncols cxp np).2 ↔ k ∈ akeys np) ∧
    ((akeys np).Nodup → (akeys (space_columns cols cw ncols cxp np).2).Nodup) := by
  unfold space_columns
  dsimp only
  refine foldl_preserve
    (P := fun (st : List (Nat × Int) × List (Nat × Int × Int) × Int) =>
      (k ∈ akeys st.2.1 ↔ k ∈ akeys np) ∧
      ((akeys np).Nodup → (akeys st.2.1).Nodup))
    _ cols (cxp, np, (100 : Int)) ?_ ⟨Iff.rfl, fun h => h⟩
  · intro st c _ hP
    dsimp only
    refine foldl_preserve
      (P := fun (m : List (Nat × Int × Int)) =>
        (k ∈ akeys m ↔ k ∈ akeys np) ∧ ((akeys np).Nodup → (akeys m).Nodup))
      _ ncols st.2.1 ?_ hP
    intro m e _ hQ
    by_cases hc : e.2 = c
    · simp only [if_pos hc]
      cases hl : alookup m e.1 with
      | none => exact hQ
      | some pos =>
        have hmem : e.1 ∈ akeys m := mem_akeys_of_alookup _ _ _ hl
        constructor
        · rw [akeys_ainsert_of_mem _ _ _ hmem]
          exact hQ.1
        · intro hnd
          exact nodup_akeys_ainsert _ _ _ (hQ.2 hnd)
    · simp only [if_neg hc]
      exact hQ

/-- Keys after stacking one column's nodes. -/
theorem assign_column_ys_keys (ns : List (Nat × Int × Int)) (x y : Int)
    (sorted_nodes : List Nat) (np : List (Nat × Int × Int)) (k : Nat) :
    k ∈ akeys (assign_column_ys ns x y sorted_nodes np) ↔
      k ∈ sorted_nodes ∨ k ∈ akeys np := by
  unfold assign_column_ys
  have h := mem_akeys_foldl_dep
    (fun (st : List (Nat × Int × Int) × Int) => st.1)
    (fun st nid => (ainsert st.1 nid (x, st.2),
      st.2 + ((alookup ns nid).getD (0, 0)).2 + 60))
    (fun nid => nid)
    (fun s a k => by rw [mem_akeys_ainsert]) sorted_nodes (np, y) k
  rw [h]
  constructor
  · rintro (h1 | ⟨a, ha, rfl⟩)
    · exact Or.inr h1
    · exact Or.inl ha
  · rintro (h1 | h1)
    · exact Or.inr ⟨k, h1, rfl⟩
    · exact Or.inl h1

theorem assign_column_ys_nodup (ns : List (Nat × Int × Int)) (x y : Int)
    (sorted_nodes : List Nat) (np : List (Nat × Int × Int))
    (h : (akeys np).Nodup) :
    (akeys (assign_column_ys ns x y sorted_nodes np)).Nodup := by
  unfold assign_column_ys
  have hh := foldl_preserve
    (P := fun (st : List (Nat × Int × Int) × Int) => (akeys st.1).Nodup)
    (fun st nid => (ainsert st.1 nid (x, st.2),
      st.2 + ((alookup ns nid).getD (0, 0)).2 + 60))
    sorted_nodes (np, y)
    (fun st nid _ hP => nodup_akeys_ainsert _ _ _ hP) h
  exact hh

/-- Sorting a column's nodes permutes them. -/
theorem mem_sort_column_nodes (links : List PyLink)
    (np : List (Nat × Int × Int)) (nids : List Nat) (k : Nat) :
    k ∈ sort_column_nodes links np nids ↔ k ∈ nids := by
  unfold sort_column_nodes
  constructor
  · intro h
    rcases List.mem_map.mp h with ⟨p, hp, rfl⟩
    have := (mem_isortBy _ _ _).mp hp
    rcases List.mem_map.mp this with ⟨nid, hnid, heq⟩
    rw [← heq]
    exact hnid
  · intro h
    refine List.mem_map.mpr ⟨(k, vertical_sort_key
      (get_connected_port_positions links np k)), ?_, rfl⟩
    exact (mem_isortBy _ _ _).mpr (List.mem_map.mpr ⟨k, h, rfl⟩)

/-- Step 7 key coverage: stacking adds exactly the members of the
processed columns, and keeps duplicate-freeness. -/
theorem step7_keys (links : List PyLink) (ns : List (Nat × Int × Int))
    (cols : List Nat) (ctn : List (Nat × List Nat)) (cxp : List (Nat × Int))
    (y : Int) :
    ∀ (np : List (Nat × Int × Int)) (k : Nat),
    (k ∈ akeys (step7_vertical_sort links ns cols ctn cxp y np) ↔
      k ∈ akeys np ∨ ∃ c ∈ cols, ∃ ms, alookup ctn c = some ms ∧ k ∈ ms) ∧
    ((akeys np).Nodup →
      (akeys (step7_vertical_sort links ns cols ctn cxp y np)).Nodup) := by
  induction cols with
  | nil =>
    intro np k
    refine ⟨?_, fun h => h⟩
    unfold step7_vertical_sort
    simp
  | cons c cols ih =>
    intro np k
    cases hl : alookup ctn c with
    | none =>
      have hstep : step7_vertical_sort links ns (c :: cols) ctn cxp y np =
          step7_vertical_sort links ns cols ctn cxp y np := by
        unfold step7_vertical_sort
        rw [List.foldl_cons]
        congr 1
        dsimp only
        rw [hl]
      rw [hstep]
      have h := ih np k
      refine ⟨?_, h.2⟩
      rw [h.1]
      constructor
      · rintro (h1 | ⟨c', hc', ms, hms, hkm⟩)
        · exact Or.inl h1
        · exact Or.inr ⟨c', List.mem_cons_of_mem _ hc', ms, hms, hkm⟩
      · rintro (h1 | ⟨c', hc', ms, hms, hkm⟩)
        · exact Or.inl h1
        · rcases List.mem_cons.mp hc' with heq | hc'
          · subst heq
            rw [hl] at hms
            cases hms
          · exact Or.inr ⟨c', hc', ms, hms, hkm⟩
    | some nids =>
      have hstep : step7_vertical_sort links ns (c :: cols) ctn cxp y np =
          step7_vertical_sort links ns cols ctn cxp y
            (assign_column_ys ns ((alookup cxp c).getD 0) y
              (sort_column_nodes links np nids) np) := by
        unfold step7_vertical_sort
        rw [List.foldl_cons]
        congr 1
        dsimp only
        rw [hl]
      rw [hstep]
      have h := ih (assign_column_ys ns ((alookup cxp c).getD 0) y
        (sort_column_nodes links np nids) np) k
      have hnp' : ∀ a, a ∈ akeys (assign_column_ys ns ((alookup cxp c).getD 0) y
          (sort_column_nodes links np nids) np) ↔ a ∈ nids ∨ a ∈ akeys np := by
        intro a
        rw [assign_column_ys_keys, mem_sort_column_nodes]
      refine ⟨?_, ?_⟩
      · rw [h.1]
        constructor
        · rintro (h1 | ⟨c', hc', ms, hms, hkm⟩)
          · rcases (hnp' k).mp h1 with h2 | h2
            · exact Or.inr ⟨c, List.mem_cons_self _ _, nids, hl, h2⟩
            · exact Or.inl h2
          · exact Or.inr ⟨c', List.mem_cons_of_mem _ hc', ms, hms, hkm⟩
        · rintro (h1 | ⟨c', hc', ms, hms, hkm⟩)
          · exact Or.inl ((hnp' k).mpr (Or.inr h1))
          · rcases List.mem_cons.mp hc' with heq | hc'
            · subst heq
              rw [hl] at hms
              cases hms
              exact Or.inl ((hnp' k).mpr (Or.inl hkm))
            · exact Or.inr ⟨c', hc', ms, hms, hkm⟩
      · intro hnd
        exact h.2 (assign_column_ys_nodup _ _ _ _ _ hnd)

/-- Step 7b: re-stacking the first column can only mention column 0's
members, keeps all existing keys, and keeps duplicate-freeness. -/
theorem step7b_keys (links : List PyLink) (ns : List (Nat × Int × Int))
    (ctn : List (Nat × List Nat)) (cxp : List (Nat × Int)) (y : Int)
    (np : List (Nat × Int × Int)) (k : Nat) :
    (k ∈ akeys (step7b_first_column links ns ctn cxp y np) →
      k ∈ akeys np ∨ ∃ ms, alookup ctn 0 = some ms ∧ k ∈ ms) ∧
    (k ∈ akeys np → k ∈ akeys (step7b_first_column links ns ctn cxp y np)) ∧
    ((akeys np).Nodup →
      (akeys (step7b_first_column links ns ctn cxp y np)).Nodup) := by
  unfold step7b_first_column
  cases h0 : alookup ctn 0 with
  | none => exact ⟨fun h => Or.inl h, fun h => h, fun h => h⟩
  | some ms =>
    cases h1 : alookup ctn 1 with
    | none => exact ⟨fun h => Or.inl h, fun h => h, fun h => h⟩
    | some w =>
      dsimp only
      have hmemsf : ∀ a : Nat, a ∈ (isortBy (fun a b => listLexLt a.2 b.2)
          (ms.map (fun nid => (nid, vertical_sort_key
            (get_child_input_port_positions links np nid))))).map Prod.fst ↔
          a ∈ ms := by
        intro a
        constructor
        · intro h
          rcases List.mem_map.mp h with ⟨p, hp, rfl⟩
          rcases List.mem_map.mp ((mem_isortBy _ _ _).mp hp) with ⟨nid, hnid, heq⟩
          rw [← heq]
          exact hnid
        · intro h
          exact List.mem_map.mpr ⟨(a, vertical_sort_key
            (get_child_input_port_positions links np a)), (mem_isortBy _ _ _).mpr
            (List.mem_map.mpr ⟨a, h, rfl⟩), rfl⟩
      refine ⟨?_, ?_, ?_⟩
      · intro hk
        rcases (assign_column_ys_keys _ _ _ _ _ k).mp hk with h | h
        · exact Or.inr ⟨ms, rfl, (hmemsf k).mp h⟩
        · exact Or.inl h
      · intro hk
        exact (assign_column_ys_keys _ _ _ _ _ k).mpr (Or.inr hk)
      · intro hnd
        exact assign_column_ys_nodup _ _ _ _ _ hnd

/-- The initial size table copies each node's input size. -/
theorem node_sizes0_keys (node_map : List (Nat × PyNode)) (k : Nat) :
    k ∈ akeys (node_map.foldl (fun m e => ainsert m e.1 e.2.size) []) ↔
      k ∈ akeys node_map := by
  rw [mem_akeys_foldl_ainsert (fun e : Nat × PyNode => e.1)
    (fun e : Nat × PyNode => e.2.size) node_map [] k]
  simp [akeys]

theorem node_sizes0_nodup (node_map : List (Nat × PyNode)) :
    (akeys (node_map.foldl (fun m e => ainsert m e.1 e.2.size) [])).Nodup :=
  nodup_akeys_foldl_ainsert _ _ node_map [] (by simp [akeys])

theorem node_sizes0_values (node_map : List (Nat × PyNode))
    (hnd : (akeys node_map).Nodup) :
    ∀ e ∈ node_map.foldl (fun m e => ainsert m e.1 e.2.size) [],
      ∃ n, alookup node_map e.1 = some n ∧ e.2.2 = n.size.2 := by
  intro e he
  rcases mem_foldl_ainsert (fun e : Nat × PyNode => e.1)
    (fun e : Nat × PyNode => e.2.size) node_map [] e he with h | ⟨x, hx, rfl⟩
  · cases h
  · exact ⟨x.2, alookup_of_mem_nodup node_map x.1 x.2 hnd hx, rfl⟩

/-- Resizing: width becomes the column's width but the height always comes
from the node map; the key set gains exactly the processed members. -/
theorem resize_nodes_spec (node_map : List (Nat × PyNode)) (cols : List Nat)
    (ctn : List (Nat × List Nat)) (cw : List (Nat × Int)) :
    ∀ (ns : List (Nat × Int × Int)),
    (∀ e ∈ ns, ∃ n, alookup node_map e.1 = some n ∧ e.2.2 = n.size.2) →
    (∀ c ms, alookup ctn c = some ms → ∀ nid ∈ ms, nid ∈ akeys node_map) →
    (∀ e ∈ resize_nodes node_map cols ctn cw ns,
      ∃ n, alookup node_map e.1 = some n ∧ e.2.2 = n.size.2) ∧
    (∀ k, k ∈ akeys (resize_nodes node_map cols ctn cw ns) ↔
      k ∈ akeys ns ∨ ∃ c ∈ cols, ∃ ms, alookup ctn c = some ms ∧ k ∈ ms) ∧
    ((akeys ns).Nodup → (akeys (resize_nodes node_map cols ctn cw ns)).Nodup) := by
  induction cols with
  | nil =>
    intro ns hns _
    refine ⟨hns, fun k => ?_, fun h => h⟩
    unfold resize_nodes
    simp
  | cons c cols ih =>
    intro ns hns hmem
    cases hl : alookup ctn c with
    | none =>
      have hstep : resize_nodes node_map (c :: cols) ctn cw ns =
          resize_nodes node_map cols ctn cw ns := by
        unfold resize_nodes
        rw [List.foldl_cons]
        congr 1
        dsimp only
        rw [hl]
      rw [hstep]
      have h := ih ns hns hmem
      refine ⟨h.1, fun k => ?_, h.2.2⟩
      rw [h.2.1 k]
      constructor
      · rintro (h1 | ⟨c', hc', ms, hms, hkm⟩)
        · exact Or.inl h1
        · exact Or.inr ⟨c', List.mem_cons_of_mem _ hc', ms, hms, hkm⟩
      · rintro (h1 | ⟨c', hc', ms, hms, hkm⟩)
        · exact Or.inl h1
        · rcases List.mem_cons.mp hc' with heq | hc'
          · subst heq
            rw [hl] at hms
            cases hms
          · exact Or.inr ⟨c', hc', ms, hms, hkm⟩
    | some nids =>
      have hstep : resize_nodes node_map (c :: cols) ctn cw ns =
          resize_nodes node_map cols ctn cw
            (nids.foldl (fun m nid => ainsert m nid ((alookup cw c).getD 0,
              ((alookup node_map nid).getD dnode).size.2)) ns) := by
        unfold resize_nodes
        rw [List.foldl_cons]
        congr 1
        dsimp only
        rw [hl]
      rw [hstep]
      have hns' : ∀ e ∈ nids.foldl (fun m nid => ainsert m nid ((alookup cw c).getD 0,
          ((alookup node_map nid).getD dnode).size.2)) ns,
          ∃ n, alookup node_map e.1 = some n ∧ e.2.2 = n.size.2 := by
        intro e he
        rcases mem_foldl_ainsert (fun nid : Nat => nid)
          (fun nid => ((alookup cw c).getD 0,
            ((alookup node_map nid).getD dnode).size.2)) nids ns e he with
          h | ⟨nid, hnid, rfl⟩
        · exact hns e h
        · have hk := hmem c nids hl nid hnid
          rcases Option.isSome_iff_exists.mp ((alookup_isSome_iff _ _).mpr hk)
            with ⟨n, hn⟩
          exact ⟨n, hn, by simp [hn]⟩
      have hkeys' := mem_akeys_foldl_ainsert (fun nid : Nat => nid)
        (fun nid => ((alookup cw c).getD 0,
          ((alookup node_map nid).getD dnode).size.2)) nids ns
      have h := ih _ hns' hmem
      refine ⟨h.1, ?_, ?_⟩
      · intro k
        rw [h.2.1 k, hkeys' k]
        constructor
        · rintro ((h1 | ⟨nid, hnid, rfl⟩) | ⟨c', hc', ms, hms, hkm⟩)
          · exact Or.inl h1
          · exact Or.inr ⟨c, List.mem_cons_self _ _, nids, hl, hnid⟩
          · exact Or.inr ⟨c', List.mem_cons_of_mem _ hc', ms, hms, hkm⟩
        · rintro (h1 | ⟨c', hc', ms, hms, hkm⟩)
          · exact Or.inl (Or.inl h1)
          · rcases List.mem_cons.mp hc' with heq | hc'
            · subst heq
              rw [hl] at hms
              cases hms
              exact Or.inl (Or.inr ⟨k, hkm, rfl⟩)
            · exact Or.inr ⟨c', hc', ms, hms, hkm⟩
      · intro hnd
        exact h.2.2 (nodup_akeys_foldl_ainsert _ _ nids ns hnd)

/-- Steps 6b–7b: given the invariants established by the loop, the final
positions cover exactly the assigned nodes, the sizes cover exactly the
node map, and every final height comes from the node map. -/
theorem finish_layout_cover (links : List PyLink) (start_y : Int)
    (node_map : List (Nat × PyNode)) (ns0 : List (Nat × Int × Int))
    (st : ColState) (cw : List (Nat × Int)) (np : List (Nat × Int × Int))
    (hncols_keys : ∀ k, k ∈ akeys st.node_columns ↔ k ∈ akeys node_map)
    (hJ : ∀ e ∈ st.node_columns, e.2 ∈ akeys st.column_x_positions)
    (hnp_keys : ∀ k ∈ akeys np, k ∈ akeys node_map)
    (hnp_nodup : (akeys np).Nodup)
    (hns0_keys : ∀ k, k ∈ akeys ns0 ↔ k ∈ akeys node_map)
    (hns0_nodup : (akeys ns0).Nodup)
    (hns0_vals : ∀ e ∈ ns0, ∃ n, alookup node_map e.1 = some n ∧ e.2.2 = n.size.2) :
    (∀ k, k ∈ akeys (finish_layout links start_y node_map ns0 st cw np).positions ↔
      k ∈ akeys node_map) ∧
    (akeys (finish_layout links start_y node_map ns0 st cw np).positions).Nodup ∧
    ∃ s, (finish_layout links start_y node_map ns0 st cw np).sizes = some s ∧
      (∀ k, k ∈ akeys s ↔ k ∈ akeys node_map) ∧ (akeys s).Nodup ∧
      (∀ e ∈ s, ∃ n, alookup node_map e.1 = some n ∧ e.2.2 = n.size.2) := by
  set ctn := columns_to_nodes_of st.node_columns with hctn
  set pr := remove_empty_columns st.column_x_positions cw ctn with hpr
  set sorted := sortNats (akeys pr.1) with hsorted
  set cw2 := rebuild_column_widths node_map sorted ctn pr.2 with hcw2
  set ns := resize_nodes node_map sorted ctn cw2 ns0 with hns
  set sp := space_columns sorted cw2 st.node_columns pr.1 np with hsp
  set np1 := step7_vertical_sort links ns sorted ctn sp.1 start_y sp.2 with hnp1
  set np2 := step7b_first_column links ns ctn sp.1 start_y np1 with hnp2
  have hpos : (finish_layout links start_y node_map ns0 st cw np).positions = np2 := rfl
  have hsz : (finish_layout links start_y node_map ns0 st cw np).sizes = some ns := rfl
  -- members of the column table are assigned nodes
  have hF3 : ∀ c ms, alookup ctn c = some ms → ∀ nid ∈ ms, nid ∈ akeys node_map := by
    intro c ms hms nid hnid
    have := columns_to_nodes_sound st.node_columns c ms hms nid hnid
    exact (hncols_keys nid).mp (List.mem_map.mpr ⟨(nid, c), this, rfl⟩)
  -- every assigned node's column survives compaction and sorting
  have hF4 : ∀ e ∈ st.node_columns, e.2 ∈ sorted := by
    intro e he
    rcases columns_to_nodes_covers st.node_columns e he with ⟨ms, hms, _⟩
    have hcs : (alookup ctn e.2).isSome := by rw [hms]; rfl
    have hx : (alookup pr.1 e.2).isSome := by
      rw [hpr, remove_empty_lookup st.column_x_positions cw ctn e.2 hcs]
      exact (alookup_isSome_iff _ _).mpr (hJ e he)
    have hmem : e.2 ∈ akeys pr.1 := (alookup_isSome_iff _ _).mp hx
    rw [hsorted]
    exact (mem_isortBy _ _ _).mpr hmem
  -- resize spec
  have hF5 := resize_nodes_spec node_map sorted ctn cw2 ns0 hns0_vals hF3
  have hns_keys : ∀ k, k ∈ akeys ns ↔ k ∈ akeys node_map := by
    intro k
    rw [hns, hF5.2.1 k]
    constructor
    · rintro (h | ⟨c, _, ms, hms, hk⟩)
      · exact (hns0_keys k).mp h
      · exact hF3 c ms hms k hk
    · intro h
      exact Or.inl ((hns0_keys k).mpr h)
  have hns_nodup : (akeys ns).Nodup := hF5.2.2 hns0_nodup
  -- spacing keeps the key set
  have hF6 := space_columns_np_keys sorted cw2 st.node_columns pr.1 np
  -- step 7
  have hF7 := step7_keys links ns sorted ctn sp.1 start_y sp.2
  have hnp1_cover : ∀ k ∈ akeys node_map, k ∈ akeys np1 := by
    intro k hk
    rcases List.mem_map.mp ((hncols_keys k).mpr hk) with ⟨e, he, rfl⟩
    rcases columns_to_nodes_covers st.node_columns e he with ⟨ms, hms, hm⟩
    rw [hnp1, (hF7 e.1).1]
    exact Or.inr ⟨e.2, hF4 e he, ms, hms, hm⟩
  have hnp1_sound : ∀ k ∈ akeys np1, k ∈ akeys node_map := by
    intro k hk
    rw [hnp1, (hF7 k).1] at hk
    rcases hk with h | ⟨c, _, ms, hms, hk⟩
    · exact hnp_keys k ((hF6 k).1.mp h)
    · exact hF3 c ms hms k hk
  have hnp1_nodup : (akeys np1).Nodup :=
    (hF7 0).2 ((hF6 0).2 hnp_nodup)
  -- step 7b
  have hF8 := fun k => step7b_keys links ns ctn sp.1 start_y np1 k
  refine ⟨?_, ?_, ns, hsz, hns_keys, hns_nodup, by rw [hns]; exact hF5.1⟩
  · intro k
    rw [hpos]
    constructor
    · intro h
      rcases (hF8 k).1 (by rw [← hnp2]; exact h) with h | ⟨ms, hms, hk⟩
      · exact hnp1_sound k h
      · exact hF3 0 ms hms k hk
    · intro h
      rw [hnp2]
      exact (hF8 k).2.1 (hnp1_cover k h)
  · rw [hpos, hnp2]
    exact (hF8 0).2.2 hnp1_nodup

/-- The whole per-component pipeline: the returned positions and sizes
both cover exactly the node map's keys, without duplicates, and every
returned height is the node's input height. -/
theorem organize_with_chains_cover (nodes : List PyNode) (links : List PyLink)
    (start_y : Int) (node_map : List (Nat × PyNode))
    (children parents : List (Nat × List Nat)) (chains : List (List Nat))
    (hnd : (akeys node_map).Nodup)
    (hch : ∀ ch ∈ chains, ∀ x ∈ ch, x ∈ akeys node_map) :
    (∀ k, k ∈ akeys (organize_with_chains nodes links start_y node_map
      children parents chains).positions ↔ k ∈ akeys node_map) ∧
    (akeys (organize_with_chains nodes links start_y node_map
      children parents chains).positions).Nodup ∧
    ∃ s, (organize_with_chains nodes links start_y node_map
        children parents chains).sizes = some s ∧
      (∀ k, k ∈ akeys s ↔ k ∈ akeys node_map) ∧ (akeys s).Nodup ∧
      (∀ e ∈ s, ∃ n, alookup node_map e.1 = some n ∧ e.2.2 = n.size.2) := by
  set longest := chains.filter
    (fun c => c.length = maxNats (chains.map List.length)) with hlongest
  set aw := chain_column_assignment longest node_map with haw
  set cxp0 := initial_column_x aw.2 with hcxp0
  set np0 := assign_chain_positions longest cxp0 start_y with hnp0
  set rem := assign_remaining_columns node_map children parents np0 cxp0 aw.2 with hrem
  set ns0 := node_map.foldl (fun m e => ainsert m e.1 e.2.size) [] with hns0
  set ctx : LoopCtx := ⟨links, node_map, ns0⟩ with hctx
  set st0 : ColState := ⟨rem.1, rem.2.1⟩ with hst0
  set fl := fix_loop ctx st0 with hfl
  have heq : organize_with_chains nodes links start_y node_map children parents chains =
      finish_layout links start_y node_map ns0 fl.1 fl.2.2 np0 := rfl
  -- chain columns exist in the phase-B X map
  have hcols : ∀ ch ∈ longest, ∀ p ∈ ch.enum, p.1 ∈ akeys cxp0 := by
    intro ch hc p hp
    rw [hcxp0, initial_column_x_keys]
    rw [hlongest] at hc
    exact chain_cols_in_widths longest node_map ch (by rw [hlongest]; exact hc) p hp
  have hACP := assign_chain_positions_spec longest cxp0 start_y hcols
  have hseed : ∀ e ∈ np0, (alookup (pos_to_column_map cxp0) e.2.1).isSome := by
    intro e he
    rcases hACP.1 e (by rw [hnp0] at he; exact he) with ⟨ce, hce, hx⟩
    exact (alookup_isSome_iff _ _).mpr ((pos_to_column_keys cxp0 e.2.1).mpr ⟨ce, hce, hx⟩)
  have hREM := assign_remaining_spec node_map children parents np0 cxp0 aw.2 hseed
  have hnp0_sub : ∀ k ∈ akeys np0, k ∈ akeys node_map := by
    intro k hk
    rcases hACP.2.1 k (by rw [hnp0] at hk; exact hk) with ⟨ch, hchl, hkc⟩
    rw [hlongest] at hchl
    exact hch ch (List.mem_of_mem_filter hchl) k hkc
  have hncols0_keys : ∀ k, k ∈ akeys st0.node_columns ↔ k ∈ akeys node_map := by
    intro k
    rw [hst0]
    constructor
    · intro h
      rcases (hREM.1 k).mp (by rw [hrem] at h; exact h) with h | h
      · exact hnp0_sub k h
      · exact h
    · intro h
      rw [hrem]
      exact (hREM.1 k).mpr (Or.inr h)
  have hJ0 : ∀ e ∈ st0.node_columns, e.2 ∈ akeys st0.column_x_positions := by
    intro e he
    rw [hst0]
    rw [hst0] at he
    rw [hrem] at he ⊢
    exact hREM.2 e he
  have hFL := fix_loop_go_keys ctx max_iterations 0 st0 [] hJ0
  have hflncols : ∀ k, k ∈ akeys fl.1.node_columns ↔ k ∈ akeys node_map := by
    intro k
    rw [hfl]
    exact (hFL.1 k).trans (hncols0_keys k)
  have hflJ : ∀ e ∈ fl.1.node_columns, e.2 ∈ akeys fl.1.column_x_positions := by
    rw [hfl]
    exact hFL.2
  rw [heq]
  exact finish_layout_cover links start_y node_map ns0 fl.1 fl.2.2 np0
    hflncols hflJ hnp0_sub (by rw [hnp0]; exact hACP.2.2)
    (by rw [hns0]; exact fun k => node_sizes0_keys node_map k)
    (by rw [hns0]; exact node_sizes0_nodup node_map)
    (by rw [hns0]; exact node_sizes0_values node_map hnd)

/-- `organize_single_component`: either a degenerate early return with no
positions, or full coverage of the component's node ids. -/
theorem organize_single_component_spec (nodes : List PyNode) (links : List PyLink)
    (start_y : Int) (r : OrganizeResult)
    (h : organize_single_component nodes links start_y = some r) :
    (r.positions = [] ∧ (r.sizes = none ∨ r.sizes = some [])) ∨
    ((∀ k, k ∈ akeys r.positions ↔ ∃ n ∈ nodes, n.id = k) ∧
     (akeys r.positions).Nodup ∧
     ∃ s, r.sizes = some s ∧ (∀ k, k ∈ akeys s ↔ ∃ n ∈ nodes, n.id = k) ∧
       (akeys s).Nodup ∧
       (∀ e ∈ s, ∃ n ∈ nodes, n.id = e.1 ∧ e.2.2 = n.size.2)) := by
  unfold organize_single_component at h
  split at h
  · cases h
    exact Or.inl ⟨rfl, Or.inr rfl⟩
  · dsimp only at h
    split at h
    · cases h
    · rename_i chains hchains
      split at h
      · cases h
        exact Or.inl ⟨rfl, Or.inl rfl⟩
      · cases h
        refine Or.inr ?_
        have hbcp := build_children_parents_spec nodes links
        have hch : ∀ ch ∈ chains, ∀ x ∈ ch,
            x ∈ akeys (build_node_graph nodes links).1 := by
          intro ch hc x hx
          have hx1 := find_all_chains_mem (build_node_graph nodes links).2.2
            (build_node_graph nodes links).2.1 (chains_fuel nodes)
            (fun k hk => (hbcp.1 k).mpr ((hbcp.2.1 k).mp hk))
            (fun k cs hcs c hcmem =>
              (hbcp.1 c).mpr ((hbcp.2.1 c).mp (hbcp.2.2 k cs hcs c hcmem)))
            chains hchains ch hc x hx
          exact (build_node_map_keys nodes links x).mpr ((hbcp.1 x).mp hx1)
        have hcov := organize_with_chains_cover nodes links start_y
          (build_node_graph nodes links).1 (build_node_graph nodes links).2.1
          (build_node_graph nodes links).2.2 chains
          (build_node_map_nodup nodes links) hch
        refine ⟨fun k => (hcov.1 k).trans (build_node_map_keys nodes links k),
          hcov.2.1, ?_⟩
        rcases hcov.2.2 with ⟨s, hs, hsk, hsnd, hsv⟩
        refine ⟨s, hs, fun k => (hsk k).trans (build_node_map_keys nodes links k),
          hsnd, ?_⟩
        intro e he
        rcases hsv e he with ⟨n, hn, hh⟩
        rcases build_node_map_entry nodes links e.1 n hn with ⟨hmem, hid⟩
        exact ⟨n, hmem, hid, hh⟩

theorem mem_akeys_iff {κ2 β2 : Type} (l : List (κ2 × β2)) (k : κ2) :
    k ∈ akeys l ↔ ∃ e ∈ l, e.1 = k := by
  simp [akeys]

/-- Every kept component result has matching position/size key sets,
duplicate-free, with heights taken from the input nodes. -/
theorem component_results_spec (nodes : List PyNode) (links : List PyLink)
    (components : List (List Nat)) (rs : List ComponentResult)
    (h : component_results_of nodes links components = some rs) :
    ∀ comp ∈ rs,
      (∀ k, k ∈ akeys comp.positions ↔ k ∈ akeys comp.sizes) ∧
      (akeys comp.positions).Nodup ∧ (akeys comp.sizes).Nodup ∧
      (∀ e ∈ comp.sizes, ∃ n ∈ nodes, n.id = e.1 ∧ e.2.2 = n.size.2) := by
  unfold component_results_of at h
  refine (foldl_preserve
    (P := fun (acc : Option (List ComponentResult)) =>
      ∀ rs0, acc = some rs0 → ∀ comp ∈ rs0,
        (∀ k, k ∈ akeys comp.positions ↔ k ∈ akeys comp.sizes) ∧
        (akeys comp.positions).Nodup ∧ (akeys comp.sizes).Nodup ∧
        (∀ e ∈ comp.sizes, ∃ n ∈ nodes, n.id = e.1 ∧ e.2.2 = n.size.2))
    _ components (some []) ?_ ?_) rs h
  · intro acc cids _ hP rs0 heq
    simp only [component_results_step, Option.bind_eq_bind, Option.bind_eq_some] at heq
    obtain ⟨results, hacc, result, hosc, heq⟩ := heq
    split at heq
    · rename_i hguard
      split at heq
      · cases heq
      · rename_i sizes hsz
        simp only [Option.bind_eq_bind, Option.bind_eq_some] at heq
        obtain ⟨my, _, heq⟩ := heq
        cases heq
        intro comp hcm
        rcases List.mem_append.mp hcm with hcm | hcm
        · exact hP results hacc comp hcm
        · rcases List.mem_singleton.mp hcm with rfl
          rcases organize_single_component_spec _ _ _ result hosc with
            ⟨hpos, _⟩ | ⟨hpk, hpnd, s', hs', hsk, hsnd, hsv⟩
          · rw [Bool.and_eq_true] at hguard
            rw [hpos] at hguard
            simp at hguard
          · rw [hs'] at hsz
            cases hsz
            refine ⟨fun k => (hpk k).trans (hsk k).symm, hpnd, hsnd, ?_⟩
            intro e he
            rcases hsv e he with ⟨n, hn, hid, hh⟩
            exact ⟨n, List.mem_of_mem_filter hn, hid, hh⟩
    · cases heq
      exact hP _ hacc
  · intro rs0 heq
    cases heq
    intro comp hcm
    cases hcm

/-- Stacking preserves the position/size key agreement, duplicate-freeness
and the height origin of every size entry. -/
theorem stack_components_spec (nodesG : List PyNode)
    (results : List ComponentResult)
    (hres : ∀ comp ∈ results,
      (∀ k, k ∈ akeys comp.positions ↔ k ∈ akeys comp.sizes) ∧
      (∀ e ∈ comp.sizes, ∃ n ∈ nodesG, n.id = e.1 ∧ e.2.2 = n.size.2)) :
    (∀ k, k ∈ akeys (stack_components results).1 ↔
      k ∈ akeys (stack_components results).2) ∧
    (akeys (stack_components results).1).Nodup ∧
    (akeys (stack_components results).2).Nodup ∧
    (∀ e ∈ (stack_components results).2,
      ∃ n ∈ nodesG, n.id = e.1 ∧ e.2.2 = n.size.2) := by
  unfold stack_components
  dsimp only
  refine foldl_preserve
    (P := fun (st : List (Nat × Int × Int) × List (Nat × Int × Int) × Int) =>
      (∀ k, k ∈ akeys st.1 ↔ k ∈ akeys st.2.1) ∧
      (akeys st.1).Nodup ∧ (akeys st.2.1).Nodup ∧
      (∀ e ∈ st.2.1, ∃ n ∈ nodesG, n.id = e.1 ∧ e.2.2 = n.size.2))
    _ results ([], [], (0 : Int)) ?_
    ⟨fun k => Iff.rfl, by simp [akeys], by simp [akeys],
     by rintro e he; cases he⟩
  intro st comp hin hP
  obtain ⟨ap, as', cy⟩ := st
  dsimp only at hP ⊢
  have hkp := mem_akeys_foldl_ainsert (fun e : Nat × Int × Int => e.1)
    (fun e : Nat × Int × Int =>
      (e.2.1, e.2.2 - comp_min_y comp.positions + cy)) comp.positions ap
  have hks := mem_akeys_foldl_ainsert (fun e : Nat × Int × Int => e.1)
    (fun e : Nat × Int × Int => e.2) comp.sizes as'
  refine ⟨?_, ?_, ?_, ?_⟩
  · intro k
    rw [hkp k, hks k]
    have hck := (hres comp hin).1 k
    rw [mem_akeys_iff, mem_akeys_iff] at hck
    constructor
    · rintro (h | h)
      · exact Or.inl ((hP.1 k).mp h)
      · exact Or.inr (hck.mp h)
    · rintro (h | h)
      · exact Or.inl ((hP.1 k).mpr h)
      · exact Or.inr (hck.mpr h)
  · exact nodup_akeys_foldl_ainsert _ _ comp.positions ap hP.2.1
  · exact nodup_akeys_foldl_ainsert _ _ comp.sizes as' hP.2.2.1
  · intro e he
    rcases mem_foldl_ainsert (fun e : Nat × Int × Int => e.1)
      (fun e : Nat × Int × Int => e.2) comp.sizes as' e he with h | ⟨x, hx, rfl⟩
    · exact hP.2.2.2 e h
    · exact (hres comp hin).2 x hx

theorem nodup_addUnique {α2 : Type} [DecidableEq α2] (l : List α2) (x : α2)
    (h : l.Nodup) : (addUnique l x).Nodup := by
  unfold addUnique
  split
  · exact h
  · rename_i hx
    rw [List.nodup_append]
    refine ⟨h, List.nodup_singleton x, ?_⟩
    intro a hal hax
    rcases List.mem_singleton.mp hax with rfl
    exact hx hal

/-- The node-id "set" built by folding `addUnique` over the nodes. -/
theorem mem_foldl_addUnique_id :
    ∀ (nodes : List PyNode) (start : List Nat) (k : Nat),
      k ∈ nodes.foldl (fun s n => addUnique s n.id) start ↔
        k ∈ start ∨ ∃ n ∈ nodes, n.id = k := by
  intro nodes
  induction nodes with
  | nil =>
    intro start k
    simp
  | cons n nodes ih =>
    intro start k
    rw [List.foldl_cons, ih, mem_addUnique]
    constructor
    · rintro ((rfl | h) | ⟨n', hn', rfl⟩)
      · exact Or.inr ⟨n, List.mem_cons_self _ _, rfl⟩
      · exact Or.inl h
      · exact Or.inr ⟨n', List.mem_cons_of_mem _ hn', rfl⟩
    · rintro (h | ⟨n', hn', rfl⟩)
      · exact Or.inl (Or.inr h)
      · rcases List.mem_cons.mp hn' with rfl | hn'
        · exact Or.inl (Or.inl rfl)
        · exact Or.inr ⟨n', hn', rfl⟩

theorem nodup_foldl_addUnique_id (nodes : List PyNode) (start : List Nat)
    (h : start.Nodup) :
    (nodes.foldl (fun s n => addUnique s n.id) start).Nodup :=
  foldl_preserve (P := fun (s : List Nat) => s.Nodup) _ nodes start
    (fun s n _ hP => nodup_addUnique s n.id hP) h

/-- One expansion round keeps everything already reached. -/
theorem mem_expandOnce_of_mem (adjacency : List (Nat × List Nat))
    (cur : List Nat) (x : Nat) (h : x ∈ cur) :
    x ∈ expandOnce adjacency cur := by
  unfold expandOnce
  exact foldl_preserve (P := fun (acc : List Nat) => x ∈ acc) _ cur cur
    (fun acc n _ hP => (mem_addAllUnique _ _ _).mpr (Or.inl hP)) h

/-- The start node belongs to its own reachable set. -/
theorem start_mem_reachSet (adjacency : List (Nat × List Nat)) :
    ∀ (bound start : Nat), start ∈ reachSet adjacency bound start := by
  intro bound
  induction bound with
  | zero =>
    intro s
    exact List.mem_singleton.mpr rfl
  | succ n ih =>
    intro s
    exact mem_expandOnce_of_mem _ _ _ (ih s)

/-- Every input node id lands in some discovered component. -/
theorem find_components_cover (nodes : List PyNode) (links : List PyLink) :
    ∀ i, (∃ n ∈ nodes, n.id = i) →
      ∃ comp ∈ find_disconnected_components nodes links, i ∈ comp := by
  intro i hi
  unfold find_disconnected_components
  dsimp only
  refine foldl_preserve
    (P := fun (st : List Nat × List (List Nat)) =>
      ∀ x ∈ st.1, ∃ comp ∈ st.2, x ∈ comp)
    _ _ ([], []) ?_ (by rintro x hx; cases hx) i ?_
  · intro st nid _ hP
    obtain ⟨vis, comps⟩ := st
    dsimp only
    split
    · exact hP
    · intro x hx
      dsimp only at hx
      rcases (mem_addAllUnique _ _ _).mp hx with h | h
      · rcases hP x h with ⟨comp, hc, hxc⟩
        exact ⟨comp, List.mem_append.mpr (Or.inl hc), hxc⟩
      · exact ⟨_, List.mem_append.mpr (Or.inr (List.mem_singleton.mpr rfl)), h⟩
  · refine foldl_establish _
      (fun (st : List Nat × List (List Nat)) (nid : Nat) => nid ∈ st.1)
      ?_ ?_ _ ([], []) i
      ((mem_foldl_addUnique_id nodes [] i).mpr (Or.inr hi))
    · intro st a' a hP
      obtain ⟨vis, comps⟩ := st
      dsimp only
      split
      · exact hP
      · exact (mem_addAllUnique _ _ _).mpr (Or.inl hP)
    · intro st a
      obtain ⟨vis, comps⟩ := st
      dsimp only
      split
      · rename_i h
        exact h
      · exact (mem_addAllUnique _ _ _).mpr
          (Or.inr (start_mem_reachSet _ _ _))

/-- A failed accumulator never recovers. -/
theorem comp_fold_none (nodes : List PyNode) (links : List PyLink) :
    ∀ components : List (List Nat),
      components.foldl (component_results_step nodes links) none = none := by
  intro components
  induction components with
  | nil => rfl
  | cons c cs ih =>
    rw [List.foldl_cons,
      show component_results_step nodes links none c = none from rfl]
    exact ih

/-- The per-component fold only appends results. -/
theorem comp_fold_mono (nodes : List PyNode) (links : List PyLink) :
    ∀ (components : List (List Nat)) (rs0 rs : List ComponentResult),
      components.foldl (component_results_step nodes links) (some rs0) = some rs →
      ∀ x ∈ rs0, x ∈ rs := by
  intro components
  induction components with
  | nil =>
    intro rs0 rs h
    cases h
    exact fun x hx => hx
  | cons c cs ih =>
    intro rs0 rs h x hx
    rw [List.foldl_cons] at h
    cases hstep : component_results_step nodes links (some rs0) c with
    | none =>
      rw [hstep, comp_fold_none nodes links cs] at h
      cases h
    | some rs1 =>
      rw [hstep] at h
      refine ih rs1 rs h x ?_
      have hb : component_results_step nodes links (some rs0) c =
          Option.bind (organize_single_component
              (nodes.filter (fun n => n.id ∈ c))
              (links.filter (fun l => l.origin_id ∈ c && l.target_id ∈ c)) 0)
            (fun result =>
              if result.status = "success" && !result.positions.isEmpty then
                match result.sizes with
                | none => none
                | some sizes =>
                  Option.bind (comp_max_y (nodes.filter (fun n => n.id ∈ c))
                      result.positions)
                    (fun max_y => some (rs0 ++ [⟨result.positions, sizes,
                      max_y - comp_min_y result.positions⟩]))
              else some rs0) := rfl
      rw [hb] at hstep
      cases hosc : organize_single_component
          (nodes.filter (fun n => n.id ∈ c))
          (links.filter (fun l => l.origin_id ∈ c && l.target_id ∈ c)) 0 with
      | none =>
        rw [hosc] at hstep
        cases hstep
      | some result =>
        rw [hosc, Option.some_bind'] at hstep
        split at hstep
        · split at hstep
          · cases hstep
          · cases hmy : comp_max_y (nodes.filter (fun n => n.id ∈ c))
                result.positions with
            | none =>
              rw [hmy, Option.none_bind'] at hstep
              cases hstep
            | some my =>
              rw [hmy, Option.some_bind'] at hstep
              cases hstep
              exact List.mem_append.mpr (Or.inl hx)
        · cases hstep
          exact hx

/-- A component whose layout passes the success/nonempty guard contributes
its positions to the kept results. -/
theorem component_results_keep (nodes : List PyNode) (links : List PyLink) :
    ∀ (components : List (List Nat)) (acc : Option (List ComponentResult))
      (rs : List ComponentResult),
      components.foldl (component_results_step nodes links) acc = some rs →
      ∀ cids ∈ components, ∀ result,
        organize_single_component (nodes.filter (fun n => n.id ∈ cids))
          (links.filter (fun l => l.origin_id ∈ cids && l.target_id ∈ cids)) 0
          = some result →
        (result.status = "success" && !result.positions.isEmpty) = true →
        ∃ comp ∈ rs, comp.positions = result.positions := by
  intro components
  induction components with
  | nil =>
    intro acc rs _ cids hc
    cases hc
  | cons c cs ih =>
    intro acc rs h cids hc result hosc hguard
    rw [List.foldl_cons] at h
    rcases List.mem_cons.mp hc with rfl | hc
    · cases acc with
      | none =>
        rw [show component_results_step nodes links none cids = none from rfl,
          comp_fold_none] at h
        cases h
      | some rs0 =>
        have hb : component_results_step nodes links (some rs0) cids =
            Option.bind (organize_single_component
                (nodes.filter (fun n => n.id ∈ cids))
                (links.filter (fun l => l.origin_id ∈ cids && l.target_id ∈ cids)) 0)
              (fun result =>
                if result.status = "success" && !result.positions.isEmpty then
                  match result.sizes with
                  | none => none
                  | some sizes =>
                    Option.bind (comp_max_y (nodes.filter (fun n => n.id ∈ cids))
                        result.positions)
                      (fun max_y => some (rs0 ++ [⟨result.positions, sizes,
                        max_y - comp_min_y result.positions⟩]))
                else some rs0) := rfl
        rw [hb, hosc, Option.some_bind', if_pos hguard] at h
        cases hsz : result.sizes with
        | none =>
          rw [hsz, comp_fold_none] at h
          cases h
        | some sizes =>
          rw [hsz] at h
          dsimp only at h
          cases hmy : comp_max_y (nodes.filter (fun n => n.id ∈ cids))
              result.positions with
          | none =>
            rw [hmy, Option.none_bind', comp_fold_none] at h
            cases h
          | some my =>
            rw [hmy, Option.some_bind'] at h
            refine ⟨⟨result.positions, sizes, my - comp_min_y result.positions⟩,
              ?_, rfl⟩
            exact comp_fold_mono nodes links cs _ rs h _
              (List.mem_append.mpr (Or.inr (List.mem_singleton.mpr rfl)))
    · exact ih _ rs h cids hc result hosc hguard

/-- A component with chains takes the full-layout path. -/
theorem has_chains_osc (nodes : List PyNode) (links : List PyLink)
    (start_y : Int) (h : has_chains nodes links = true) :
    ∃ chains, chains.isEmpty = false ∧
      find_all_chains (build_node_graph nodes links).2.2
        (build_node_graph nodes links).2.1 (chains_fuel nodes) = some chains ∧
      organize_single_component nodes links start_y =
        some (organize_with_chains nodes links start_y
          (build_node_graph nodes links).1
          (build_node_graph nodes links).2.1
          (build_node_graph nodes links).2.2 chains) := by
  unfold has_chains at h
  split at h
  · rename_i c cs heq
    unfold chains_of at heq
    split at heq
    · cases heq
    · rename_i hne
      dsimp only at heq
      refine ⟨c :: cs, rfl, heq, ?_⟩
      unfold organize_single_component
      rw [if_neg hne]
      dsimp only
      rw [heq]
      dsimp only
      rw [if_neg (by simp : ¬((c :: cs).isEmpty = true))]
  · cases h

/-- The full-layout path covers exactly the component's node ids. -/
theorem organize_with_chains_ids (nodes : List PyNode) (links : List PyLink)
    (start_y : Int) (chains : List (List Nat))
    (hfc : find_all_chains (build_node_graph nodes links).2.2
      (build_node_graph nodes links).2.1 (chains_fuel nodes) = some chains) :
    (∀ k, k ∈ akeys (organize_with_chains nodes links start_y
      (build_node_graph nodes links).1 (build_node_graph nodes links).2.1
      (build_node_graph nodes links).2.2 chains).positions ↔
      ∃ n ∈ nodes, n.id = k) ∧
    (akeys (organize_with_chains nodes links start_y
      (build_node_graph nodes links).1 (build_node_graph nodes links).2.1
      (build_node_graph nodes links).2.2 chains).positions).Nodup := by
  have hbcp := build_children_parents_spec nodes links
  have hch : ∀ ch ∈ chains, ∀ x ∈ ch,
      x ∈ akeys (build_node_graph nodes links).1 := by
    intro ch hc x hx
    have hx1 := find_all_chains_mem (build_node_graph nodes links).2.2
      (build_node_graph nodes links).2.1 (chains_fuel nodes)
      (fun k hk => (hbcp.1 k).mpr ((hbcp.2.1 k).mp hk))
      (fun k cs hcs c hcmem =>
        (hbcp.1 c).mpr ((hbcp.2.1 c).mp (hbcp.2.2 k cs hcs c hcmem)))
      chains hfc ch hc x hx
    exact (build_node_map_keys nodes links x).mpr ((hbcp.1 x).mp hx1)
  have hcov := organize_with_chains_cover nodes links start_y
    (build_node_graph nodes links).1 (build_node_graph nodes links).2.1
    (build_node_graph nodes links).2.2 chains
    (build_node_map_nodup nodes links) hch
  exact ⟨fun k => (hcov.1 k).trans (build_node_map_keys nodes links k), hcov.2.1⟩

/-- Keys of the merged stacked positions are the union of the components'
position keys. -/
theorem stack_components_keys (results : List ComponentResult) (k : Nat) :
    k ∈ akeys (stack_components results).1 ↔
      ∃ comp ∈ results, k ∈ akeys comp.positions := by
  unfold stack_components
  dsimp only
  have h : ∀ (rs : List ComponentResult)
      (st : List (Nat × Int × Int) × List (Nat × Int × Int) × Int),
      k ∈ akeys (rs.foldl
        (fun (st : List (Nat × Int × Int) × List (Nat × Int × Int) × Int) comp =>
          let (all_positions, all_sizes, current_y_offset) := st
          let min_y := comp_min_y comp.positions
          let all_positions := comp.positions.foldl
            (fun ap e => ainsert ap e.1 (e.2.1, e.2.2 - min_y + current_y_offset))
            all_positions
          let all_sizes := comp.sizes.foldl (fun m e => ainsert m e.1 e.2) all_sizes
          (all_positions, all_sizes, current_y_offset + comp.height + 200)) st).1 ↔
        k ∈ akeys st.1 ∨ ∃ comp ∈ rs, k ∈ akeys comp.positions := by
    intro rs
    induction rs with
    | nil =>
      intro st
      simp
    | cons comp rs ih =>
      intro st
      obtain ⟨ap, as', cy⟩ := st
      rw [List.foldl_cons, ih]
      have hstep := mem_akeys_foldl_ainsert (fun e : Nat × Int × Int => e.1)
        (fun e : Nat × Int × Int =>
          (e.2.1, e.2.2 - comp_min_y comp.positions + cy)) comp.positions ap k
      dsimp only
      rw [hstep]
      constructor
      · rintro ((h1 | h1) | ⟨comp', hcm, hk⟩)
        · exact Or.inl h1
        · exact Or.inr ⟨comp, List.mem_cons_self _ _, (mem_akeys_iff _ _).mpr h1⟩
        · exact Or.inr ⟨comp', List.mem_cons_of_mem _ hcm, hk⟩
      · rintro (h1 | ⟨comp', hcm, hk⟩)
        · exact Or.inl (Or.inl h1)
        · rcases List.mem_cons.mp hcm with rfl | hcm
          · exact Or.inl (Or.inr ((mem_akeys_iff _ _).mp hk))
          · exact Or.inr ⟨comp', hcm, hk⟩
  rw [h results ([], [], 0)]
  simp [akeys]

theorem foldl_min_le :
    ∀ (ys : List Int) (acc : Int),
      ys.foldl min acc ≤ acc ∧ ∀ x ∈ ys, ys.foldl min acc ≤ x := by
  intro ys
  induction ys with
  | nil =>
    intro acc
    exact ⟨le_refl _, by rintro x hx; cases hx⟩
  | cons y ys ih =>
    intro acc
    rw [List.foldl_cons]
    have h := ih (min acc y)
    refine ⟨h.1.trans (min_le_left _ _), ?_⟩
    intro x hx
    rcases List.mem_cons.mp hx with rfl | hx
    · exact h.1.trans (min_le_right _ _)
    · exact h.2 x hx

theorem minInts_le (l : List Int) (x : Int) (h : x ∈ l) : minInts l ≤ x := by
  cases l with
  | nil => cases h
  | cons y ys =>
    rcases List.mem_cons.mp h with rfl | h
    · exact (foldl_min_le ys x).1
    · exact (foldl_min_le ys y).2 x h

/-- A failed `max` accumulator never recovers. -/
theorem comp_max_fold_none (component_nodes : List PyNode) :
    ∀ rest : List (Nat × Int × Int),
      rest.foldl (fun acc e => do
        let m ← acc
        let n1 ← component_nodes.find? (fun n => n.id = e.1)
        pure (max m (e.2.2 + n1.size.2))) none = none := by
  intro rest
  induction rest with
  | nil => rfl
  | cons e rest ih =>
    rw [List.foldl_cons]
    exact ih

/-- The bounding-box `max` fold dominates its seed and every entry. -/
theorem comp_max_fold_spec (component_nodes : List PyNode) :
    ∀ (rest : List (Nat × Int × Int)) (acc : Option Int) (my : Int),
      rest.foldl (fun acc e => do
        let m ← acc
        let n1 ← component_nodes.find? (fun n => n.id = e.1)
        pure (max m (e.2.2 + n1.size.2))) acc = some my →
      (∀ m, acc = some m → m ≤ my) ∧
      (∀ e ∈ rest, ∃ n1, component_nodes.find? (fun n => n.id = e.1) = some n1 ∧
        e.2.2 + n1.size.2 ≤ my) := by
  intro rest
  induction rest with
  | nil =>
    intro acc my h
    refine ⟨?_, by rintro e he; cases he⟩
    intro m hm
    rw [hm] at h
    cases h
    exact le_refl _
  | cons e rest ih =>
    intro acc my h
    rw [List.foldl_cons] at h
    cases hacc : acc with
    | none =>
      rw [hacc] at h
      rw [show ((do
        let m ← (none : Option Int)
        let n1 ← component_nodes.find? (fun n => n.id = e.1)
        pure (max m (e.2.2 + n1.size.2))) : Option Int) = none from rfl,
        comp_max_fold_none] at h
      cases h
    | some m0 =>
      rw [hacc] at h
      cases hf : component_nodes.find? (fun n => n.id = e.1) with
      | none =>
        rw [show ((do
          let m ← some m0
          let n1 ← component_nodes.find? (fun n => n.id = e.1)
          pure (max m (e.2.2 + n1.size.2))) : Option Int) =
          Option.bind (component_nodes.find? (fun n => n.id = e.1))
            (fun n1 => some (max m0 (e.2.2 + n1.size.2))) from rfl,
          hf, Option.none_bind', comp_max_fold_none] at h
        cases h
      | some n1 =>
        rw [show ((do
          let m ← some m0
          let n1 ← component_nodes.find? (fun n => n.id = e.1)
          pure (max m (e.2.2 + n1.size.2))) : Option Int) =
          Option.bind (component_nodes.find? (fun n => n.id = e.1))
            (fun n1 => some (max m0 (e.2.2 + n1.size.2))) from rfl,
          hf, Option.some_bind'] at h
        have hs := ih (some (max m0 (e.2.2 + n1.size.2))) my h
        have hmax : max m0 (e.2.2 + n1.size.2) ≤ my := hs.1 _ rfl
        refine ⟨?_, ?_⟩
        · intro m hm
          cases hm
          exact (le_max_left _ _).trans hmax
        · intro e' he'
          rcases List.mem_cons.mp he' with rfl | he'
          · exact ⟨n1, hf, (le_max_right _ _).trans hmax⟩
          · exact hs.2 e' he'

/-- Every positioned Y is below the computed bounding-box top. -/
theorem comp_max_y_ge (component_nodes : List PyNode)
    (positions : List (Nat × Int × Int)) (my : Int)
    (h : comp_max_y component_nodes positions = some my)
    (hh : ∀ n ∈ component_nodes, 0 ≤ n.size.2) :
    ∀ e ∈ positions, e.2.2 ≤ my := by
  cases positions with
  | nil =>
    intro e he
    cases he
  | cons e0 rest =>
    intro e he
    unfold comp_max_y at h
    simp only [Option.bind_eq_bind, Option.bind_eq_some] at h
    obtain ⟨n0, hf0, hfold⟩ := h
    have hspec := comp_max_fold_spec component_nodes rest _ my hfold
    rcases List.mem_cons.mp he with rfl | he
    · have h0 : e.2.2 + n0.size.2 ≤ my := hspec.1 _ rfl
      have hn0 : 0 ≤ n0.size.2 := hh n0 (List.mem_of_find?_eq_some hf0)
      omega
    · rcases hspec.2 e he with ⟨n1, hf1, hle⟩
      have hn1 : 0 ≤ n1.size.2 := hh n1 (List.mem_of_find?_eq_some hf1)
      omega

/-- Every kept component's positions lie within its bounding band, and
its height is nonnegative. -/
theorem component_results_bands (nodes : List PyNode) (links : List PyLink)
    (components : List (List Nat)) (rs : List ComponentResult)
    (h : component_results_of nodes links components = some rs)
    (hh : ∀ n ∈ nodes, 0 ≤ n.size.2) :
    ∀ comp ∈ rs,
      (∀ p ∈ comp.positions,
        comp_min_y comp.positions ≤ p.2.2 ∧
        p.2.2 ≤ comp_min_y comp.positions + comp.height) ∧
      0 ≤ comp.height := by
  unfold component_results_of at h
  refine (foldl_preserve
    (P := fun (acc : Option (List ComponentResult)) =>
      ∀ rs0, acc = some rs0 → ∀ comp ∈ rs0,
        (∀ p ∈ comp.positions,
          comp_min_y comp.positions ≤ p.2.2 ∧
          p.2.2 ≤ comp_min_y comp.positions + comp.height) ∧
        0 ≤ comp.height)
    _ components (some []) ?_ ?_) rs h
  · intro acc cids _ hP rs0 heq
    simp only [component_results_step, Option.bind_eq_bind, Option.bind_eq_some] at heq
    obtain ⟨results, hacc, result, _, heq⟩ := heq
    split at heq
    · rename_i hguard
      split at heq
      · cases heq
      · rename_i sizes _
        simp only [Option.bind_eq_bind, Option.bind_eq_some] at heq
        obtain ⟨my, hmy, heq⟩ := heq
        cases heq
        intro comp hcm
        rcases List.mem_append.mp hcm with hcm | hcm
        · exact hP results hacc comp hcm
        · rcases List.mem_singleton.mp hcm with rfl
          have hhn : ∀ n ∈ nodes.filter (fun n => n.id ∈ cids), 0 ≤ n.size.2 :=
            fun n hn => hh n (List.mem_of_mem_filter hn)
          have hub := comp_max_y_ge _ _ my hmy hhn
          rw [Bool.and_eq_true] at hguard
          have hpne : result.positions ≠ [] := by
            intro hnil
            rw [hnil] at hguard
            simp at hguard
          constructor
          · intro p hp
            have hlo : comp_min_y result.positions ≤ p.2.2 :=
              minInts_le _ _ (List.mem_map.mpr ⟨p, hp, rfl⟩)
            have hhi := hub p hp
            refine ⟨hlo, ?_⟩
            dsimp only
            omega
          · rcases List.exists_mem_of_ne_nil result.positions hpne with ⟨p0, hp0⟩
            have hlo : comp_min_y result.positions ≤ p0.2.2 :=
              minInts_le _ _ (List.mem_map.mpr ⟨p0, hp0, rfl⟩)
            have hhi : p0.2.2 ≤ my := hub p0 hp0
            dsimp only
            omega
    · cases heq
      exact hP _ hacc
  · intro rs0 heq
    cases heq
    intro comp hcm
    cases hcm

/-- Entries of the stacked positions sit in the band of the component
that produced them, bands taken in fold order. -/
theorem stack_entries_bands :
    ∀ (results : List ComponentResult)
      (ap0 as0 : List (Nat × Int × Int)) (y0 : Int),
      (∀ comp ∈ results, ∀ p ∈ comp.positions,
        comp_min_y comp.positions ≤ p.2.2 ∧
        p.2.2 ≤ comp_min_y comp.positions + comp.height) →
      ∀ e ∈ (results.foldl
        (fun (st : List (Nat × Int × Int) × List (Nat × Int × Int) × Int) comp =>
          let (all_positions, all_sizes, current_y_offset) := st
          let min_y := comp_min_y comp.positions
          let all_positions := comp.positions.foldl
            (fun ap e => ainsert ap e.1 (e.2.1, e.2.2 - min_y + current_y_offset))
            all_positions
          let all_sizes := comp.sizes.foldl (fun m e => ainsert m e.1 e.2) all_sizes
          (all_positions, all_sizes, current_y_offset + comp.height + 200))
        (ap0, as0, y0)).1,
        e ∈ ap0 ∨ ∃ pre comp suf, results = pre ++ comp :: suf ∧
          y0 + (pre.map (fun c => c.height + 200)).sum ≤ e.2.2 ∧
          e.2.2 ≤ y0 + (pre.map (fun c => c.height + 200)).sum + comp.height := by
  intro results
  induction results with
  | nil =>
    intro ap0 as0 y0 _ e he
    exact Or.inl he
  | cons c rs ih =>
    intro ap0 as0 y0 hbands e he
    rw [List.foldl_cons] at he
    dsimp only at he
    have hrec := ih (c.positions.foldl
        (fun ap e => ainsert ap e.1 (e.2.1, e.2.2 - comp_min_y c.positions + y0))
        ap0) (c.sizes.foldl (fun m e => ainsert m e.1 e.2) as0)
      (y0 + c.height + 200)
      (fun comp hcm => hbands comp (List.mem_cons_of_mem _ hcm)) e he
    rcases hrec with h1 | ⟨pre, comp, suf, hdec, hlo, hhi⟩
    · rcases mem_foldl_ainsert (fun p : Nat × Int × Int => p.1)
        (fun p : Nat × Int × Int =>
          (p.2.1, p.2.2 - comp_min_y c.positions + y0)) c.positions ap0 e h1 with
        h2 | ⟨p, hp, rfl⟩
      · exact Or.inl h2
      · refine Or.inr ⟨[], c, rs, rfl, ?_, ?_⟩
        · have := (hbands c (List.mem_cons_self _ _) p hp).1
          dsimp only
          simp only [List.map_nil, List.sum_nil]
          omega
        · have := (hbands c (List.mem_cons_self _ _) p hp).2
          dsimp only
          simp only [List.map_nil, List.sum_nil]
          omega
    · refine Or.inr ⟨c :: pre, comp, suf, by rw [hdec, List.cons_append], ?_, ?_⟩
      · simp only [List.map_cons, List.sum_cons]
        omega
      · simp only [List.map_cons, List.sum_cons]
        omega

/-- Sums of height+gap terms are nonnegative when heights are. -/
theorem heights_sum_nonneg (l : List ComponentResult)
    (h : ∀ c ∈ l, 0 ≤ c.height) :
    0 ≤ (l.map (fun c => c.height + 200)).sum := by
  induction l with
  | nil => simp
  | cons c l ih =>
    simp only [List.map_cons, List.sum_cons]
    have h1 := h c (List.mem_cons_self _ _)
    have h2 := ih (fun c hc => h c (List.mem_cons_of_mem _ hc))
    omega

/-- Bands taken in order do not overlap: a later component's band starts
strictly above an earlier one's end. -/
theorem stack_bands_separated :
    ∀ (results : List ComponentResult),
      (∀ comp ∈ results, 0 ≤ comp.height) →
      ∀ (pre : List ComponentResult) (comp : ComponentResult)
        (suf pre' : List ComponentResult) (comp' : ComponentResult)
        (suf' : List ComponentResult),
        results = pre ++ comp :: suf → results = pre' ++ comp' :: suf' →
        pre.length < pre'.length →
        (pre.map (fun c => c.height + 200)).sum + comp.height <
          (pre'.map (fun c => c.height + 200)).sum := by
  intro results
  induction results with
  | nil =>
    intro _ pre comp suf pre' comp' suf' h1 _ _
    exact absurd h1.symm (List.append_ne_nil_of_right_ne_nil pre (by simp))
  | cons x rs ih =>
    intro hhts pre comp suf pre' comp' suf' h1 h2 hlt
    cases pre' with
    | nil => cases hlt
    | cons q pre2' =>
      rw [List.cons_append] at h2
      have hq : x = q := (List.cons.injEq _ _ _ _).mp h2 |>.1
      have h2' : rs = pre2' ++ comp' :: suf' := (List.cons.injEq _ _ _ _).mp h2 |>.2
      cases pre with
      | nil =>
        rw [List.nil_append] at h1
        have hx : x = comp := (List.cons.injEq _ _ _ _).mp h1 |>.1
        simp only [List.map_nil, List.sum_nil, List.map_cons, List.sum_cons]
        have hsum : 0 ≤ (pre2'.map (fun c => c.height + 200)).sum := by
          refine heights_sum_nonneg pre2' ?_
          intro c hc
          refine hhts c (List.mem_cons_of_mem _ ?_)
          rw [h2']
          exact List.mem_append.mpr (Or.inl hc)
        rw [← hq, ← hx]
        omega
      | cons p pre2 =>
        rw [List.cons_append] at h1
        have hp : x = p := (List.cons.injEq _ _ _ _).mp h1 |>.1
        have h1' : rs = pre2 ++ comp :: suf := (List.cons.injEq _ _ _ _).mp h1 |>.2
        have hrec := ih (fun c hc => hhts c (List.mem_cons_of_mem _ hc))
          pre2 comp suf pre2' comp' suf' h1' h2' (by simpa using hlt)
        simp only [List.map_cons, List.sum_cons]
        rw [← hq, ← hp]
        omega

/-! ### Duplicate-freeness of the column maps, for the X-monotonicity of
the final layout -/

theorem initial_column_x_nodup (cw : List (Nat × Int)) :
    (akeys (initial_column_x cw)).Nodup := by
  unfold initial_column_x
  refine foldl_preserve
    (P := fun (st : List (Nat × Int) × Int) => (akeys st.1).Nodup)
    _ _ _ ?_ (by simp [akeys])
  intro st c _ hP
  exact nodup_akeys_ainsert _ _ _ hP

theorem seed_node_columns_nodup (np : List (Nat × Int × Int))
    (p2c : List (Int × Nat)) : (akeys (seed_node_columns np p2c)).Nodup := by
  unfold seed_node_columns
  refine foldl_preserve (P := fun (m : List (Nat × Nat)) => (akeys m).Nodup)
    _ np [] ?_ (by simp [akeys])
  intro m e _ hP
  dsimp only
  split
  · exact nodup_akeys_ainsert _ _ _ hP
  · exact hP

theorem place_one_nodup (node_map : List (Nat × PyNode))
    (children parents : List (Nat × List Nat))
    (st : List (Nat × Nat) × List (Nat × Int) × List (Nat × Int)) (nid : Nat)
    (h1 : (akeys st.1).Nodup) (h2 : (akeys st.2.1).Nodup) :
    (akeys (place_one node_map children parents st nid).1).Nodup ∧
    (akeys (place_one node_map children parents st nid).2.1).Nodup := by
  simp only [place_one]
  refine ⟨nodup_akeys_ainsert _ _ _ h1, ?_⟩
  dsimp only
  split
  · exact nodup_akeys_ainsert _ _ _ h2
  · exact h2

theorem assign_remaining_nodup (node_map : List (Nat × PyNode))
    (children parents : List (Nat × List Nat))
    (np : List (Nat × Int × Int)) (cxp cw : List (Nat × Int))
    (hcxp : (akeys cxp).Nodup) :
    (akeys (assign_remaining_columns node_map children parents np cxp cw).1).Nodup ∧
    (akeys (assign_remaining_columns node_map children parents np cxp cw).2.1).Nodup := by
  unfold assign_remaining_columns
  refine foldl_preserve
    (P := fun (st : List (Nat × Nat) × List (Nat × Int) × List (Nat × Int)) =>
      (akeys st.1).Nodup ∧ (akeys st.2.1).Nodup)
    _ _ _ ?_ ⟨seed_node_columns_nodup _ _, hcxp⟩
  intro st nid _ hP
  exact place_one_nodup node_map children parents st nid hP.1 hP.2

theorem fix_one_target_nodup (ctx : LoopCtx) (cw : List (Nat × Int))
    (st : ColState) (t : Nat) (lws : List LeftwardLink)
    (h1 : (akeys st.node_columns).Nodup)
    (h2 : (akeys st.column_x_positions).Nodup) :
    (akeys (fix_one_target ctx cw st t lws).node_columns).Nodup ∧
    (akeys (fix_one_target ctx cw st t lws).column_x_positions).Nodup := by
  simp only [fix_one_target]
  split
  · refine ⟨nodup_akeys_ainsert _ _ _ h1, ?_⟩
    dsimp only [ColState.column_x_positions]
    refine nodup_akeys_ainsert _ _ _ ?_
    split
    · exact nodup_akeys_ainsert _ _ _ h2
    · exact h2
  · exact ⟨h1, h2⟩

theorem apply_fixes_nodup (ctx : LoopCtx) (cw : List (Nat × Int))
    (groups : List (Nat × List LeftwardLink)) (st : ColState)
    (h1 : (akeys st.node_columns).Nodup)
    (h2 : (akeys st.column_x_positions).Nodup) :
    (akeys (apply_fixes ctx cw st groups).node_columns).Nodup ∧
    (akeys (apply_fixes ctx cw st groups).column_x_positions).Nodup := by
  unfold apply_fixes
  refine foldl_preserve
    (P := fun (s : ColState) =>
      (akeys s.node_columns).Nodup ∧ (akeys s.column_x_positions).Nodup)
    _ groups st ?_ ⟨h1, h2⟩
  intro s g _ hP
  exact fix_one_target_nodup ctx cw s g.1 g.2 hP.1 hP.2

theorem fix_loop_go_nodup (ctx : LoopCtx) :
    ∀ (fuel i : Nat) (st : ColState) (cw0 : List (Nat × Int)),
      (akeys st.node_columns).Nodup →
      (akeys st.column_x_positions).Nodup →
      (akeys (fix_loop_go ctx fuel i st cw0).1.node_columns).Nodup ∧
      (akeys (fix_loop_go ctx fuel i st cw0).1.column_x_positions).Nodup := by
  intro fuel
  induction fuel with
  | zero =>
    intro i st cw0 h1 h2
    exact ⟨h1, h2⟩
  | succ n ih =>
    intro i st cw0 h1 h2
    rw [fix_loop_go]
    split
    · exact ⟨h1, h2⟩
    · have happ := apply_fixes_nodup ctx
        (recompute_column_widths ctx st.node_columns)
        (group_by_target (detect_leftward ctx
          (recompute_column_widths ctx st.node_columns) st)) st h1 h2
      exact ih (i + 1) (apply_fixes ctx
        (recompute_column_widths ctx st.node_columns) st
        (group_by_target (detect_leftward ctx
          (recompute_column_widths ctx st.node_columns) st)))
        (recompute_column_widths ctx st.node_columns) happ.1 happ.2

theorem alookup_aerase_self (l : List (κ × β)) (k : κ)
    (h : (akeys l).Nodup) : alookup (aerase l k) k = none := by
  induction l with
  | nil => rfl
  | cons e rest ih =>
    cases e with
    | mk ek ev =>
      have hh : ek ∉ akeys rest ∧ (akeys rest).Nodup := by simpa [akeys] using h
      by_cases hk : ek = k
      · subst hk
        rw [show aerase ((ek, ev) :: rest) ek = rest from by simp [aerase]]
        rw [alookup_eq_none_iff]
        exact hh.1
      · rw [show aerase ((ek, ev) :: rest) k = (ek, ev) :: aerase rest k from
          by simp [aerase, hk]]
        rw [alookup_cons_ne _ _ _ _ hk]
        exact ih hh.2

theorem alookup_none_aerase (l : List (κ × β)) (k d : κ)
    (h : alookup l k = none) : alookup (aerase l d) k = none := by
  rw [alookup_eq_none_iff] at h ⊢
  intro hmem
  exact h (((aerase_sublist l d).map Prod.fst).mem hmem)

theorem erase_fold_none :
    ∀ (es : List Nat) (m : List (Nat × Int)), (akeys m).Nodup →
      ∀ c ∈ es, alookup (es.foldl aerase m) c = none := by
  intro es
  induction es with
  | nil =>
    intro m _ c hc
    cases hc
  | cons d es ih =>
    intro m hm c hc
    rw [List.foldl_cons]
    have hnd : (akeys (aerase m d)).Nodup :=
      hm.sublist ((aerase_sublist m d).map Prod.fst)
    rcases List.mem_cons.mp hc with rfl | hc
    · refine foldl_preserve
        (P := fun (m' : List (Nat × Int)) => alookup m' c = none)
        _ es (aerase m c) ?_ (alookup_aerase_self m c hm)
      intro m' d' _ hP
      exact alookup_none_aerase m' c d' hP
    · exact ih (aerase m d) hnd c hc

/-- A surviving column has members. -/
theorem remove_empty_isSome (cxp cw : List (Nat × Int))
    (ctn : List (Nat × List Nat)) (hnd : (akeys cxp).Nodup) (c : Nat)
    (hc : c ∈ akeys (remove_empty_columns cxp cw ctn).1) :
    (alookup ctn c).isSome := by
  by_contra h
  have hcin : c ∈ akeys cxp := remove_empty_keys_sub cxp cw ctn c hc
  have hemp : c ∈ (akeys cxp).filter (fun c => (alookup ctn c).isNone) := by
    refine List.mem_filter.mpr ⟨hcin, ?_⟩
    simp only [Option.isNone_iff_eq_none, decide_eq_true_eq]
    cases hl : alookup ctn c with
    | none => rfl
    | some v =>
      rw [hl] at h
      exact absurd rfl h
  have := erase_fold_none _ cxp hnd c hemp
  rw [show ((akeys cxp).filter
      (fun c => (alookup ctn c).isNone)).foldl aerase cxp =
      (remove_empty_columns cxp cw ctn).1 from rfl] at this
  have hsome := (alookup_isSome_iff _ c).mpr hc
  rw [this] at hsome
  cases hsome

/-- Member lists of the column table are never empty. -/
theorem columns_to_nodes_ne_nil (ncols : List (Nat × Nat)) :
    ∀ c ms, alookup (columns_to_nodes_of ncols) c = some ms → ms ≠ [] := by
  unfold columns_to_nodes_of
  refine foldl_preserve
    (P := fun (m : List (Nat × List Nat)) =>
      ∀ c ms, alookup m c = some ms → ms ≠ [])
    _ _ _ ?_ ?_
  · intro m e _ hP c ms hms
    by_cases hc : e.2 = c
    · subst hc
      rw [alookup_ainsert_self] at hms
      cases hms
      simp
    · rw [alookup_ainsert_of_ne _ _ _ _ (fun h => hc h.symm)] at hms
      exact hP c ms hms
  · intro c ms hms
    cases hms

theorem foldl_max_nonneg (ws : List Int) (w : Int) (hw : 0 ≤ w) :
    0 ≤ ws.foldl max w :=
  foldl_preserve (P := fun (m : Int) => 0 ≤ m) _ ws w
    (fun m x _ hm => le_trans hm (le_max_left _ _)) hw

theorem rebuild_lookup_other (node_map : List (Nat × PyNode))
    (ctn : List (Nat × List Nat)) (cols : List Nat) (cw : List (Nat × Int))
    (k : Nat) (hk : k ∉ cols) :
    alookup (rebuild_column_widths node_map cols ctn cw) k = alookup cw k := by
  unfold rebuild_column_widths
  refine foldl_preserve
    (P := fun (m : List (Nat × Int)) => alookup m k = alookup cw k)
    _ cols cw ?_ rfl
  intro m c hc hP
  dsimp only
  split
  · exact hP
  · split
    · exact hP
    · rw [alookup_ainsert_of_ne _ _ _ _ (fun h => hk (by rw [h]; exact hc))]
      exact hP

/-- Every surviving column gets a rebuilt width, and it is nonnegative
when node widths are. -/
theorem rebuild_widths_nonneg (node_map : List (Nat × PyNode))
    (ctn : List (Nat × List Nat))
    (hw : ∀ e ∈ node_map, 0 ≤ e.2.size.1) :
    ∀ (cols : List Nat) (cw : List (Nat × Int)),
      cols.Nodup →
      (∀ c ∈ cols, ∃ ms, alookup ctn c = some ms ∧ ms ≠ []) →
      ∀ c ∈ cols, ∃ v, alookup (rebuild_column_widths node_map cols ctn cw) c
        = some v ∧ 0 ≤ v := by
  intro cols
  induction cols with
  | nil =>
    intro cw _ _ c hc
    cases hc
  | cons c0 cols ih =>
    intro cw hnd hms c hc
    rcases hms c0 (List.mem_cons_self _ _) with ⟨ms, hm, hne⟩
    have hnd' := List.nodup_cons.mp hnd
    cases hmap : ms.map (fun nid => ((alookup node_map nid).getD dnode).size.1) with
    | nil => exact absurd (List.map_eq_nil.mp hmap) hne
    | cons w ws =>
      have hstep : rebuild_column_widths node_map (c0 :: cols) ctn cw =
          rebuild_column_widths node_map cols ctn
            (ainsert cw c0 (ws.foldl max w)) := by
        unfold rebuild_column_widths
        rw [List.foldl_cons]
        congr 1
        dsimp only
        rw [hm]
        dsimp only
        rw [hmap]
      rw [hstep]
      have h0w : 0 ≤ w := by
        have hwm : w ∈ ms.map
            (fun nid => ((alookup node_map nid).getD dnode).size.1) := by
          rw [hmap]
          exact List.mem_cons_self _ _
        rcases List.mem_map.mp hwm with ⟨nid, _, heq⟩
        rw [← heq]
        cases hl : alookup node_map nid with
        | none => exact le_refl 0
        | some n =>
          simp only [hl, Option.getD_some]
          exact hw (nid, n) (mem_of_alookup_eq_some _ _ _ hl)
      have hv : 0 ≤ ws.foldl max w := foldl_max_nonneg ws w h0w
      rcases List.mem_cons.mp hc with heq | hc
      · subst heq
        refine ⟨ws.foldl max w, ?_, hv⟩
        rw [rebuild_lookup_other node_map ctn cols _ c hnd'.1,
          alookup_ainsert_self]
      · exact ih (ainsert cw c0 (ws.foldl max w)) hnd'.2
          (fun c' hc' => hms c' (List.mem_cons_of_mem _ hc')) c hc

/-- The uniform re-spacing: every processed column gets an X, X grows
along the processed order by width + 100, and other keys are untouched. -/
theorem space_cols_x (cw : List (Nat × Int)) (ncols : List (Nat × Nat)) :
    ∀ (cols : List Nat) (cxp : List (Nat × Int))
      (np : List (Nat × Int × Int)) (x0 : Int),
      cols.Nodup →
      (∀ c ∈ cols, 0 ≤ (alookup cw c).getD 0) →
      (∀ c ∈ cols, ∃ x, alookup (cols.foldl
        (fun (st : List (Nat × Int) × List (Nat × Int × Int) × Int) c =>
          let current_x := st.2.2
          let cxp := ainsert st.1 c current_x
          let np := ncols.foldl
            (fun np e =>
              if e.2 = c then
                match alookup np e.1 with
                | some pos => ainsert np e.1 (current_x, pos.2)
                | none => np
              else np)
            st.2.1
          (cxp, np, current_x + (alookup cw c).getD 0 + 100))
        (cxp, np, x0)).1 c = some x ∧
        x0 ≤ x ∧ x + (alookup cw c).getD 0 + 100 ≤ (cols.foldl
        (fun (st : List (Nat × Int) × List (Nat × Int × Int) × Int) c =>
          let current_x := st.2.2
          let cxp := ainsert st.1 c current_x
          let np := ncols.foldl
            (fun np e =>
              if e.2 = c then
                match alookup np e.1 with
                | some pos => ainsert np e.1 (current_x, pos.2)
                | none => np
              else np)
            st.2.1
          (cxp, np, current_x + (alookup cw c).getD 0 + 100))
        (cxp, np, x0)).2.2) ∧
      x0 ≤ (cols.foldl
        (fun (st : List (Nat × Int) × List (Nat × Int × Int) × Int) c =>
          let current_x := st.2.2
          let cxp := ainsert st.1 c current_x
          let np := ncols.foldl
            (fun np e =>
              if e.2 = c then
                match alookup np e.1 with
                | some pos => ainsert np e.1 (current_x, pos.2)
                | none => np
              else np)
            st.2.1
          (cxp, np, current_x + (alookup cw c).getD 0 + 100))
        (cxp, np, x0)).2.2 ∧
      List.Pairwise (fun c c' => ∀ x x',
        alookup (cols.foldl
        (fun (st : List (Nat × Int) × List (Nat × Int × Int) × Int) c =>
          let current_x := st.2.2
          let cxp := ainsert st.1 c current_x
          let np := ncols.foldl
            (fun np e =>
              if e.2 = c then
                match alookup np e.1 with
                | some pos => ainsert np e.1 (current_x, pos.2)
                | none => np
              else np)
            st.2.1
          (cxp, np, current_x + (alookup cw c).getD 0 + 100))
        (cxp, np, x0)).1 c = some x →
        alookup (cols.foldl
        (fun (st : List (Nat × Int) × List (Nat × Int × Int) × Int) c =>
          let current_x := st.2.2
          let cxp := ainsert st.1 c current_x
          let np := ncols.foldl
            (fun np e =>
              if e.2 = c then
                match alookup np e.1 with
                | some pos => ainsert np e.1 (current_x, pos.2)
                | none => np
              else np)
            st.2.1
          (cxp, np, current_x + (alookup cw c).getD 0 + 100))
        (cxp, np, x0)).1 c' = some x' →
        x + (alookup cw c).getD 0 + 100 ≤ x') cols ∧
      (∀ k, k ∉ cols → alookup (cols.foldl
        (fun (st : List (Nat × Int) × List (Nat × Int × Int) × Int) c =>
          let current_x := st.2.2
          let cxp := ainsert st.1 c current_x
          let np := ncols.foldl
            (fun np e =>
              if e.2 = c then
                match alookup np e.1 with
                | some pos => ainsert np e.1 (current_x, pos.2)
                | none => np
              else np)
            st.2.1
          (cxp, np, current_x + (alookup cw c).getD 0 + 100))
        (cxp, np, x0)).1 k = alookup cxp k) := by
  intro cols
  induction cols with
  | nil =>
    intro cxp np x0 _ _
    exact ⟨(by rintro c hc; cases hc), le_refl _, List.Pairwise.nil,
      fun k _ => rfl⟩
  | cons c0 cols ih =>
    intro cxp np x0 hnd hwidths
    have hnd' := List.nodup_cons.mp hnd
    have hw0 : 0 ≤ (alookup cw c0).getD 0 :=
      hwidths c0 (List.mem_cons_self _ _)
    have hih := ih (ainsert cxp c0 x0)
      (ncols.foldl
        (fun np e =>
          if e.2 = c0 then
            match alookup np e.1 with
            | some pos => ainsert np e.1 (x0, pos.2)
            | none => np
          else np) np)
      (x0 + (alookup cw c0).getD 0 + 100) hnd'.2
      (fun c' hc' => hwidths c' (List.mem_cons_of_mem _ hc'))
    rw [List.foldl_cons]
    dsimp only
    have hc0look : alookup ((cols.foldl
        (fun (st : List (Nat × Int) × List (Nat × Int × Int) × Int) c =>
          let current_x := st.2.2
          let cxp := ainsert st.1 c current_x
          let np := ncols.foldl
            (fun np e =>
              if e.2 = c then
                match alookup np e.1 with
                | some pos => ainsert np e.1 (current_x, pos.2)
                | none => np
              else np)
            st.2.1
          (cxp, np, current_x + (alookup cw c).getD 0 + 100))
        (ainsert cxp c0 x0,
         ncols.foldl
          (fun np e =>
            if e.2 = c0 then
              match alookup np e.1 with
              | some pos => ainsert np e.1 (x0, pos.2)
              | none => np
            else np) np,
         x0 + (alookup cw c0).getD 0 + 100))).1 c0 = some x0 := by
      rw [hih.2.2.2 c0 hnd'.1, alookup_ainsert_self]
    dsimp only at hih hc0look
    refine ⟨?_, ?_, ?_, ?_⟩
    · intro c hc
      rcases List.mem_cons.mp hc with heq | hc
      · subst heq
        exact ⟨x0, hc0look, le_refl _, hih.2.1⟩
      · rcases hih.1 c hc with ⟨x, hx, hge, hbound⟩
        refine ⟨x, hx, ?_, hbound⟩
        omega
    · have := hih.2.1
      omega
    · refine List.pairwise_cons.mpr ⟨?_, hih.2.2.1⟩
      intro c' hc' x x' hx hx'
      have hxx : x = x0 := by
        rw [hc0look] at hx
        exact (Option.some.inj hx).symm
      rcases hih.1 c' hc' with ⟨x'', hx'', hge, _⟩
      have hxx' : x' = x'' := by
        rw [hx''] at hx'
        exact (Option.some.inj hx').symm
      omega
    · intro k hk
      have hk0 : k ≠ c0 := fun h => hk (by rw [h]; exact List.mem_cons_self _ _)
      have hkc : k ∉ cols := fun h => hk (List.mem_cons_of_mem _ h)
      rw [hih.2.2.2 k hkc, alookup_ainsert_of_ne _ _ _ _ hk0]

/-- Stacking a column: every stacked node's X is the column X; other
entries are untouched. -/
theorem assign_column_ys_x (ns : List (Nat × Int × Int)) (x : Int) :
    ∀ (nodesl : List Nat) (np : List (Nat × Int × Int)) (y : Int) (k : Nat),
      (k ∈ nodesl → ∃ yv,
        alookup (assign_column_ys ns x y nodesl np) k = some (x, yv)) ∧
      (k ∉ nodesl →
        alookup (assign_column_ys ns x y nodesl np) k = alookup np k) := by
  intro nodesl
  induction nodesl with
  | nil =>
    intro np y k
    exact ⟨fun h => absurd h (List.not_mem_nil k), fun _ => rfl⟩
  | cons nid rest ih =>
    intro np y k
    have hstep : assign_column_ys ns x y (nid :: rest) np =
        assign_column_ys ns x (y + ((alookup ns nid).getD (0, 0)).2 + 60) rest
          (ainsert np nid (x, y)) := rfl
    rw [hstep]
    have hih := ih (ainsert np nid (x, y))
      (y + ((alookup ns nid).getD (0, 0)).2 + 60) k
    constructor
    · intro hk
      by_cases hkr : k ∈ rest
      · exact hih.1 hkr
      · rcases List.mem_cons.mp hk with heq | hkr2
        · subst heq
          refine ⟨y, ?_⟩
          rw [hih.2 hkr, alookup_ainsert_self]
        · exact absurd hkr2 hkr
    · intro hk
      have hk1 : k ≠ nid := fun h => hk (by rw [h]; exact List.mem_cons_self _ _)
      have hk2 : k ∉ rest := fun h => hk (List.mem_cons_of_mem _ h)
      rw [hih.2 hk2, alookup_ainsert_of_ne _ _ _ _ hk1]

/-- Step 7 leaves nodes of unprocessed columns alone. -/
theorem step7_preserve (links : List PyLink) (ns : List (Nat × Int × Int)) :
    ∀ (cols : List Nat) (ctn : List (Nat × List Nat)) (cxp : List (Nat × Int))
      (y : Int) (np : List (Nat × Int × Int)) (k : Nat),
      (∀ c ∈ cols, ∀ ms, alookup ctn c = some ms → k ∉ ms) →
      alookup (step7_vertical_sort links ns cols ctn cxp y np) k =
        alookup np k := by
  intro cols
  induction cols with
  | nil =>
    intro ctn cxp y np k _
    rfl
  | cons c cols ih =>
    intro ctn cxp y np k hnot
    cases hl : alookup ctn c with
    | none =>
      have hstep : step7_vertical_sort links ns (c :: cols) ctn cxp y np =
          step7_vertical_sort links ns cols ctn cxp y np := by
        unfold step7_vertical_sort
        rw [List.foldl_cons]
        congr 1
        dsimp only
        rw [hl]
      rw [hstep]
      exact ih ctn cxp y np k
        (fun c' hc' => hnot c' (List.mem_cons_of_mem _ hc'))
    | some nids =>
      have hstep : step7_vertical_sort links ns (c :: cols) ctn cxp y np =
          step7_vertical_sort links ns cols ctn cxp y
            (assign_column_ys ns ((alookup cxp c).getD 0) y
              (sort_column_nodes links np nids) np) := by
        unfold step7_vertical_sort
        rw [List.foldl_cons]
        congr 1
        dsimp only
        rw [hl]
      rw [hstep]
      rw [ih ctn cxp y _ k (fun c' hc' => hnot c' (List.mem_cons_of_mem _ hc'))]
      have hks : k ∉ sort_column_nodes links np nids := fun h =>
        hnot c (List.mem_cons_self _ _) nids hl
          ((mem_sort_column_nodes _ _ _ _).mp h)
      exact (assign_column_ys_x ns _ _ np _ k).2 hks

/-- Step 7 gives every node the X of its (unique) column. -/
theorem step7_x (links : List PyLink) (ns : List (Nat × Int × Int)) :
    ∀ (cols : List Nat) (ctn : List (Nat × List Nat)) (cxp : List (Nat × Int))
      (y : Int) (np : List (Nat × Int × Int)) (k c : Nat) (ms : List Nat),
      cols.Nodup → c ∈ cols → alookup ctn c = some ms → k ∈ ms →
      (∀ c' ∈ cols, ∀ ms', alookup ctn c' = some ms' → k ∈ ms' → c' = c) →
      ∃ yv, alookup (step7_vertical_sort links ns cols ctn cxp y np) k =
        some ((alookup cxp c).getD 0, yv) := by
  intro cols
  induction cols with
  | nil =>
    intro ctn cxp y np k c ms _ hc
    cases hc
  | cons c0 cols ih =>
    intro ctn cxp y np k c ms hnd hc hms hk hdisj
    have hnd' := List.nodup_cons.mp hnd
    rcases List.mem_cons.mp hc with heq | hctail
    · subst heq
      have hstep : step7_vertical_sort links ns (c :: cols) ctn cxp y np =
          step7_vertical_sort links ns cols ctn cxp y
            (assign_column_ys ns ((alookup cxp c).getD 0) y
              (sort_column_nodes links np ms) np) := by
        unfold step7_vertical_sort
        rw [List.foldl_cons]
        congr 1
        dsimp only
        rw [hms]
      rw [hstep]
      rw [step7_preserve links ns cols ctn cxp y _ k ?_]
      · exact (assign_column_ys_x ns _ _ np _ k).1
          ((mem_sort_column_nodes _ _ _ _).mpr hk)
      · intro c' hc' ms' hms' hkms'
        have := hdisj c' (List.mem_cons_of_mem _ hc') ms' hms' hkms'
        rw [this] at hc'
        exact hnd'.1 hc'
    · cases hl : alookup ctn c0 with
      | none =>
        have hstep : step7_vertical_sort links ns (c0 :: cols) ctn cxp y np =
            step7_vertical_sort links ns cols ctn cxp y np := by
          unfold step7_vertical_sort
          rw [List.foldl_cons]
          congr 1
          dsimp only
          rw [hl]
        rw [hstep]
        exact ih ctn cxp y np k c ms hnd'.2 hctail hms hk
          (fun c' hc' => hdisj c' (List.mem_cons_of_mem _ hc'))
      | some nids =>
        have hstep : step7_vertical_sort links ns (c0 :: cols) ctn cxp y np =
            step7_vertical_sort links ns cols ctn cxp y
              (assign_column_ys ns ((alookup cxp c0).getD 0) y
                (sort_column_nodes links np nids) np) := by
          unfold step7_vertical_sort
          rw [List.foldl_cons]
          congr 1
          dsimp only
          rw [hl]
        rw [hstep]
        exact ih ctn cxp y _ k c ms hnd'.2 hctail hms hk
          (fun c' hc' => hdisj c' (List.mem_cons_of_mem _ hc'))

/-- Step 7b keeps every node's column X (column 0's members are re-stacked
at column 0's X again). -/
theorem step7b_x (links : List PyLink) (ns : List (Nat × Int × Int))
    (ctn : List (Nat × List Nat)) (cxp : List (Nat × Int)) (y : Int)
    (np : List (Nat × Int × Int)) (k c : Nat)
    (hx : ∃ yv, alookup np k = some ((alookup cxp c).getD 0, yv))
    (hdisj0 : ∀ ms0, alookup ctn 0 = some ms0 → k ∈ ms0 → c = 0) :
    ∃ yv, alookup (step7b_first_column links ns ctn cxp y np) k =
      some ((alookup cxp c).getD 0, yv) := by
  unfold step7b_first_column
  cases h0 : alookup ctn 0 with
  | none => exact hx
  | some ms0 =>
    cases h1 : alookup ctn 1 with
    | none => exact hx
    | some w =>
      dsimp only
      have hmemsf : ∀ a : Nat, a ∈ (isortBy (fun a b => listLexLt a.2 b.2)
          (ms0.map (fun nid => (nid, vertical_sort_key
            (get_child_input_port_positions links np nid))))).map Prod.fst ↔
          a ∈ ms0 := by
        intro a
        constructor
        · intro h
          rcases List.mem_map.mp h with ⟨p, hp, rfl⟩
          rcases List.mem_map.mp ((mem_isortBy _ _ _).mp hp) with ⟨nid, hnid, heq⟩
          rw [← heq]
          exact hnid
        · intro h
          exact List.mem_map.mpr ⟨(a, vertical_sort_key
            (get_child_input_port_positions links np a)), (mem_isortBy _ _ _).mpr
            (List.mem_map.mpr ⟨a, h, rfl⟩), rfl⟩
      by_cases hk : k ∈ (isortBy (fun a b => listLexLt a.2 b.2)
          (ms0.map (fun nid => (nid, vertical_sort_key
            (get_child_input_port_positions links np nid))))).map Prod.fst
      · have hc0 : c = 0 := hdisj0 ms0 h0 ((hmemsf k).mp hk)
        rcases (assign_column_ys_x ns _ _ np _ k).1 hk with ⟨yv, hyv⟩
        refine ⟨yv, ?_⟩
        rw [hc0]
        exact hyv
      · rcases hx with ⟨yv, hyv⟩
        refine ⟨yv, ?_⟩
        rw [(assign_column_ys_x ns _ _ np _ k).2 hk]
        exact hyv

/-- Resizing one column's members: each gets the column width; other
entries untouched. -/
theorem inner_resize_lookup (node_map : List (Nat × PyNode)) (colw : Int) :
    ∀ (nids : List Nat) (ns : List (Nat × Int × Int)) (k : Nat),
      (k ∈ nids → ∃ h, alookup (nids.foldl (fun m nid => ainsert m nid (colw,
        ((alookup node_map nid).getD dnode).size.2)) ns) k = some (colw, h)) ∧
      (k ∉ nids → alookup (nids.foldl (fun m nid => ainsert m nid (colw,
        ((alookup node_map nid).getD dnode).size.2)) ns) k = alookup ns k) := by
  intro nids
  induction nids with
  | nil =>
    intro ns k
    exact ⟨fun h => absurd h (List.not_mem_nil k), fun _ => rfl⟩
  | cons nid rest ih =>
    intro ns k
    rw [List.foldl_cons]
    have hih := ih (ainsert ns nid (colw,
      ((alookup node_map nid).getD dnode).size.2)) k
    constructor
    · intro hk
      by_cases hkr : k ∈ rest
      · exact hih.1 hkr
      · rcases List.mem_cons.mp hk with heq | hkr2
        · subst heq
          refine ⟨((alookup node_map k).getD dnode).size.2, ?_⟩
          rw [hih.2 hkr, alookup_ainsert_self]
        · exact absurd hkr2 hkr
    · intro hk
      have hk1 : k ≠ nid := fun h => hk (by rw [h]; exact List.mem_cons_self _ _)
      have hk2 : k ∉ rest := fun h => hk (List.mem_cons_of_mem _ h)
      rw [hih.2 hk2, alookup_ainsert_of_ne _ _ _ _ hk1]

/-- Resizing leaves nodes of unprocessed columns alone. -/
theorem resize_preserve (node_map : List (Nat × PyNode)) :
    ∀ (cols : List Nat) (ctn : List (Nat × List Nat)) (cw : List (Nat × Int))
      (ns : List (Nat × Int × Int)) (k : Nat),
      (∀ c ∈ cols, ∀ ms, alookup ctn c = some ms → k ∉ ms) →
      alookup (resize_nodes node_map cols ctn cw ns) k = alookup ns k := by
  intro cols
  induction cols with
  | nil =>
    intro ctn cw ns k _
    rfl
  | cons c cols ih =>
    intro ctn cw ns k hnot
    cases hl : alookup ctn c with
    | none =>
      have hstep : resize_nodes node_map (c :: cols) ctn cw ns =
          resize_nodes node_map cols ctn cw ns := by
        unfold resize_nodes
        rw [List.foldl_cons]
        congr 1
        dsimp only
        rw [hl]
      rw [hstep]
      exact ih ctn cw ns k (fun c' hc' => hnot c' (List.mem_cons_of_mem _ hc'))
    | some nids =>
      have hstep : resize_nodes node_map (c :: cols) ctn cw ns =
          resize_nodes node_map cols ctn cw
            (nids.foldl (fun m nid => ainsert m nid ((alookup cw c).getD 0,
              ((alookup node_map nid).getD dnode).size.2)) ns) := by
        unfold resize_nodes
        rw [List.foldl_cons]
        congr 1
        dsimp only
        rw [hl]
      rw [hstep]
      rw [ih ctn cw _ k (fun c' hc' => hnot c' (List.mem_cons_of_mem _ hc'))]
      exact (inner_resize_lookup node_map _ nids ns k).2
        (hnot c (List.mem_cons_self _ _) nids hl)

/-- Resizing gives every node the width of its (unique) column. -/
theorem resize_x (node_map : List (Nat × PyNode)) :
    ∀ (cols : List Nat) (ctn : List (Nat × List Nat)) (cw : List (Nat × Int))
      (ns : List (Nat × Int × Int)) (k c : Nat) (ms : List Nat),
      cols.Nodup → c ∈ cols → alookup ctn c = some ms → k ∈ ms →
      (∀ c' ∈ cols, ∀ ms', alookup ctn c' = some ms' → k ∈ ms' → c' = c) →
      ∃ h, alookup (resize_nodes node_map cols ctn cw ns) k =
        some ((alookup cw c).getD 0, h) := by
  intro cols
  induction cols with
  | nil =>
    intro ctn cw ns k c ms _ hc
    cases hc
  | cons c0 cols ih =>
    intro ctn cw ns k c ms hnd hc hms hk hdisj
    have hnd' := List.nodup_cons.mp hnd
    rcases List.mem_cons.mp hc with heq | hctail
    · subst heq
      have hstep : resize_nodes node_map (c :: cols) ctn cw ns =
          resize_nodes node_map cols ctn cw
            (ms.foldl (fun m nid => ainsert m nid ((alookup cw c).getD 0,
              ((alookup node_map nid).getD dnode).size.2)) ns) := by
        unfold resize_nodes
        rw [List.foldl_cons]
        congr 1
        dsimp only
        rw [hms]
      rw [hstep]
      rw [resize_preserve node_map cols ctn cw _ k ?_]
      · exact (inner_resize_lookup node_map _ ms ns k).1 hk
      · intro c' hc' ms' hms' hkms'
        have := hdisj c' (List.mem_cons_of_mem _ hc') ms' hms' hkms'
        rw [this] at hc'
        exact hnd'.1 hc'
    · cases hl : alookup ctn c0 with
      | none =>
        have hstep : resize_nodes node_map (c0 :: cols) ctn cw ns =
            resize_nodes node_map cols ctn cw ns := by
          unfold resize_nodes
          rw [List.foldl_cons]
          congr 1
          dsimp only
          rw [hl]
        rw [hstep]
        exact ih ctn cw ns k c ms hnd'.2 hctail hms hk
          (fun c' hc' => hdisj c' (List.mem_cons_of_mem _ hc'))
      | some nids =>
        have hstep : resize_nodes node_map (c0 :: cols) ctn cw ns =
            resize_nodes node_map cols ctn cw
              (nids.foldl (fun m nid => ainsert m nid ((alookup cw c0).getD 0,
                ((alookup node_map nid).getD dnode).size.2)) ns) := by
          unfold resize_nodes
          rw [List.foldl_cons]
          congr 1
          dsimp only
          rw [hl]
        rw [hstep]
        exact ih ctn cw _ k c ms hnd'.2 hctail hms hk
          (fun c' hc' => hdisj c' (List.mem_cons_of_mem _ hc'))

/-- In a `Pairwise` list any two members are equal or related one way. -/
theorem pairwise_total_of_mem {α2 : Type} {R : α2 → α2 → Prop} :
    ∀ (l : List α2), l.Pairwise R → ∀ a b, a ∈ l → b ∈ l →
      a = b ∨ R a b ∨ R b a := by
  intro l
  induction l with
  | nil =>
    intro _ a b ha
    cases ha
  | cons x xs ih =>
    intro hp a b ha hb
    rcases List.pairwise_cons.mp hp with ⟨hx, hxs⟩
    rcases List.mem_cons.mp ha with ha1 | ha2
    · rcases List.mem_cons.mp hb with hb1 | hb2
      · exact Or.inl (ha1.trans hb1.symm)
      · rw [ha1]
        exact Or.inr (Or.inl (hx b hb2))
    · rcases List.mem_cons.mp hb with hb1 | hb2
      · rw [hb1]
        exact Or.inr (Or.inr (hx a ha2))
      · exact ih hxs a b ha2 hb2

/-- Steps 6b–7b, X-geometry: every assigned node's final X is its column's
re-spaced X, its final width is its column's rebuilt width, column Xs grow
by width + 100 along the sorted column order, and widths are nonnegative. -/
theorem finish_layout_x (links : List PyLink) (start_y : Int)
    (node_map : List (Nat × PyNode)) (ns0 : List (Nat × Int × Int))
    (st : ColState) (cw : List (Nat × Int)) (np : List (Nat × Int × Int))
    (hncnd : (akeys st.node_columns).Nodup)
    (hcxnd : (akeys st.column_x_positions).Nodup)
    (hJ : ∀ e ∈ st.node_columns, e.2 ∈ akeys st.column_x_positions)
    (hw : ∀ e ∈ node_map, 0 ≤ e.2.size.1) :
    ∃ (sorted : List Nat) (M W : List (Nat × Int)),
      (∀ c ∈ sorted, 0 ≤ (alookup W c).getD 0) ∧
      List.Pairwise (fun c c' => ∀ x x',
        alookup M c = some x → alookup M c' = some x' →
        x + (alookup W c).getD 0 + 100 ≤ x') sorted ∧
      (∀ c c', c ∈ sorted → c' ∈ sorted →
        (c = c' ∨ (∀ x x', alookup M c = some x → alookup M c' = some x' →
          x + (alookup W c).getD 0 + 100 ≤ x') ∨
         (∀ x x', alookup M c' = some x → alookup M c = some x' →
          x + (alookup W c').getD 0 + 100 ≤ x'))) ∧
      ∃ s, (finish_layout links start_y node_map ns0 st cw np).sizes = some s ∧
      (∀ k c, (k, c) ∈ st.node_columns →
        c ∈ sorted ∧
        ∃ x yv h2,
          alookup M c = some x ∧
          alookup (finish_layout links start_y node_map ns0 st cw np).positions k
            = some (x, yv) ∧
          alookup s k = some ((alookup W c).getD 0, h2)) := by
  set ctn := columns_to_nodes_of st.node_columns with hctn
  set pr := remove_empty_columns st.column_x_positions cw ctn with hpr
  set sorted := sortNats (akeys pr.1) with hsorted
  set cw2 := rebuild_column_widths node_map sorted ctn pr.2 with hcw2
  set ns := resize_nodes node_map sorted ctn cw2 ns0 with hns
  set sp := space_columns sorted cw2 st.node_columns pr.1 np with hsp
  set np1 := step7_vertical_sort links ns sorted ctn sp.1 start_y sp.2 with hnp1
  set np2 := step7b_first_column links ns ctn sp.1 start_y np1 with hnp2
  have hpos : (finish_layout links start_y node_map ns0 st cw np).positions = np2 := rfl
  have hsz : (finish_layout links start_y node_map ns0 st cw np).sizes = some ns := rfl
  have hsortnd : sorted.Nodup := by
    rw [hsorted, sortNats]
    exact nodup_isortBy _ _ (remove_empty_nodup st.column_x_positions cw ctn hcxnd)
  have hmsne : ∀ c ∈ sorted, ∃ ms, alookup ctn c = some ms ∧ ms ≠ [] := by
    intro c hc
    rw [hsorted, sortNats] at hc
    have hc1 : c ∈ akeys pr.1 := (mem_isortBy _ _ _).mp hc
    have hsome := remove_empty_isSome st.column_x_positions cw ctn hcxnd c
      (by rw [hpr] at hc1; exact hc1)
    rcases Option.isSome_iff_exists.mp hsome with ⟨ms, hms⟩
    exact ⟨ms, hms, columns_to_nodes_ne_nil st.node_columns c ms hms⟩
  have hF4 : ∀ e ∈ st.node_columns, e.2 ∈ sorted := by
    intro e he
    rcases columns_to_nodes_covers st.node_columns e he with ⟨ms, hms, _⟩
    have hcs : (alookup ctn e.2).isSome := by rw [hms]; rfl
    have hx : (alookup pr.1 e.2).isSome := by
      rw [hpr, remove_empty_lookup st.column_x_positions cw ctn e.2 hcs]
      exact (alookup_isSome_iff _ _).mpr (hJ e he)
    rw [hsorted, sortNats]
    exact (mem_isortBy _ _ _).mpr ((alookup_isSome_iff _ _).mp hx)
  have hwid := rebuild_widths_nonneg node_map ctn hw sorted pr.2 hsortnd hmsne
  have hwid' : ∀ c ∈ sorted, 0 ≤ (alookup cw2 c).getD 0 := by
    intro c hc
    rcases hwid c hc with ⟨v, hv, h0⟩
    rw [hcw2, hv]
    exact h0
  have hdisj : ∀ k c c' ms ms', alookup ctn c = some ms →
      alookup ctn c' = some ms' → k ∈ ms → k ∈ ms' → c' = c := by
    intro k c c' ms ms' hms hms' hk hk'
    have h1 := columns_to_nodes_sound st.node_columns c ms hms k hk
    have h2 := columns_to_nodes_sound st.node_columns c' ms' hms' k hk'
    have e1 := alookup_of_mem_nodup st.node_columns k c hncnd h1
    have e2 := alookup_of_mem_nodup st.node_columns k c' hncnd h2
    rw [e1] at e2
    exact (Option.some.inj e2).symm
  have hspace := space_cols_x cw2 st.node_columns sorted pr.1 np 100 hsortnd hwid'
  have hspeq : sp.1 = (sorted.foldl
      (fun (st2 : List (Nat × Int) × List (Nat × Int × Int) × Int) c =>
        let current_x := st2.2.2
        let cxp := ainsert st2.1 c current_x
        let np := st.node_columns.foldl
          (fun np e =>
            if e.2 = c then
              match alookup np e.1 with
              | some pos => ainsert np e.1 (current_x, pos.2)
              | none => np
            else np)
          st2.2.1
        (cxp, np, current_x + (alookup cw2 c).getD 0 + 100))
      (pr.1, np, 100)).1 := rfl
  refine ⟨sorted, sp.1, cw2, hwid', ?_, ?_, ns, hsz, ?_⟩
  · exact hspace.2.2.1
  · intro c c' hc hc'
    rcases pairwise_total_of_mem sorted hspace.2.2.1 c c' hc hc' with h | h | h
    · exact Or.inl h
    · exact Or.inr (Or.inl h)
    · exact Or.inr (Or.inr h)
  · intro k c hkc
    have hcs : c ∈ sorted := hF4 (k, c) hkc
    rcases columns_to_nodes_covers st.node_columns (k, c) hkc with ⟨ms, hms, hkm⟩
    rcases hspace.1 c hcs with ⟨x, hxl, _, _⟩
    have hxl' : alookup sp.1 c = some x := hxl
    have hdisj7 : ∀ c' ∈ sorted, ∀ ms', alookup ctn c' = some ms' →
        k ∈ ms' → c' = c := fun c' _ ms' hms' hk' => hdisj k c c' ms ms' hms hms' hkm hk'
    rcases step7_x links ns sorted ctn sp.1 start_y sp.2 k c ms hsortnd hcs
      hms hkm hdisj7 with ⟨yv, hyv⟩
    have hdisj0 : ∀ ms0, alookup ctn 0 = some ms0 → k ∈ ms0 → c = 0 := by
      intro ms0 hms0 hk0
      exact hdisj k 0 c ms0 ms hms0 hms hk0 hkm
    rcases step7b_x links ns ctn sp.1 start_y np1 k c ⟨yv, by rw [hnp1]; exact hyv⟩
      hdisj0 with ⟨yv2, hyv2⟩
    rcases resize_x node_map sorted ctn cw2 ns0 k c ms hsortnd hcs hms hkm
      hdisj7 with ⟨h2, hh2⟩
    refine ⟨hcs, x, yv2, h2, hxl', ?_, ?_⟩
    · rw [hpos, hnp2]
      rw [hxl'] at hyv2
      exact hyv2
    · rw [hns]
      exact hh2

/-- X-monotonicity of the whole per-component pipeline: whenever one
positioned node lies strictly left of another, their gap is at least the
left node's final (column) width. -/
theorem organize_with_chains_x (nodes : List PyNode) (links : List PyLink)
    (start_y : Int) (node_map : List (Nat × PyNode))
    (children parents : List (Nat × List Nat)) (chains : List (List Nat))
    (hnd : (akeys node_map).Nodup)
    (hch : ∀ ch ∈ chains, ∀ x ∈ ch, x ∈ akeys node_map)
    (hw : ∀ e ∈ node_map, 0 ≤ e.2.size.1) :
    ∀ (k k' : Nat) (px py qx qy w h : Int) (s : List (Nat × Int × Int)),
      alookup (organize_with_chains nodes links start_y node_map
        children parents chains).positions k = some (px, py) →
      alookup (organize_with_chains nodes links start_y node_map
        children parents chains).positions k' = some (qx, qy) →
      (organize_with_chains nodes links start_y node_map
        children parents chains).sizes = some s →
      alookup s k = some (w, h) →
      px < qx → px + w ≤ qx := by
  set longest := chains.filter
    (fun c => c.length = maxNats (chains.map List.length)) with hlongest
  set aw := chain_column_assignment longest node_map with haw
  set cxp0 := initial_column_x aw.2 with hcxp0
  set np0 := assign_chain_positions longest cxp0 start_y with hnp0
  set rem := assign_remaining_columns node_map children parents np0 cxp0 aw.2 with hrem
  set ns0 := node_map.foldl (fun m e => ainsert m e.1 e.2.size) [] with hns0
  set ctx : LoopCtx := ⟨links, node_map, ns0⟩ with hctx
  set st0 : ColState := ⟨rem.1, rem.2.1⟩ with hst0
  set fl := fix_loop ctx st0 with hfl
  have heq : organize_with_chains nodes links start_y node_map children parents chains =
      finish_layout links start_y node_map ns0 fl.1 fl.2.2 np0 := rfl
  have hcols : ∀ ch ∈ longest, ∀ p ∈ ch.enum, p.1 ∈ akeys cxp0 := by
    intro ch hc p hp
    rw [hcxp0, initial_column_x_keys]
    rw [hlongest] at hc
    exact chain_cols_in_widths longest node_map ch (by rw [hlongest]; exact hc) p hp
  have hACP := assign_chain_positions_spec longest cxp0 start_y hcols
  have hseed : ∀ e ∈ np0, (alookup (pos_to_column_map cxp0) e.2.1).isSome := by
    intro e he
    rcases hACP.1 e (by rw [hnp0] at he; exact he) with ⟨ce, hce, hx⟩
    exact (alookup_isSome_iff _ _).mpr ((pos_to_column_keys cxp0 e.2.1).mpr ⟨ce, hce, hx⟩)
  have hREM := assign_remaining_spec node_map children parents np0 cxp0 aw.2 hseed
  have hnp0_sub : ∀ k ∈ akeys np0, k ∈ akeys node_map := by
    intro k hk
    rcases hACP.2.1 k (by rw [hnp0] at hk; exact hk) with ⟨ch, hchl, hkc⟩
    rw [hlongest] at hchl
    exact hch ch (List.mem_of_mem_filter hchl) k hkc
  have hncols0_keys : ∀ k, k ∈ akeys st0.node_columns ↔ k ∈ akeys node_map := by
    intro k
    rw [hst0]
    constructor
    · intro h
      rcases (hREM.1 k).mp (by rw [hrem] at h; exact h) with h | h
      · exact hnp0_sub k h
      · exact h
    · intro h
      rw [hrem]
      exact (hREM.1 k).mpr (Or.inr h)
  have hJ0 : ∀ e ∈ st0.node_columns, e.2 ∈ akeys st0.column_x_positions := by
    intro e he
    rw [hst0]
    rw [hst0] at he
    rw [hrem] at he ⊢
    exact hREM.2 e he
  have hFL := fix_loop_go_keys ctx max_iterations 0 st0 [] hJ0
  have hnd0 := assign_remaining_nodup node_map children parents np0 cxp0 aw.2
    (initial_column_x_nodup aw.2)
  have hFLnd := fix_loop_go_nodup ctx max_iterations 0 st0 []
    (by rw [hst0]; rw [hrem]; exact hnd0.1) (by rw [hst0]; rw [hrem]; exact hnd0.2)
  have hflncols : ∀ k, k ∈ akeys fl.1.node_columns ↔ k ∈ akeys node_map := by
    intro k
    rw [hfl]
    exact (hFL.1 k).trans (hncols0_keys k)
  have hflJ : ∀ e ∈ fl.1.node_columns, e.2 ∈ akeys fl.1.column_x_positions := by
    rw [hfl]
    exact hFL.2
  have hcov := organize_with_chains_cover nodes links start_y node_map
    children parents chains hnd hch
  rcases finish_layout_x links start_y node_map ns0 fl.1 fl.2.2 np0
    (by rw [hfl]; exact hFLnd.1) (by rw [hfl]; exact hFLnd.2) hflJ hw with
    ⟨sorted, M, W, hwid, hpw, htot, s', hs', hmain⟩
  intro k k' px py qx qy w h s hpk hpk' hss hsk hlt
  rw [heq] at hpk hpk' hss
  have hseq : s = s' := by
    rw [hs'] at hss
    exact (Option.some.inj hss).symm
  subst hseq
  have hkm : k ∈ akeys fl.1.node_columns := by
    refine (hflncols k).mpr ?_
    refine (hcov.1 k).mp ?_
    rw [heq]
    exact mem_akeys_of_alookup _ _ _ hpk
  have hkm' : k' ∈ akeys fl.1.node_columns := by
    refine (hflncols k').mpr ?_
    refine (hcov.1 k').mp ?_
    rw [heq]
    exact mem_akeys_of_alookup _ _ _ hpk'
  rcases Option.isSome_iff_exists.mp ((alookup_isSome_iff _ _).mpr hkm) with ⟨c, hc⟩
  rcases Option.isSome_iff_exists.mp ((alookup_isSome_iff _ _).mpr hkm') with ⟨c', hc'⟩
  rcases hmain k c (mem_of_alookup_eq_some _ _ _ hc) with
    ⟨hcs, x, yv, h2, hMx, hposk, hsk2⟩
  rcases hmain k' c' (mem_of_alookup_eq_some _ _ _ hc') with
    ⟨hcs', x', yv', h2', hMx', hposk', hsk2'⟩
  have hx : x = px := by
    rw [hposk] at hpk
    exact congrArg Prod.fst (Option.some.inj hpk)
  have hx' : x' = qx := by
    rw [hposk'] at hpk'
    exact congrArg Prod.fst (Option.some.inj hpk')
  have hww : (alookup W c).getD 0 = w := by
    rw [hsk2] at hsk
    exact congrArg Prod.fst (Option.some.inj hsk)
  rcases htot c c' hcs hcs' with hcc | hR | hR
  · subst hcc
    rw [hMx] at hMx'
    have : x = x' := Option.some.inj hMx'
    omega
  · have := hR x x' hMx hMx'
    omega
  · have := hR x' x hMx' hMx
    have hw' : 0 ≤ (alookup W c').getD 0 := hwid c' hcs'
    omega

end PipelineCoverage

/-! ## Claim C9 -/

/-- C9: every entry of the `sizes` map returned by `organize_nodes` keeps
the node's input height (its key also has an entry in `positions`), and
both maps' key lists are duplicate-free — one position and one size per
node. -/
theorem c9_sizes_spec (g : GraphData) (r : OrganizeResult)
    (s : List (Nat × Int × Int))
    (hr : organize_nodes g = some r) (hs : r.sizes = some s) :
    (∀ e ∈ s, (∃ n ∈ g.nodes, n.id = e.1 ∧ e.2.2 = n.size.2) ∧
      e.1 ∈ akeys r.positions) ∧
    (akeys s).Nodup ∧ (akeys r.positions).Nodup := by
  simp only [organize_nodes] at hr
  split at hr
  · cases hr
    cases hs
  · split at hr
    · rcases organize_single_component_spec _ _ _ _ hr with
        ⟨hpos, hsz⟩ | ⟨hpk, hpnd, s', hs', hsk, hsnd, hsv⟩
      · rcases hsz with h | h
        · rw [h] at hs
          cases hs
        · rw [h] at hs
          cases hs
          refine ⟨(by rintro e he; cases he), (by simp [akeys]), ?_⟩
          rw [hpos]
          simp [akeys]
      · rw [hs'] at hs
        cases hs
        refine ⟨?_, hsnd, hpnd⟩
        intro e he
        rcases hsv e he with ⟨n, hn, hid, hh⟩
        refine ⟨⟨n, List.mem_of_mem_filter hn, hid, hh⟩, ?_⟩
        refine (hpk e.1).mpr ⟨n, hn, hid⟩
    · simp only [Option.bind_eq_bind, Option.bind_eq_some] at hr
      obtain ⟨rs, hrs, hr⟩ := hr
      cases hr
      cases hs
      have hcomp := component_results_spec _ _ _ rs hrs
      have hres : ∀ comp ∈ isortBy (fun a b : ComponentResult =>
          decide (a.height < b.height)) rs,
          (∀ k, k ∈ akeys comp.positions ↔ k ∈ akeys comp.sizes) ∧
          (∀ e ∈ comp.sizes, ∃ n ∈ g.nodes.filter
              (fun n => decide (n.id ∈ connected_ids_of g.links)),
            n.id = e.1 ∧ e.2.2 = n.size.2) := by
        intro comp hcm
        have hcm' := (mem_isortBy _ _ _).mp hcm
        exact ⟨(hcomp comp hcm').1, (hcomp comp hcm').2.2.2⟩
      have hstack := stack_components_spec _ _ hres
      refine ⟨?_, hstack.2.2.1, hstack.2.1⟩
      intro e he
      rcases hstack.2.2.2 e he with ⟨n, hn, hid, hh⟩
      refine ⟨⟨n, List.mem_of_mem_filter hn, hid, hh⟩, ?_⟩
      refine (hstack.1 e.1).mpr ?_
      exact (mem_akeys_iff _ _).mpr ⟨e, he, rfl⟩

/-- Witness for C9 at the two-node chain input. -/
theorem c9_sizes_spec_witness :
    (∀ e ∈ [((1 : Nat), ((100 : Int), (50 : Int))), (2, (100, 50))],
      (∃ n ∈ c5_graph.nodes, n.id = e.1 ∧ e.2.2 = n.size.2) ∧
      e.1 ∈ akeys (OrganizeResult.positions
        ⟨"success", "Complete - positioned 2 nodes",
         [(1, (100, 0)), (2, (300, 0))],
         some [(1, (100, 50)), (2, (100, 50))]⟩)) ∧
    (akeys [((1 : Nat), ((100 : Int), (50 : Int))), (2, (100, 50))]).Nodup ∧
    (akeys (OrganizeResult.positions
        ⟨"success", "Complete - positioned 2 nodes",
         [(1, (100, 0)), (2, (300, 0))],
         some [(1, (100, 50)), (2, (100, 50))]⟩)).Nodup :=
  c9_sizes_spec c5_graph
    ⟨"success", "Complete - positioned 2 nodes",
     [(1, (100, 0)), (2, (300, 0))],
     some [(1, (100, 50)), (2, (100, 50))]⟩
    [(1, (100, 50)), (2, (100, 50))] (by decide) rfl

/-! ## Claim C7 -/

/-- C7: with several components, the merged layout stacks the component
results sorted ascending by computed bounding-box height (stable sort, so
equal heights keep the order the components were produced in), each
component occupying its own vertical band, later bands strictly above
earlier ones. -/
theorem c7_component_stacking (g : GraphData) (r : OrganizeResult)
    (hr : organize_nodes g = some r)
    (hmulti : (find_disconnected_components
      (g.nodes.filter (fun n => n.id ∈ connected_ids_of g.links))
      g.links).length ≠ 1)
    (hh : ∀ n ∈ g.nodes, 0 ≤ n.size.2) :
    ∃ rs, component_results_of
        (g.nodes.filter (fun n => n.id ∈ connected_ids_of g.links)) g.links
        (find_disconnected_components
          (g.nodes.filter (fun n => n.id ∈ connected_ids_of g.links)) g.links)
        = some rs ∧
      r.positions = (stack_components
        (isortBy (fun a b => a.height < b.height) rs)).1 ∧
      (isortBy (fun a b => a.height < b.height) rs).Pairwise
        (fun a b => a.height ≤ b.height) ∧
      (∀ h : Int, (isortBy (fun a b => a.height < b.height) rs).filter
          (fun c => c.height = h) = rs.filter (fun c => c.height = h)) ∧
      (∀ e ∈ r.positions, ∃ pre comp suf,
        isortBy (fun a b => a.height < b.height) rs = pre ++ comp :: suf ∧
        (pre.map (fun c => c.height + 200)).sum ≤ e.2.2 ∧
        e.2.2 ≤ (pre.map (fun c => c.height + 200)).sum + comp.height) ∧
      (∀ pre comp suf pre' comp' suf',
        isortBy (fun a b => a.height < b.height) rs = pre ++ comp :: suf →
        isortBy (fun a b => a.height < b.height) rs = pre' ++ comp' :: suf' →
        pre.length < pre'.length →
        (pre.map (fun c => c.height + 200)).sum + comp.height <
          (pre'.map (fun c => c.height + 200)).sum) := by
  simp only [organize_nodes] at hr
  split at hr
  · rename_i hempty
    have hnil : g.nodes.filter (fun n => n.id ∈ connected_ids_of g.links) = [] := by
      cases hfe : g.nodes.filter (fun n => n.id ∈ connected_ids_of g.links) with
      | nil => rfl
      | cons a l =>
        rw [hfe] at hempty
        cases hempty
    cases hr
    rw [hnil]
    refine ⟨[], rfl, rfl, List.Pairwise.nil, fun h => rfl, ?_, ?_⟩
    · rintro e he
      cases he
    · rintro pre comp suf pre' comp' suf' h1 _ _
      exact absurd h1.symm
        (List.append_ne_nil_of_right_ne_nil pre (List.cons_ne_nil comp suf))
  · rename_i hne
    simp only [Option.bind_eq_bind, Option.bind_eq_some] at hr
    obtain ⟨rs, hrs, hr⟩ := hr
    cases hr
    have hbands := component_results_bands _ _ _ rs hrs
      (fun n hn => hh n (List.mem_of_mem_filter hn))
    refine ⟨rs, hrs, rfl, ?_, ?_, ?_, ?_⟩
    · exact pairwise_isortBy
        (fun a b : ComponentResult => decide (a.height < b.height))
        (fun a b hab => le_of_lt (of_decide_eq_true hab))
        (fun a b hab => le_of_not_lt (of_decide_eq_false hab))
        (fun a b c h1 h2 => le_trans h1 h2) rs
    · intro h
      refine filter_isortBy _ _ ?_ rs
      intro a b ha hb
      have ha' : a.height = h := of_decide_eq_true ha
      have hb' : b.height = h := of_decide_eq_true hb
      apply decide_eq_false
      omega
    · intro e he
      have hstack := stack_entries_bands
        (isortBy (fun a b => a.height < b.height) rs) [] [] 0
        (fun comp hcm => (hbands comp ((mem_isortBy _ _ _).mp hcm)).1) e he
      rcases hstack with h1 | ⟨pre, comp, suf, hdec, hlo, hhi⟩
      · cases h1
      · exact ⟨pre, comp, suf, hdec, by omega, by omega⟩
    · intro pre comp suf pre' comp' suf' h1 h2 hlt
      exact stack_bands_separated _
        (fun comp hcm => (hbands comp ((mem_isortBy _ _ _).mp hcm)).2)
        pre comp suf pre' comp' suf' h1 h2 hlt

/-- Witness for C7 at a two-component input (components of ids
`{3, 4, 5}` and `{1, 2}`). -/
theorem c7_component_stacking_witness :
    ∃ rs, component_results_of
        (two_comp_graph.nodes.filter
          (fun n => n.id ∈ connected_ids_of two_comp_graph.links))
        two_comp_graph.links
        (find_disconnected_components
          (two_comp_graph.nodes.filter
            (fun n => n.id ∈ connected_ids_of two_comp_graph.links))
          two_comp_graph.links) = some rs ∧
      (OrganizeResult.positions
        ⟨"success", "Complete - positioned 5 nodes in 2 components",
         [(1, (100, 0)), (2, (300, 0)), (3, (100, 250)), (4, (300, 250)),
          (5, (300, 360))],
         some [(1, (100, 50)), (2, (100, 50)), (3, (100, 50)), (4, (100, 50)),
          (5, (100, 50))]⟩) = (stack_components
        (isortBy (fun a b => a.height < b.height) rs)).1 ∧
      (isortBy (fun a b => a.height < b.height) rs).Pairwise
        (fun a b => a.height ≤ b.height) ∧
      (∀ h : Int, (isortBy (fun a b => a.height < b.height) rs).filter
          (fun c => c.height = h) = rs.filter (fun c => c.height = h)) ∧
      (∀ e ∈ (OrganizeResult.positions
        ⟨"success", "Complete - positioned 5 nodes in 2 components",
         [(1, (100, 0)), (2, (300, 0)), (3, (100, 250)), (4, (300, 250)),
          (5, (300, 360))],
         some [(1, (100, 50)), (2, (100, 50)), (3, (100, 50)), (4, (100, 50)),
          (5, (100, 50))]⟩), ∃ pre comp suf,
        isortBy (fun a b => a.height < b.height) rs = pre ++ comp :: suf ∧
        (pre.map (fun c => c.height + 200)).sum ≤ e.2.2 ∧
        e.2.2 ≤ (pre.map (fun c => c.height + 200)).sum + comp.height) ∧
      (∀ pre comp suf pre' comp' suf',
        isortBy (fun a b => a.height < b.height) rs = pre ++ comp :: suf →
        isortBy (fun a b => a.height < b.height) rs = pre' ++ comp' :: suf' →
        pre.length < pre'.length →
        (pre.map (fun c => c.height + 200)).sum + comp.height <
          (pre'.map (fun c => c.height + 200)).sum) :=
  c7_component_stacking two_comp_graph
    ⟨"success", "Complete - positioned 5 nodes in 2 components",
     [(1, (100, 0)), (2, (300, 0)), (3, (100, 250)), (4, (300, 250)),
      (5, (300, 360))],
     some [(1, (100, 50)), (2, (100, 50)), (3, (100, 50)), (4, (100, 50)),
      (5, (100, 50))]⟩
    (by decide) (by decide) (by decide)

/-! ## Claims C1 and C2: counterexamples -/

/-- C1 counterexample: an acyclic graph with strictly positive widths on
which the correction loop converges (zero leftward links in its final
assignment), and yet in the final layout link `7 : 15 → 16` has target
X = 10500 strictly less than origin X + origin column width = 10850.  The
transient X positions the loop validated are discarded by the uniform
re-spacing of step 6d, which orders columns by index. -/
theorem c1_counterexample_leftward_survives :
    graph_acyclic c1_graph = true ∧
    organize_converged c1_graph = true ∧
    (⟨7, 15, 0, 16, 0⟩ : PyLink) ∈ c1_graph.links ∧
    ((organize_nodes c1_graph).map fun r =>
      (alookup r.positions 15, alookup r.positions 16,
       r.sizes.bind fun s => alookup s 15)) =
      some (some ((10800 : Int), (0 : Int)), some ((10500 : Int), (110 : Int)),
        some ((50 : Int), (50 : Int))) ∧
    ¬ ((10500 : Int) ≥ 10800 + 50) := by
  refine ⟨by decide, by decide, by decide, by decide, by decide⟩

/-- C1 amended: on single-component inputs with nonnegative node widths,
the final layout is column-monotone in the weaker direction the code
actually guarantees: whenever a link's target ends up strictly right of
its origin, it is at least the origin's final (resized column) width away.
Convergence of the correction loop does not guarantee the claimed
inequality for every link: the loop's validated X positions are discarded
by the index-ordered uniform re-spacing of step 6d, and a link into a
numerically smaller column survives pointing leftwards. -/
theorem c1_column_monotonicity (g : GraphData) (r : OrganizeResult)
    (hr : organize_nodes g = some r)
    (hsingle : (find_disconnected_components
      (g.nodes.filter (fun n => n.id ∈ connected_ids_of g.links))
      g.links).length = 1)
    (hw : ∀ n ∈ g.nodes, 0 ≤ n.size.1) :
    ∀ link ∈ g.links, ∀ (px py qx qy w h : Int) (s : List (Nat × Int × Int)),
      alookup r.positions link.origin_id = some (px, py) →
      alookup r.positions link.target_id = some (qx, qy) →
      r.sizes = some s →
      alookup s link.origin_id = some (w, h) →
      px < qx → px + w ≤ qx := by
  simp only [organize_nodes] at hr
  split at hr
  · cases hr
    intro link _ px py qx qy w h s hpk
    cases hpk
  · unfold organize_single_component at hr
    split at hr
    · cases hr
      intro link _ px py qx qy w h s hpk
      cases hpk
    · dsimp only at hr
      split at hr
      · cases hr
      · rename_i chains hfc
        split at hr
        · cases hr
          intro link _ px py qx qy w h s hpk
          cases hpk
        · cases hr
          intro link _ px py qx qy w h s hpk hpk' hs hsk hlt
          have hbcp := build_children_parents_spec
            (g.nodes.filter (fun n => n.id ∈ connected_ids_of g.links)) g.links
          have hch : ∀ ch ∈ chains, ∀ x ∈ ch,
              x ∈ akeys (build_node_graph
                (g.nodes.filter (fun n => n.id ∈ connected_ids_of g.links))
                g.links).1 := by
            intro ch hc x hx
            have hx1 := find_all_chains_mem _ _ _
              (fun k hk => (hbcp.1 k).mpr ((hbcp.2.1 k).mp hk))
              (fun k cs hcs c hcmem =>
                (hbcp.1 c).mpr ((hbcp.2.1 c).mp (hbcp.2.2 k cs hcs c hcmem)))
              chains hfc ch hc x hx
            exact (build_node_map_keys _ g.links x).mpr ((hbcp.1 x).mp hx1)
          have hwe : ∀ e ∈ (build_node_graph
              (g.nodes.filter (fun n => n.id ∈ connected_ids_of g.links))
              g.links).1, 0 ≤ e.2.size.1 := by
            intro e he
            rcases mem_foldl_ainsert (fun n : PyNode => n.id) id
              (g.nodes.filter (fun n => n.id ∈ connected_ids_of g.links)) [] e he
              with h1 | ⟨n, hn, rfl⟩
            · cases h1
            · exact hw n (List.mem_of_mem_filter hn)
          exact organize_with_chains_x _ g.links 0 _ _ _ chains
            (build_node_map_nodup _ g.links) hch hwe
            link.origin_id link.target_id px py qx qy w h s hpk hpk' hs hsk hlt

/-- Witness for the amended C1 at the two-node chain input: the link's
origin is at X = 100 with final width 100, the target at X = 300. -/
theorem c1_column_monotonicity_witness : (100 : Int) + 100 ≤ 300 :=
  c1_column_monotonicity c5_graph
    ⟨"success", "Complete - positioned 2 nodes",
     [(1, (100, 0)), (2, (300, 0))],
     some [(1, (100, 50)), (2, (100, 50))]⟩
    (by decide) (by decide) (by decide)
    ⟨1, 1, 0, 2, 0⟩ (by decide) 100 0 300 0 100 50
    [(1, (100, 50)), (2, (100, 50))]
    (by decide) (by decide) rfl (by decide) (by decide)

/-- C2 counterexample: a two-node directed cycle has two connected input
nodes but chain enumeration finds no root, so `organize_nodes` returns an
empty positions map — the key count 0 differs from the connected-node
count 2. -/
theorem c2_counterexample_cycle_unpositioned :
    (connected_input_ids c2_graph).length = 2 ∧
    (organize_nodes c2_graph).map (fun r => r.positions.length) = some 0 := by
  decide

/-- C2 amended: when every processed component yields at least one chain,
the returned positions map's keys are exactly the input nodes with at
least one link (as origin or target), without duplicates, so the key
count equals the connected-input-node count. -/
theorem c2_positions_cover (g : GraphData) (r : OrganizeResult)
    (hr : organize_nodes g = some r)
    (hchains : all_components_have_chains g = true) :
    (∀ k, k ∈ akeys r.positions ↔
      (∃ n ∈ g.nodes, n.id = k) ∧ k ∈ connected_ids_of g.links) ∧
    (akeys r.positions).Nodup ∧
    (akeys r.positions).length = (connected_input_ids g).length := by
  have main : (∀ k, k ∈ akeys r.positions ↔
      (∃ n ∈ g.nodes, n.id = k) ∧ k ∈ connected_ids_of g.links) ∧
      (akeys r.positions).Nodup := by
    simp only [organize_nodes] at hr
    simp only [all_components_have_chains] at hchains
    split at hr
    · rename_i hempty
      have hnil : g.nodes.filter
          (fun n => n.id ∈ connected_ids_of g.links) = [] := by
        cases hfe : g.nodes.filter (fun n => n.id ∈ connected_ids_of g.links) with
        | nil => rfl
        | cons a l =>
          rw [hfe] at hempty
          cases hempty
      cases hr
      refine ⟨?_, by simp [akeys]⟩
      intro k
      constructor
      · intro hk
        simp [akeys] at hk
      · rintro ⟨⟨n, hn, rfl⟩, hkc⟩
        have hmem : n ∈ g.nodes.filter
            (fun n => n.id ∈ connected_ids_of g.links) :=
          List.mem_filter.mpr ⟨hn, decide_eq_true hkc⟩
        rw [hnil] at hmem
        cases hmem
    · rename_i hne
      split at hr
      · rename_i hlen
        rw [if_neg hne, if_pos hlen] at hchains
        rcases has_chains_osc _ _ 0 hchains with ⟨chains, _, hfc, hosc⟩
        rw [hosc] at hr
        cases hr
        have hids := organize_with_chains_ids _ _ 0 chains hfc
        refine ⟨?_, hids.2⟩
        intro k
        rw [hids.1 k]
        constructor
        · rintro ⟨n, hn, rfl⟩
          have hmf := List.mem_filter.mp hn
          exact ⟨⟨n, hmf.1, rfl⟩, of_decide_eq_true hmf.2⟩
        · rintro ⟨⟨n, hn, rfl⟩, hkc⟩
          exact ⟨n, List.mem_filter.mpr ⟨hn, decide_eq_true hkc⟩, rfl⟩
      · rename_i hlen
        rw [if_neg hne, if_neg hlen] at hchains
        simp only [Option.bind_eq_bind, Option.bind_eq_some] at hr
        obtain ⟨rs, hrs, hr⟩ := hr
        cases hr
        dsimp only
        have hcomp := component_results_spec _ _ _ rs hrs
        constructor
        · intro k
          rw [stack_components_keys]
          constructor
          · rintro ⟨comp, hcm, hk⟩
            have hcm' := (mem_isortBy _ _ _).mp hcm
            have hspec := hcomp comp hcm'
            have hks := (hspec.1 k).mp hk
            rcases (mem_akeys_iff _ _).mp hks with ⟨e, he, rfl⟩
            rcases hspec.2.2.2 e he with ⟨n, hn, hid, _⟩
            have hmf := List.mem_filter.mp hn
            refine ⟨⟨n, hmf.1, hid⟩, ?_⟩
            rw [← hid]
            exact of_decide_eq_true hmf.2
          · rintro ⟨⟨n, hn, rfl⟩, hkc⟩
            have hnf : n ∈ g.nodes.filter
                (fun n => n.id ∈ connected_ids_of g.links) :=
              List.mem_filter.mpr ⟨hn, decide_eq_true hkc⟩
            rcases find_components_cover
                (g.nodes.filter (fun n => n.id ∈ connected_ids_of g.links))
                g.links n.id ⟨n, hnf, rfl⟩ with ⟨cids, hcids, hincids⟩
            have hhc := List.all_eq_true.mp hchains cids hcids
            rcases has_chains_osc _ _ 0 hhc with ⟨chains2, _, hfc2, hosc2⟩
            have hids2 := organize_with_chains_ids _ _ 0 chains2 hfc2
            have hcn : n ∈ (g.nodes.filter
                (fun n => n.id ∈ connected_ids_of g.links)).filter
                (fun n => n.id ∈ cids) :=
              List.mem_filter.mpr ⟨hnf, decide_eq_true hincids⟩
            have hkpos := (hids2.1 n.id).mpr ⟨n, hcn, rfl⟩
            have hguard : (decide ((organize_with_chains
                ((g.nodes.filter (fun n => n.id ∈ connected_ids_of g.links)).filter
                  (fun n => n.id ∈ cids))
                (g.links.filter
                  (fun l => l.origin_id ∈ cids && l.target_id ∈ cids)) 0
                (build_node_graph
                  ((g.nodes.filter (fun n => n.id ∈ connected_ids_of g.links)).filter
                    (fun n => n.id ∈ cids))
                  (g.links.filter
                    (fun l => l.origin_id ∈ cids && l.target_id ∈ cids))).1
                (build_node_graph
                  ((g.nodes.filter (fun n => n.id ∈ connected_ids_of g.links)).filter
                    (fun n => n.id ∈ cids))
                  (g.links.filter
                    (fun l => l.origin_id ∈ cids && l.target_id ∈ cids))).2.1
                (build_node_graph
                  ((g.nodes.filter (fun n => n.id ∈ connected_ids_of g.links)).filter
                    (fun n => n.id ∈ cids))
                  (g.links.filter
                    (fun l => l.origin_id ∈ cids && l.target_id ∈ cids))).2.2
                chains2).status = "success") &&
                !(organize_with_chains
                ((g.nodes.filter (fun n => n.id ∈ connected_ids_of g.links)).filter
                  (fun n => n.id ∈ cids))
                (g.links.filter
                  (fun l => l.origin_id ∈ cids && l.target_id ∈ cids)) 0
                (build_node_graph
                  ((g.nodes.filter (fun n => n.id ∈ connected_ids_of g.links)).filter
                    (fun n => n.id ∈ cids))
                  (g.links.filter
                    (fun l => l.origin_id ∈ cids && l.target_id ∈ cids))).1
                (build_node_graph
                  ((g.nodes.filter (fun n => n.id ∈ connected_ids_of g.links)).filter
                    (fun n => n.id ∈ cids))
                  (g.links.filter
                    (fun l => l.origin_id ∈ cids && l.target_id ∈ cids))).2.1
                (build_node_graph
                  ((g.nodes.filter (fun n => n.id ∈ connected_ids_of g.links)).filter
                    (fun n => n.id ∈ cids))
                  (g.links.filter
                    (fun l => l.origin_id ∈ cids && l.target_id ∈ cids))).2.2
                chains2).positions.isEmpty) = true := by
              rw [Bool.and_eq_true]
              refine ⟨decide_eq_true rfl, ?_⟩
              cases hp : (organize_with_chains
                  ((g.nodes.filter (fun n => n.id ∈ connected_ids_of g.links)).filter
                    (fun n => n.id ∈ cids))
                  (g.links.filter
                    (fun l => l.origin_id ∈ cids && l.target_id ∈ cids)) 0
                  (build_node_graph
                    ((g.nodes.filter (fun n => n.id ∈ connected_ids_of g.links)).filter
                      (fun n => n.id ∈ cids))
                    (g.links.filter
                      (fun l => l.origin_id ∈ cids && l.target_id ∈ cids))).1
                  (build_node_graph
                    ((g.nodes.filter (fun n => n.id ∈ connected_ids_of g.links)).filter
                      (fun n => n.id ∈ cids))
                    (g.links.filter
                      (fun l => l.origin_id ∈ cids && l.target_id ∈ cids))).2.1
                  (build_node_graph
                    ((g.nodes.filter (fun n => n.id ∈ connected_ids_of g.links)).filter
                      (fun n => n.id ∈ cids))
                    (g.links.filter
                      (fun l => l.origin_id ∈ cids && l.target_id ∈ cids))).2.2
                  chains2).positions with
              | nil =>
                rw [hp] at hkpos
                cases hkpos
              | cons a l => rfl
            unfold component_results_of at hrs
            rcases component_results_keep _ _ _ _ rs hrs cids hcids _ hosc2
                hguard with ⟨comp, hcomp_mem, hpose⟩
            refine ⟨comp, (mem_isortBy _ _ _).mpr hcomp_mem, ?_⟩
            rw [hpose]
            exact hkpos
        · have hres : ∀ comp ∈ isortBy (fun a b : ComponentResult =>
              decide (a.height < b.height)) rs,
              (∀ k, k ∈ akeys comp.positions ↔ k ∈ akeys comp.sizes) ∧
              (∀ e ∈ comp.sizes, ∃ n ∈ g.nodes.filter
                  (fun n => decide (n.id ∈ connected_ids_of g.links)),
                n.id = e.1 ∧ e.2.2 = n.size.2) := by
            intro comp hcm
            have hcm' := (mem_isortBy _ _ _).mp hcm
            exact ⟨(hcomp comp hcm').1, (hcomp comp hcm').2.2.2⟩
          exact (stack_components_spec _ _ hres).2.1
  refine ⟨main.1, main.2, ?_⟩
  have h1 : (connected_input_ids g).Nodup := by
    unfold connected_input_ids
    exact (nodup_foldl_addUnique_id g.nodes [] List.nodup_nil).filter _
  have h2 : ∀ k, k ∈ akeys r.positions ↔ k ∈ connected_input_ids g := by
    intro k
    rw [main.1 k]
    unfold connected_input_ids
    rw [List.mem_filter, mem_foldl_addUnique_id]
    constructor
    · rintro ⟨hn, hkc⟩
      exact ⟨Or.inr hn, decide_eq_true hkc⟩
    · rintro ⟨h | hn, hkc⟩
      · cases h
      · exact ⟨hn, of_decide_eq_true hkc⟩
  exact ((List.perm_ext_iff_of_nodup main.2 h1).mpr h2).length_eq

/-- Witness for the amended C2 at the two-node chain input. -/
theorem c2_positions_cover_witness :
    (∀ k, k ∈ akeys (OrganizeResult.positions
        ⟨"success", "Complete - positioned 2 nodes",
         [(1, (100, 0)), (2, (300, 0))],
         some [(1, (100, 50)), (2, (100, 50))]⟩) ↔
      (∃ n ∈ c5_graph.nodes, n.id = k) ∧ k ∈ connected_ids_of c5_graph.links) ∧
    (akeys (OrganizeResult.positions
        ⟨"success", "Complete - positioned 2 nodes",
         [(1, (100, 0)), (2, (300, 0))],
         some [(1, (100, 50)), (2, (100, 50))]⟩)).Nodup ∧
    (akeys (OrganizeResult.positions
        ⟨"success", "Complete - positioned 2 nodes",
         [(1, (100, 0)), (2, (300, 0))],
         some [(1, (100, 50)), (2, (100, 50))]⟩)).length =
      (connected_input_ids c5_graph).length :=
  c2_positions_cover c5_graph
    ⟨"success", "Complete - positioned 2 nodes",
     [(1, (100, 0)), (2, (300, 0))],
     some [(1, (100, 50)), (2, (100, 50))]⟩
    (by decide) (by decide)

end Tabularize
